import Mathlib

/-!
# Tambola: ticket generator and organizer game engine

A shallow embedding of `src/js/ticketGenerator.js` (class `TambolaTicketGenerator`)
and of the state-changing core of `src/js/game.js` (class `TambolaGame`), followed by
theorems about them.

Conventions of the embedding.

* A JavaScript array is a `List`; `null` is `none`.  Reading an index is `List.getD` or
  `l[i]?`, writing an index that exists is `List.set`.
* Numbers on tickets and in the pool are `Int`.
* `Math.random()` is an explicit random source `g : Rng`: the `pos`-th call of
  `Math.floor(Math.random() * m)` in a run yields `g pos % m`.  Every function that draws
  random numbers takes the current call position and returns the next one, so "every
  outcome of the random choices" is "every `g`".
* The only unbounded loop (`_distributeColumnCounts`) takes a bound `fuel` on the number
  of its iterations and returns `none` when the bound is hit before the loop ends.
* DOM, sound and storage effects are left out, except the winner events handed to
  `sendWinnerToDisplay`, which are logged in their order.
-/

namespace Tambola

/-! ## Random source -/

/-- Raw outcomes of the successive calls of `Math.random()`. -/
abbrev Rng := Nat → Nat

/-- The value of `Math.floor(Math.random() * m)` at call number `pos`. -/
def randomBelow (g : Rng) (pos m : Nat) : Nat := g pos % m

/-! ## Tickets -/

/-- A ticket: an array of rows, each an array of cells (`null` or a number). -/
abbrev Ticket := List (List (Option Int))

/-- The value of `ticket[row][col]` (`null` outside the grid). -/
def cell (t : Ticket) (row col : Nat) : Option Int := (t.getD row []).getD col none

/-- The assignment `ticket[row][col] = v` at a position of the grid. -/
def setCell (t : Ticket) (row col : Nat) (v : Option Int) : Ticket :=
  t.set row ((t.getD row []).set col v)

/-- The literal 3x9 grid of `null`s both generators start from. -/
def emptyTicket : Ticket := List.replicate 3 (List.replicate 9 none)

/-- Field `columnRanges` of the generator: `[min, max]` per column. -/
def columnRanges : List (Int × Int) :=
  [(1, 9), (10, 19), (20, 29), (30, 39), (40, 49), (50, 59), (60, 69), (70, 79), (80, 90)]

/-- The array built by `for (let n = min; n <= max; n++) available.push(n)`. -/
def rangeIncl (mn mx : Int) : List Int :=
  (List.range (mx - mn + 1).toNat).map (fun (i : Nat) => mn + (i : Int))

/-- Ascending numeric sort, `.sort((a, b) => a - b)`. -/
def sortAsc (l : List Int) : List Int := l.insertionSort (fun a b => a ≤ b)

/-- Ascending numeric sort of row indices. -/
def sortAscNat (l : List Nat) : List Nat := l.insertionSort (fun a b => a ≤ b)

/-- The exchange `[array[i], array[j]] = [array[j], array[i]]`. -/
def swapAt {α : Type} (a : List α) (i j : Nat) : List α :=
  match a[i]?, a[j]? with
  | some x, some y => (a.set i y).set j x
  | _, _ => a

/-- Loop of `_shuffle` with loop variable `i`: while `i > 0`, swap `array[i]` with
`array[j]` for a random `j ≤ i`, then decrement `i`. -/
def shuffleLoop {α : Type} (g : Rng) : Nat → Nat → List α → List α × Nat
  | 0, pos, a => (a, pos)
  | i + 1, pos, a => shuffleLoop g i (pos + 1) (swapAt a (i + 1) (randomBelow g pos (i + 2)))

/-- The Fisher-Yates shuffle `_shuffle(array)`; returns the array and the next call number. -/
def _shuffle {α : Type} (g : Rng) (pos : Nat) (a : List α) : List α × Nat :=
  shuffleLoop g (a.length - 1) pos a

/-- Loop of `_distributeColumnCounts`: `while (remaining > 0)` pick a random column and
raise its count when it is below 3.  `fuel` bounds the number of iterations. -/
def distributeLoop (g : Rng) : Nat → Nat → List Nat → Nat → Option (List Nat × Nat)
  | _, pos, counts, 0 => some (counts, pos)
  | 0, _, _, _ + 1 => none
  | fuel + 1, pos, counts, remaining + 1 =>
    let col := randomBelow g pos 9
    if counts.getD col 0 < 3 then
      distributeLoop g fuel (pos + 1) (counts.set col (counts.getD col 0 + 1)) remaining
    else
      distributeLoop g fuel (pos + 1) counts (remaining + 1)

/-- The method `_distributeColumnCounts()`: start from one number per column and hand out
the `15 - 9` others. -/
def _distributeColumnCounts (g : Rng) (fuel pos : Nat) : Option (List Nat × Nat) :=
  distributeLoop g fuel pos [1, 1, 1, 1, 1, 1, 1, 1, 1] (15 - 9)

/-- The method `_selectRows(count)`: shuffle `[0, 1, 2]`, keep the first `count`, sort. -/
def _selectRows (g : Rng) (pos count : Nat) : List Nat × Nat :=
  let r := _shuffle g pos [0, 1, 2]
  (sortAscNat (r.1.take count), r.2)

/-- First loop of `_tryGenerateTicket`: the shuffled range of every column. -/
def shuffledColumns (g : Rng) (pos : Nat) : List (List Int) × Nat :=
  (List.range 9).foldl (fun (acc : List (List Int) × Nat) col =>
    let r := _shuffle g acc.2 (rangeIncl (columnRanges.getD col (0, 0)).1
      (columnRanges.getD col (0, 0)).2)
    (acc.1 ++ [r.1], r.2)) ([], pos)

/-- The loop `for (let i = 0; i < count; i++) ticket[rows[i]][col] = numbers[i]`. -/
def placeNumbers (t : Ticket) (col count : Nat) (rows : List Nat) (numbers : List Int) :
    Ticket :=
  (List.range count).foldl (fun t i => setCell t (rows.getD i 0) col numbers[i]?) t

/-- Second loop of `_tryGenerateTicket`: give every column its sorted numbers in randomly
selected rows. -/
def assignColumns (g : Rng) (columnNumbers : List (List Int)) (columnCounts : List Nat)
    (t : Ticket) (pos : Nat) : Ticket × Nat :=
  (List.range 9).foldl (fun (acc : Ticket × Nat) col =>
    let count := columnCounts.getD col 0
    let numbers := sortAsc ((columnNumbers.getD col []).take count)
    let r := _selectRows g acc.2 count
    (placeNumbers acc.1 col count r.1 numbers, r.2)) (t, pos)

/-- The array `ticket.map(row => row.filter(n => n !== null).length)`. -/
def rowCountsOf (t : Ticket) : List Nat := t.map (fun row => (row.filter Option.isSome).length)

/-- The array `ticket.map(row => row[col]).filter(n => n !== null)`. -/
def columnNumbersOf (t : Ticket) (col : Nat) : List Int :=
  (t.map (fun row => row.getD col none)).filterMap id

/-- The arrays `rowCounts.map((count, idx) => p(count) ? idx : -1).filter(idx => idx !== -1)`. -/
def indicesWhere (p : Nat → Bool) (rowCounts : List Nat) : List Nat :=
  (List.range rowCounts.length).filter (fun idx => p (rowCounts.getD idx 0))

/-- Body of the column loop of `_balanceRows` for one column: when `fromRow` has a number
there, `toRow` has none and the column's range still has an unused number, move (`some`,
the loop breaks); otherwise `none` (the loop goes on). -/
def moveInColumn (g : Rng) (t : Ticket) (fromRow toRow col pos : Nat) : Option (Ticket × Nat) :=
  if (cell t fromRow col).isSome && (cell t toRow col).isNone then
    let existingInCol := columnNumbersOf t col
    let available := (rangeIncl (columnRanges.getD col (0, 0)).1
      (columnRanges.getD col (0, 0)).2).filter (fun n => !existingInCol.contains n)
    if available.length > 0 then
      let t1 := setCell t fromRow col none
      let newNum := available[randomBelow g pos available.length]?
      let t2 := setCell t1 toRow col newNum
      let colNums := sortAsc (columnNumbersOf t2 col)
      let colRows := (List.range t2.length).filter (fun idx => (cell t2 idx col).isSome)
      some (placeNumbers t2 col colNums.length colRows colNums, pos + 1)
    else none
  else none

/-- The column loop `for (let col = 0; col < 9; col++)` of `_balanceRows`, up to its `break`. -/
def tryColumns (g : Rng) (t : Ticket) (fromRow toRow pos : Nat) : List Nat → Ticket × Nat
  | [] => (t, pos)
  | col :: rest =>
    match moveInColumn g t fromRow toRow col pos with
    | some r => r
    | none => tryColumns g t fromRow toRow pos rest

/-- The attempts loop of `_balanceRows`; the first argument is the number of passes left. -/
def balanceLoop (g : Rng) : Nat → Ticket → Nat → Bool × Ticket × Nat
  | 0, t, pos => (false, t, pos)
  | k + 1, t, pos =>
    let rowCounts := rowCountsOf t
    if rowCounts.all (fun count => count == 5) then (true, t, pos)
    else
      let overflowRows := indicesWhere (fun count => decide (count > 5)) rowCounts
      let underflowRows := indicesWhere (fun count => decide (count < 5)) rowCounts
      if overflowRows.length == 0 || underflowRows.length == 0 then balanceLoop g k t pos
      else
        let r := tryColumns g t (overflowRows.getD 0 0) (underflowRows.getD 0 0) pos
          (List.range 9)
        balanceLoop g k r.1 r.2

/-- The method `_balanceRows(ticket, columnNumbers)` (its second argument is never read):
the returned flag, the ticket as mutated, and the next call number. -/
def _balanceRows (g : Rng) (t : Ticket) (pos : Nat) : Bool × Ticket × Nat :=
  balanceLoop g 50 t pos

/-- The method `_tryGenerateTicket()`; `none` when the column-count loop does not end
within `fuel` iterations. -/
def _tryGenerateTicket (g : Rng) (fuel pos : Nat) : Option (Ticket × Nat) :=
  let cn := shuffledColumns g pos
  match _distributeColumnCounts g fuel cn.2 with
  | none => none
  | some (columnCounts, p2) =>
    let a := assignColumns g cn.1 columnCounts emptyTicket p2
    let b := _balanceRows g a.1 a.2
    some (b.2.1, b.2.2)

/-- The column part of `_isValidTicket`, for the numbers `colNums` of one column. -/
def columnOk (colNums : List Int) (mn mx : Int) : Bool :=
  !(decide (colNums.length < 1) || decide (colNums.length > 3)) &&
  colNums.all (fun num => !(decide (num < mn) || decide (num > mx))) &&
  (List.range' 1 (colNums.length - 1)).all
    (fun i => !decide (colNums.getD i 0 ≤ colNums.getD (i - 1) 0))

/-- The method `_isValidTicket(ticket)`, on a ticket that is not `null` (the first test of
the method): the row loop, then the column loop, each with its early `return false`. -/
def _isValidTicket (t : Ticket) : Bool :=
  (List.range 3).all (fun row => ((t.getD row []).filter Option.isSome).length == 5) &&
  (List.range 9).all (fun col =>
    columnOk (columnNumbersOf t col) (columnRanges.getD col (0, 0)).1
      (columnRanges.getD col (0, 0)).2)

/-- The table `patterns` of `_generateTicketGuaranteed`. -/
def patterns : List (List Nat) :=
  [[2, 2, 2, 2, 1, 2, 1, 2, 1],
   [1, 2, 2, 2, 2, 1, 2, 2, 1],
   [2, 1, 2, 1, 2, 2, 2, 1, 2],
   [1, 2, 1, 2, 2, 2, 2, 2, 1],
   [2, 2, 1, 2, 2, 1, 2, 1, 2]]

/-- The table `rowPatterns` of `_generateTicketGuaranteed`. -/
def rowPatterns : Nat → List (List Nat)
  | 1 => [[0], [1], [2]]
  | 2 => [[0, 1], [0, 2], [1, 2]]
  | 3 => [[0, 1, 2]]
  | _ => []

/-- The array `tempCounts`: a copy of `rowCounts` with the rows of `rp` incremented. -/
def tempCountsOf (rowCounts rp : List Nat) : List Nat :=
  rp.foldl (fun tc row => tc.set row (tc.getD row 0 + 1)) rowCounts

/-- The score `Math.max(...tempCounts) - Math.min(...tempCounts)`. -/
def spread (tempCounts : List Nat) : Nat :=
  tempCounts.foldl max 0 - tempCounts.foldl min (tempCounts.headD 0)

/-- The selection loop over `availablePatterns`: keep the first pattern of strictly
smallest score (`bestScore` starts at `Infinity`, here `none`). -/
def chooseBest (rowCounts : List Nat) (availablePatterns : List (List Nat)) : List Nat :=
  (availablePatterns.foldl (fun (acc : List Nat × Option Nat) rp =>
    let score := spread (tempCountsOf rowCounts rp)
    match acc.2 with
    | none => (rp, some score)
    | some best => if score < best then (rp, some score) else acc)
    (availablePatterns.headD [], none)).1

/-- The filter `rowPatterns[count].filter(rows => rows.every(row => rowCounts[row] < 5))`. -/
def availablePatternsOf (rowCounts : List Nat) (count : Nat) : List (List Nat) :=
  (rowPatterns count).filter (fun rows => rows.all (fun row => decide (rowCounts.getD row 0 < 5)))

/-- State of the column loop of `_generateTicketGuaranteed`. -/
structure FillState where
  ticket : Ticket
  rowCounts : List Nat
  pos : Nat

/-- One pass of the column loop of `_generateTicketGuaranteed`. -/
def guaranteedStep (g : Rng) (pattern : List Nat) (s : FillState) (col : Nat) : FillState :=
  let count := pattern.getD col 0
  let availablePatterns := availablePatternsOf s.rowCounts count
  if availablePatterns.length = 0 then s
  else
    let bestPattern := chooseBest s.rowCounts availablePatterns
    let r := _shuffle g s.pos (rangeIncl (columnRanges.getD col (0, 0)).1
      (columnRanges.getD col (0, 0)).2)
    let numbers := sortAsc (r.1.take count)
    { ticket := placeNumbers s.ticket col count bestPattern numbers
      rowCounts := (List.range count).foldl
        (fun rc i => rc.set (bestPattern.getD i 0) (rc.getD (bestPattern.getD i 0) 0 + 1))
        s.rowCounts
      pos := r.2 }

/-- The column loop of `_generateTicketGuaranteed` for a given pattern. -/
def fillPattern (g : Rng) (pattern : List Nat) (pos : Nat) : FillState :=
  (List.range 9).foldl (guaranteedStep g pattern)
    { ticket := emptyTicket, rowCounts := [0, 0, 0], pos := pos }

/-- The method `_generateTicketGuaranteed()`. -/
def _generateTicketGuaranteed (g : Rng) (pos : Nat) : Ticket × Nat :=
  let pattern := patterns.getD (randomBelow g pos patterns.length) []
  let s := fillPattern g pattern (pos + 1)
  (s.ticket, s.pos)

/-- The `do ... while` loop of `generateTicket`; `left` is the number of further attempts
allowed after the next one (`maxAttempts - attempts - 1`). -/
def generateTicketLoop (g : Rng) (fuel : Nat) : Nat → Nat → Option (Ticket × Nat)
  | 0, pos => _tryGenerateTicket g fuel pos
  | left + 1, pos =>
    match _tryGenerateTicket g fuel pos with
    | none => none
    | some (t, p) => if !_isValidTicket t then generateTicketLoop g fuel left p else some (t, p)

/-- The method `generateTicket()`. -/
def generateTicket (g : Rng) (fuel pos : Nat) : Option (Ticket × Nat) :=
  match generateTicketLoop g fuel 99 pos with
  | none => none
  | some (t, p) => if !_isValidTicket t then some (_generateTicketGuaranteed g p) else some (t, p)

/-- The method `generateTickets(count)`. -/
def generateTickets (g : Rng) (fuel : Nat) : Nat → Nat → Option (List Ticket × Nat)
  | 0, pos => some ([], pos)
  | count + 1, pos =>
    match generateTicket g fuel pos with
    | none => none
    | some (t, p) =>
      match generateTickets g fuel count p with
      | none => none
      | some (ts, p2) => some (t :: ts, p2)

/-! ## What a valid ticket is -/

/-- The grid has 3 rows of 9 cells. -/
def Shape (t : Ticket) : Prop := t.length = 3 ∧ ∀ row ∈ t, row.length = 9

instance (t : Ticket) : Decidable (Shape t) := by unfold Shape; infer_instance

/-- Lower end of the range of column `c`: 1 for column 0, else `10c`. -/
def rangeLo (c : Nat) : Int := if c = 0 then 1 else 10 * (c : Int)

/-- Upper end of the range of column `c`: 90 for column 8, else `10c + 9`. -/
def rangeHi (c : Nat) : Int := if c = 8 then 90 else 10 * (c : Int) + 9

/-- Number of non-null cells of row `r`. -/
def nonNullInRow (t : Ticket) (r : Nat) : Nat :=
  ((List.range 9).filter (fun c => (cell t r c).isSome)).length

/-- Number of non-null cells of column `c`. -/
def nonNullInCol (t : Ticket) (c : Nat) : Nat :=
  ((List.range 3).filter (fun r => (cell t r c).isSome)).length

/-- The four ticket conditions, stated cell by cell. -/
structure ValidTicket (t : Ticket) : Prop where
  rows : ∀ r, r < 3 → nonNullInRow t r = 5
  cols : ∀ c, c < 9 → 1 ≤ nonNullInCol t c ∧ nonNullInCol t c ≤ 3
  inRange : ∀ r c v, r < 3 → c < 9 → cell t r c = some v → rangeLo c ≤ v ∧ v ≤ rangeHi c
  increasing : ∀ r₁ r₂ c a b, r₁ < r₂ → r₂ < 3 → c < 9 →
    cell t r₁ c = some a → cell t r₂ c = some b → a < b

/-! ## The row plan of the fallback generator -/

/-- The row counts after one pass of the column loop of `_generateTicketGuaranteed`: the
part of `guaranteedStep` that does not depend on the random numbers. -/
def planStep (pattern : List Nat) (rowCounts : List Nat) (col : Nat) : List Nat :=
  let count := pattern.getD col 0
  let availablePatterns := availablePatternsOf rowCounts count
  if availablePatterns.length = 0 then rowCounts
  else
    let bestPattern := chooseBest rowCounts availablePatterns
    (List.range count).foldl
      (fun rc i => rc.set (bestPattern.getD i 0) (rc.getD (bestPattern.getD i 0) 0 + 1))
      rowCounts

/-- The row counts before column `col` is filled. -/
def planBefore (pattern : List Nat) (col : Nat) : List Nat :=
  (List.range col).foldl (planStep pattern) [0, 0, 0]

/-- The greedy row assignment never finds `availablePatterns` empty on `pattern`, and ends
with 5 numbers in every row. -/
def PlanOk (pattern : List Nat) : Prop :=
  (∀ col, col < 9 → availablePatternsOf (planBefore pattern col) (pattern.getD col 0) ≠ []) ∧
  planBefore pattern 9 = [5, 5, 5]

instance (pattern : List Nat) : Decidable (PlanOk pattern) := by unfold PlanOk; infer_instance

/-- Column `c` passes the column check of `_isValidTicket`. -/
def ColumnGood (t : Ticket) (c : Nat) : Prop :=
  columnOk ([cell t 0 c, cell t 1 c, cell t 2 c].filterMap id) (rangeLo c) (rangeHi c) = true

/-- Invariant of the column loop of `_generateTicketGuaranteed` before column `c`. -/
structure FillInv (c : Nat) (s : FillState) : Prop where
  shape : Shape s.ticket
  counts : s.rowCounts =
    [nonNullInRow s.ticket 0, nonNullInRow s.ticket 1, nonNullInRow s.ticket 2]
  filled : ∀ c', c' < c → ColumnGood s.ticket c'
  blank : ∀ c' r, c ≤ c' → c' < 9 → r < 3 → cell s.ticket r c' = none

/-! ## When the column-count loop ends -/

/-- Among any `w` successive random values, every column index is picked at least once. -/
def PicksEveryColumn (g : Rng) (w : Nat) : Prop :=
  ∀ pos col, col < 9 → ∃ j, j < w ∧ randomBelow g (pos + j) 9 = col

/-- Invariant of the loop of `_distributeColumnCounts`: nine counts between 1 and 3 that,
with what remains to hand out, add up to 15. -/
def CountsInv (counts : List Nat) (remaining : Nat) : Prop :=
  counts.length = 9 ∧ (∀ i, i < 9 → 1 ≤ counts.getD i 0 ∧ counts.getD i 0 ≤ 3) ∧
    counts.sum + remaining = 15

/-- Total number of non-null cells of the three rows. -/
def totalNonNull (t : Ticket) : Nat :=
  nonNullInRow t 0 + nonNullInRow t 1 + nonNullInRow t 2

/-- A concrete ticket, used to instantiate statements. -/
def sampleTicket : Ticket :=
  [[some 1, none, some 20, none, some 42, some 52, none, some 70, none],
   [none, some 12, none, some 30, some 44, none, some 60, some 76, none],
   [none, some 19, none, some 37, none, some 55, some 62, none, some 90]]

/-! ## Game engine: state -/

/-- The keys of `winners` and `winnerLimits`. -/
inductive Category where
  | earlyFive
  | topLine
  | middleLine
  | bottomLine
  | corners
  | fullHouse
  deriving DecidableEq, Repr

/-- Field `winnerLimits`. -/
def winnerLimits : Category → Nat
  | .earlyFive => 1
  | .topLine => 2
  | .middleLine => 2
  | .bottomLine => 2
  | .corners => 2
  | .fullHouse => 3

/-- A participant object after `loadParticipants`.  `cornersWon` is `undefined` until it
is set, which reads as `false`. -/
structure Participant where
  id : Nat
  name : String
  ticket : Ticket
  markedNumbers : List Int
  rowsCompleted : List Bool
  cornersWon : Bool
  deriving DecidableEq, Repr

/-- An element of a `winners[category]` array: the participant object pushed there, of
which only `id` (in `hasWon`) and `name` (in `syncDisplayWindow`) are ever read. -/
structure LedgerEntry where
  id : Nat
  name : String
  deriving DecidableEq, Repr

/-- A winner event: an element of `pendingWinners`, or the arguments of one call of
`sendWinnerToDisplay`. -/
structure WinnerEvent where
  category : Category
  name : String
  displayName : String
  deriving DecidableEq, Repr

/-- Field `winners`: one array per category. -/
structure Winners where
  earlyFive : List LedgerEntry
  topLine : List LedgerEntry
  middleLine : List LedgerEntry
  bottomLine : List LedgerEntry
  corners : List LedgerEntry
  fullHouse : List LedgerEntry
  deriving DecidableEq, Repr

/-- The value of `winners[category]`. -/
def Winners.get (w : Winners) : Category → List LedgerEntry
  | .earlyFive => w.earlyFive
  | .topLine => w.topLine
  | .middleLine => w.middleLine
  | .bottomLine => w.bottomLine
  | .corners => w.corners
  | .fullHouse => w.fullHouse

/-- The call `winners[category].push(e)`. -/
def Winners.push (w : Winners) (c : Category) (e : LedgerEntry) : Winners :=
  match c with
  | .earlyFive => { w with earlyFive := w.earlyFive ++ [e] }
  | .topLine => { w with topLine := w.topLine ++ [e] }
  | .middleLine => { w with middleLine := w.middleLine ++ [e] }
  | .bottomLine => { w with bottomLine := w.bottomLine ++ [e] }
  | .corners => { w with corners := w.corners ++ [e] }
  | .fullHouse => { w with fullHouse := w.fullHouse ++ [e] }

/-- The object literal with six empty arrays. -/
def emptyWinners : Winners :=
  { earlyFive := [], topLine := [], middleLine := [], bottomLine := [], corners := [],
    fullHouse := [] }

/-- The fields of `TambolaGame` that the engine reads and writes, and `displayed`, the log
of the calls of `sendWinnerToDisplay`. -/
structure Game where
  participants : List Participant
  calledNumbers : List Int
  remainingNumbers : List Int
  currentNumber : Option Int
  autoCallInterval : Option Nat
  winners : Winners
  autoAnnounce : Bool
  pendingWinners : List WinnerEvent
  displayed : List WinnerEvent
  deriving DecidableEq, Repr

/-- One entry of the roster file: `{id, name, ticket}`. -/
structure RosterEntry where
  id : Nat
  name : String
  ticket : Ticket
  deriving DecidableEq, Repr

/-- The array `Array.from({ length: 90 }, (_, i) => i + 1)`. -/
def fullPool : List Int := (List.range 90).map (fun (i : Nat) => (i : Int) + 1)

/-! ## Game engine: operations -/

/-- The method `stopAutoCall()`. -/
def stopAutoCall (s : Game) : Game := { s with autoCallInterval := none }

/-- The method `hasWon(participant, category)`. -/
def hasWon (s : Game) (p : Participant) (c : Category) : Bool :=
  (s.winners.get c).any (fun w => w.id == p.id)

/-- The method `sendWinnerToDisplay(category, name, displayName)`. -/
def sendWinnerToDisplay (s : Game) (e : WinnerEvent) : Game :=
  { s with displayed := s.displayed ++ [e] }

/-- The method `announceWinner(category, participant, displayName)`. -/
def announceWinner (s : Game) (c : Category) (p : Participant) (displayName : String) : Game :=
  let s1 := { s with winners := s.winners.push c { id := p.id, name := p.name } }
  if s1.autoAnnounce then
    sendWinnerToDisplay s1 { category := c, name := p.name, displayName := displayName }
  else
    { s1 with pendingWinners := s1.pendingWinners ++
        [{ category := c, name := p.name, displayName := displayName }] }

/-- The search of `checkWinners` for `calledNumber` in the 3x9 cells of a ticket. -/
def onTicket (t : Ticket) (calledNumber : Int) : Bool :=
  (List.range 3).any (fun row => (List.range 9).any (fun col =>
    cell t row col == some calledNumber))

/-- The entries `categories[row]` of `checkRowWins`. -/
def lineCategory : Nat → Category
  | 0 => .topLine
  | 1 => .middleLine
  | _ => .bottomLine

/-- The entries `names[row]` of `checkRowWins`. -/
def lineName : Nat → String
  | 0 => "Top Line"
  | 1 => "Middle Line"
  | _ => "Bottom Line"

/-- The array `participant.ticket[row].filter(n => n !== null)`. -/
def rowNumbers (t : Ticket) (row : Nat) : List Int := (t.getD row []).filterMap id

/-- The text `(${position}${position === 1 ? 'st' : 'nd'})` after a prize name. -/
def rankLabel (position : Nat) : String :=
  " (" ++ toString position ++ (if position = 1 then "st" else "nd") ++ ")"

/-- Body of the loop of `checkRowWins` for one row. -/
def checkRow (sp : Game × Participant) (row : Nat) : Game × Participant :=
  if sp.2.rowsCompleted.getD row false then sp
  else
    let allMarked := (rowNumbers sp.2.ticket row).all (fun n => sp.2.markedNumbers.contains n)
    if allMarked then
      let p1 := { sp.2 with rowsCompleted := sp.2.rowsCompleted.set row true }
      if (sp.1.winners.get (lineCategory row)).length < winnerLimits (lineCategory row) &&
          !hasWon sp.1 p1 (lineCategory row) then
        let position := (sp.1.winners.get (lineCategory row)).length + 1
        (announceWinner sp.1 (lineCategory row) p1 (lineName row ++ rankLabel position), p1)
      else (sp.1, p1)
    else sp

/-- The method `checkRowWins(participant)`. -/
def checkRowWins (s : Game) (p : Participant) : Game × Participant :=
  (List.range 3).foldl checkRow (s, p)

/-- The method `getFirstNumberInRow(ticket, row)`. -/
def getFirstNumberInRow (t : Ticket) (row : Nat) : Option Int :=
  (List.range 9).findSome? (fun col => cell t row col)

/-- The method `getLastNumberInRow(ticket, row)`. -/
def getLastNumberInRow (t : Ticket) (row : Nat) : Option Int :=
  (List.range 9).reverse.findSome? (fun col => cell t row col)

/-- The method `checkCornerWins(participant)`. -/
def checkCornerWins (s : Game) (p : Participant) : Game × Participant :=
  if p.cornersWon then (s, p)
  else
    let corners := [getFirstNumberInRow p.ticket 0, getLastNumberInRow p.ticket 0,
      getFirstNumberInRow p.ticket 2, getLastNumberInRow p.ticket 2]
    let allCornersMarked := corners.all (fun n =>
      match n with
      | none => false
      | some v => p.markedNumbers.contains v)
    if allCornersMarked && (s.winners.get .corners).length < winnerLimits .corners &&
        !hasWon s p .corners then
      let p1 := { p with cornersWon := true }
      let position := (s.winners.get .corners).length + 1
      (announceWinner s .corners p1 ("Corners" ++ rankLabel position), p1)
    else (s, p)

/-- The Early Five test of `checkWinners`. -/
def checkEarlyFive (s : Game) (p : Participant) : Game :=
  if (s.winners.get .earlyFive).length < winnerLimits .earlyFive &&
      p.markedNumbers.length ≥ 5 && !hasWon s p .earlyFive then
    announceWinner s .earlyFive p "Early Five"
  else s

/-- The text `position === 1 ? '1st' : position === 2 ? '2nd' : '3rd'`. -/
def fullHouseSuffix (position : Nat) : String :=
  if position = 1 then "1st" else if position = 2 then "2nd" else "3rd"

/-- The Full House test of `checkWinners`. -/
def checkFullHouse (s : Game) (p : Participant) : Game :=
  if (s.winners.get .fullHouse).length < winnerLimits .fullHouse &&
      p.markedNumbers.length ≥ 15 && !hasWon s p .fullHouse then
    let position := (s.winners.get .fullHouse).length + 1
    let s1 := announceWinner s .fullHouse p ("Full House (" ++ fullHouseSuffix position ++ ")")
    if (s1.winners.get .fullHouse).length ≥ winnerLimits .fullHouse then stopAutoCall s1
    else s1
  else s

/-- Body of the `forEach` of `checkWinners` for one participant: the engine state and the
participant object after it.  The field `participants` of the state is not read. -/
def checkParticipant (calledNumber : Int) (s : Game) (p : Participant) : Game × Participant :=
  if onTicket p.ticket calledNumber then
    let p1 := { p with markedNumbers := p.markedNumbers ++ [calledNumber] }
    let s1 := checkEarlyFive s p1
    let r2 := checkRowWins s1 p1
    let r3 := checkCornerWins r2.1 r2.2
    (checkFullHouse r3.1 r3.2, r3.2)
  else (s, p)

/-- The `forEach` of `checkWinners` over the roster, in roster order. -/
def checkAll (calledNumber : Int) : Game → List Participant → Game × List Participant
  | s, [] => (s, [])
  | s, p :: ps =>
    let r := checkParticipant calledNumber s p
    let rest := checkAll calledNumber r.1 ps
    (rest.1, r.2 :: rest.2)

/-- The method `checkWinners(calledNumber)`. -/
def checkWinners (s : Game) (calledNumber : Int) : Game :=
  let r := checkAll calledNumber s s.participants
  { r.1 with participants := r.2 }

/-- The method `callNextNumber()`: `getLast?` is `none` exactly when
`remainingNumbers.length === 0`; otherwise `pop()` takes the last element. -/
def callNextNumber (s : Game) : Game :=
  match s.remainingNumbers.getLast? with
  | none => stopAutoCall s
  | some number =>
    checkWinners { s with remainingNumbers := s.remainingNumbers.dropLast
                          currentNumber := some number
                          calledNumbers := s.calledNumbers ++ [number] } number

/-- The method `manualCallNumber(number)`: `indexOf` and `splice(idx, 1)` erase the first
occurrence, if any. -/
def manualCallNumber (s : Game) (number : Int) : Game :=
  if s.calledNumbers.contains number then s
  else
    checkWinners { s with remainingNumbers := s.remainingNumbers.erase number
                          currentNumber := some number
                          calledNumbers := s.calledNumbers ++ [number] } number

/-- The engine part of `resetGame()`; the shuffle reads the random source at `pos`. -/
def resetGame (g : Rng) (pos : Nat) (s : Game) : Game :=
  { s with calledNumbers := []
           currentNumber := none
           remainingNumbers := (_shuffle g pos fullPool).1
           winners := emptyWinners
           participants := s.participants.map (fun p =>
             { p with markedNumbers := [], rowsCompleted := [false, false, false],
                      cornersWon := false })
           pendingWinners := []
           autoCallInterval := none }

/-- The game after the constructor, `init()` and `loadParticipants()` on a roster. -/
def newGame (g : Rng) (pos : Nat) (roster : List RosterEntry) : Game :=
  { participants := roster.map (fun e =>
      { id := e.id, name := e.name, ticket := e.ticket, markedNumbers := [],
        rowsCompleted := [false, false, false], cornersWon := false })
    calledNumbers := []
    remainingNumbers := (_shuffle g pos fullPool).1
    currentNumber := none
    autoCallInterval := none
    winners := emptyWinners
    autoAnnounce := true
    pendingWinners := []
    displayed := [] }

/-- States reached from a fresh game by draws (automatic or of a chosen number in 1..90)
and resets. -/
inductive Reachable : Game → Prop where
  | fresh (g : Rng) (pos : Nat) (roster : List RosterEntry) : Reachable (newGame g pos roster)
  | callNext (s : Game) : Reachable s → Reachable (callNextNumber s)
  | manual (s : Game) (n : Int) : Reachable s → 1 ≤ n → n ≤ 90 →
      Reachable (manualCallNumber s n)
  | reset (g : Rng) (pos : Nat) (s : Game) : Reachable s → Reachable (resetGame g pos s)

/-! ## Game engine: views and invariants -/

/-- The fields that winner detection never writes. -/
def poolView (s : Game) : List Int × List Int × Option Int × Bool :=
  (s.calledNumbers, s.remainingNumbers, s.currentNumber, s.autoAnnounce)

/-- The number pool invariant: `calledNumbers` followed by `remainingNumbers` is a
rearrangement of 1..90. -/
def PoolInv (s : Game) : Prop := (s.calledNumbers ++ s.remainingNumbers).Perm fullPool

/-- No ledger is over its limit and no id occurs twice in a ledger. -/
def LedgerOk (w : Winners) : Prop :=
  ∀ c, (w.get c).length ≤ winnerLimits c ∧ ((w.get c).map (fun e => e.id)).Nodup

/-- The fields of a participant that winner detection never writes, and the marks. -/
def coreView (p : Participant) : Nat × String × Ticket × List Int :=
  (p.id, p.name, p.ticket, p.markedNumbers)

/-- The number `m` is in one of the 3x9 cells of the ticket. -/
def OnTicket (t : Ticket) (m : Int) : Prop :=
  ∃ r c, r < 3 ∧ c < 9 ∧ cell t r c = some m

/-- Effect of a draw of `n` on one participant: same id, name and ticket, and `n` appended
to the marks exactly when it is on the ticket. -/
def DrawMarks (n : Int) (p p' : Participant) : Prop :=
  p'.id = p.id ∧ p'.name = p.name ∧ p'.ticket = p.ticket ∧
    (OnTicket p.ticket n → p'.markedNumbers = p.markedNumbers ++ [n]) ∧
    (¬ OnTicket p.ticket n → p'.markedNumbers = p.markedNumbers)

/-- The marks of every participant are, without repetition, the called numbers that are on
the participant's ticket. -/
def MarkInv (s : Game) : Prop :=
  ∀ p ∈ s.participants, p.markedNumbers.Nodup ∧
    ∀ m, m ∈ p.markedNumbers ↔ (OnTicket p.ticket m ∧ m ∈ s.calledNumbers)

/-- Every non-null cell of row `r` of the ticket is in `marked`. -/
def RowComplete (t : Ticket) (r : Nat) (marked : List Int) : Prop :=
  ∀ v, some v ∈ t.getD r [] → v ∈ marked

/-- A row flagged as completed is fully marked. -/
def RowFlagsSound (p : Participant) : Prop :=
  ∀ r, r < 3 → p.rowsCompleted.getD r false = true →
    RowComplete p.ticket r p.markedNumbers

/-- The test under which `checkRowWins` announces row `row` for `p`, given the ledger of
that row's category: the row is not flagged yet, all its numbers are marked, the ledger
holds fewer than 2 entries and none with the id of `p`. -/
def lineWinsNow (ledger : List LedgerEntry) (p : Participant) (row : Nat) : Bool :=
  !p.rowsCompleted.getD row false &&
    (rowNumbers p.ticket row).all (fun n => p.markedNumbers.contains n) &&
    decide (ledger.length < 2) && !ledger.any (fun w => w.id == p.id)

/-- Every entry of a line ledger carries the id of a participant whose flag for that row
is set. -/
def LineLedgerInv (w : Winners) (ps : List Participant) : Prop :=
  ∀ r, r < 3 → ∀ e ∈ w.get (lineCategory r),
    ∃ q ∈ ps, q.id = e.id ∧ q.rowsCompleted.getD r false = true

/-! ## Concrete rosters, used to instantiate statements -/

/-- A ticket whose row 0 is `[null, null, 3, null, 15, null, null, null, 82]`. -/
def lineTicket : Ticket :=
  [[none, none, some 3, none, some 15, none, none, none, some 82],
   [none, some 12, none, some 30, some 44, none, some 60, some 76, none],
   [none, some 19, none, some 37, none, some 55, some 62, none, some 90]]

/-- A roster of one participant holding `lineTicket`. -/
def lineRoster : List RosterEntry := [{ id := 1, name := "P", ticket := lineTicket }]

/-- The game on `lineRoster` after 3 and 15 have been called. -/
def lineGame : Game :=
  manualCallNumber (manualCallNumber (newGame (fun k => k) 0 lineRoster) 3) 15

/-- The participant of `lineGame`, with 3 and 15 marked. -/
def linePlayer : Participant :=
  { id := 1, name := "P", ticket := lineTicket, markedNumbers := [3, 15],
    rowsCompleted := [false, false, false], cornersWon := false }

/-- A roster in which two entries carry the same id. -/
def twinRoster : List RosterEntry :=
  [{ id := 1, name := "A", ticket := sampleTicket },
   { id := 1, name := "B", ticket := sampleTicket }]

/-- The game on `twinRoster` after 1, 20, 42 and 52 have been called. -/
def twinGame : Game :=
  [1, 20, 42, 52].foldl manualCallNumber (newGame (fun k => k) 0 twinRoster)

/-! ## Game engine: the announcement queue -/

/-- The two statements `const winner = this.pendingWinners.shift()` and
`this.sendWinnerToDisplay(winner.category, winner.name, winner.displayName)`; on an empty
queue, nothing. -/
def shiftAndSend (s : Game) : Game :=
  match s.pendingWinners with
  | [] => s
  | winner :: rest => sendWinnerToDisplay { s with pendingWinners := rest } winner

/-- The method `showNextPendingWinner()`: returns at once on an empty queue, otherwise
shifts the first pending winner and sends it. -/
def showNextPendingWinner (s : Game) : Game :=
  if s.pendingWinners.length = 0 then s else shiftAndSend s

/-- The loop `while (this.pendingWinners.length > 0)` of `updateAnnouncementModeUI`; the
first argument bounds the number of passes. -/
def flushLoop : Nat → Game → Game
  | 0, s => s
  | k + 1, s => if s.pendingWinners.length > 0 then flushLoop k (shiftAndSend s) else s

/-- The method `updateAnnouncementModeUI()`: in auto mode, send every pending winner.  The
loop shortens the queue at each pass, so as many passes as the queue is long are allowed. -/
def updateAnnouncementModeUI (s : Game) : Game :=
  if s.autoAnnounce then flushLoop s.pendingWinners.length s else s

/-- The `change` handler of `announceModeToggle`: set `autoAnnounce` to the state of the
checkbox and call `updateAnnouncementModeUI`. -/
def setAnnouncementMode (s : Game) (checked : Bool) : Game :=
  updateAnnouncementModeUI { s with autoAnnounce := checked }

/-- States reached from a fresh game by draws, `showNextPendingWinner`, switches of the
announcement mode and resets. -/
inductive ReachableFull : Game → Prop where
  | fresh (g : Rng) (pos : Nat) (roster : List RosterEntry) :
      ReachableFull (newGame g pos roster)
  | callNext (s : Game) : ReachableFull s → ReachableFull (callNextNumber s)
  | manual (s : Game) (n : Int) : ReachableFull s → 1 ≤ n → n ≤ 90 →
      ReachableFull (manualCallNumber s n)
  | reset (g : Rng) (pos : Nat) (s : Game) : ReachableFull s →
      ReachableFull (resetGame g pos s)
  | showNext (s : Game) : ReachableFull s → ReachableFull (showNextPendingWinner s)
  | setMode (s : Game) (checked : Bool) : ReachableFull s →
      ReachableFull (setAnnouncementMode s checked)

/-! ## Game engine: winner events -/

/-- Place of a category in the order earlyFive, topLine, middleLine, bottomLine, corners,
fullHouse. -/
def Category.rank : Category → Nat
  | .earlyFive => 0
  | .topLine => 1
  | .middleLine => 2
  | .bottomLine => 3
  | .corners => 4
  | .fullHouse => 5

/-- Going from `s` to `s'`, the events `evs` were announced in this order and nothing
else: in auto mode they were sent to the display, in manual mode they were queued. -/
def EventsAppended (s s' : Game) (evs : List WinnerEvent) : Prop :=
  s'.autoAnnounce = s.autoAnnounce ∧
    if s.autoAnnounce then
      s'.displayed = s.displayed ++ evs ∧ s'.pendingWinners = s.pendingWinners
    else
      s'.pendingWinners = s.pendingWinners ++ evs ∧ s'.displayed = s.displayed

/-- The events of one participant: all under the participant's name, in strictly
increasing category order. -/
def OwnEventsInOrder (p : Participant) (evs : List WinnerEvent) : Prop :=
  (∀ e ∈ evs, e.name = p.name) ∧
    (evs.map (fun e => e.category.rank)).Sorted (fun a b => a < b)

/-- No event, or one event of category `c` under the name of `p`. -/
def AtMostOneEvent (c : Category) (p : Participant) (evs : List WinnerEvent) : Prop :=
  evs = [] ∨ ∃ d, evs = [{ category := c, name := p.name, displayName := d }]

/-- The Early Five test of `checkWinners`, given the earlyFive ledger: the ledger is below
its limit of 1, the participant has at least 5 marks and no entry carries its id. -/
def earlyFiveWinsNow (ledger : List LedgerEntry) (p : Participant) : Bool :=
  decide (ledger.length < 1) && decide (p.markedNumbers.length ≥ 5) &&
    !ledger.any (fun w => w.id == p.id)

/-- The array `corners` of `checkCornerWins`. -/
def cornerValues (t : Ticket) : List (Option Int) :=
  [getFirstNumberInRow t 0, getLastNumberInRow t 0, getFirstNumberInRow t 2,
    getLastNumberInRow t 2]

/-- The test under which `checkCornerWins` announces `p`, given the corners ledger: the
flag `cornersWon` is not set, every corner is a number that is marked, the ledger holds
fewer than 2 entries and none with the id of `p`. -/
def cornersWinNow (ledger : List LedgerEntry) (p : Participant) : Bool :=
  !p.cornersWon &&
    (cornerValues p.ticket).all (fun n =>
      match n with
      | none => false
      | some v => p.markedNumbers.contains v) &&
    decide (ledger.length < 2) && !ledger.any (fun w => w.id == p.id)

/-- The Full House test of `checkWinners`, given the fullHouse ledger: the ledger holds
fewer than 3 entries, the participant has at least 15 marks and no entry carries its id. -/
def fullHouseWinsNow (ledger : List LedgerEntry) (p : Participant) : Bool :=
  decide (ledger.length < 3) && decide (p.markedNumbers.length ≥ 15) &&
    !ledger.any (fun w => w.id == p.id)

/-- A participant whose flag `cornersWon` is set has an entry with its id in the corners
ledger. -/
def CornerFlagInv (w : Winners) (ps : List Participant) : Prop :=
  ∀ q ∈ ps, q.cornersWon = true → ∃ e ∈ w.get .corners, e.id = q.id

/-- Every entry of the fullHouse ledger carries the id of a participant with at least 15
marks. -/
def FullHouseInv (w : Winners) (ps : List Participant) : Prop :=
  ∀ e ∈ w.get .fullHouse, ∃ q ∈ ps, q.id = e.id ∧ 15 ≤ q.markedNumbers.length

/-- The numbers in the 3x9 cells of a ticket, row by row. -/
def ticketNumbers (t : Ticket) : List Int :=
  (List.range 3).flatMap (fun r => (List.range 9).filterMap (fun c => cell t r c))

/-- A second valid ticket, whose first row ends with 90. -/
def otherTicket : Ticket :=
  [[some 2, some 13, some 24, some 35, none, none, none, none, some 90],
   [some 5, none, none, none, some 45, some 56, some 67, some 78, none],
   [none, some 17, some 28, some 39, some 48, some 59, none, none, none]]

/-- A roster of two participants with distinct ids and valid tickets. -/
def orderRoster : List RosterEntry :=
  [{ id := 1, name := "A", ticket := sampleTicket },
   { id := 2, name := "B", ticket := otherTicket }]

/-- The game on `orderRoster`, switched to manual announcements, after 1, 70, 19, 2, 13,
24 and 35 have been called. -/
def orderGame : Game :=
  [1, 70, 19, 2, 13, 24, 35].foldl manualCallNumber
    (setAnnouncementMode (newGame (fun k => k) 0 orderRoster) false)

/-- The game on `twinRoster` after 14 of the 15 numbers of `sampleTicket` have been
called, all but 90. -/
def twinGameLate : Game :=
  [1, 20, 42, 52, 70, 12, 30, 44, 60, 76, 19, 37, 55, 62].foldl manualCallNumber
    (newGame (fun k => k) 0 twinRoster)

/-- A random source that repeats after 106 values. -/
def repeatingSource : Rng := fun k => (k % 106) * 7 + 3

/-- Three participants with distinct ids who hold `sampleTicket`. -/
def tripleRoster : List RosterEntry :=
  [{ id := 1, name := "A", ticket := sampleTicket },
   { id := 2, name := "B", ticket := sampleTicket },
   { id := 3, name := "C", ticket := sampleTicket }]

/-- The game on `tripleRoster` after 14 of the 15 numbers of `sampleTicket` have been
called, all but 90, with the timer of the automatic draw running. -/
def tripleGameLate : Game :=
  { [1, 20, 42, 52, 70, 12, 30, 44, 60, 76, 19, 37, 55, 62].foldl manualCallNumber
      (newGame (fun k => k) 0 tripleRoster) with autoCallInterval := some 1 }

/-! ## Row balance, the events of one turn, the roster highlight -/

/-- Number of cells beyond 5, summed over the three rows: the number of moves that
`_balanceRows` still has to make. -/
def overflow (t : Ticket) : Nat :=
  (nonNullInRow t 0 - 5) + (nonNullInRow t 1 - 5) + (nonNullInRow t 2 - 5)

/-- What the column-assignment loop of `_tryGenerateTicket` hands to `_balanceRows`: a 3x9
grid of 15 numbers in which every column holds 1 to 3 numbers of its range, strictly
increasing from top to bottom. -/
def ColumnStepTicket (t : Ticket) : Prop :=
  Shape t ∧ totalNonNull t = 15 ∧ ∀ c, c < 9 → ColumnGood t c

/-- A grid as far from balance as the column-assignment loop can make it: rows of 9, 6 and
0 numbers. -/
def lopsidedTicket : Ticket :=
  [[some 1, some 10, some 20, some 30, some 40, some 50, some 60, some 70, some 80],
   [some 2, some 11, some 21, some 31, some 41, some 51, none, none, none],
   [none, none, none, none, none, none, none, none, none]]

/-- The events of participant `p` within a draw of `n`: none when `n` is not on the ticket;
otherwise events that carry the name of `p`, in category order. -/
def TurnEvents (n : Int) (p : Participant) (evs : List WinnerEvent) : Prop :=
  OwnEventsInOrder p evs ∧ (onTicket p.ticket n = false → evs = [])

/-- The value of `w.id` for `w` one of the values of `winners`: each is an array of
entries, and an array has no property `id` (`undefined`, here `none`). -/
def ledgerIdProperty (_w : List LedgerEntry) : Option Nat := none

/-- The method `isWinner(participant)`:
`Object.values(this.winners).some(w => w && w.id === participant.id)`.  Every `w` is an
array, hence truthy, so the test is the comparison of `w.id` with the participant's id. -/
def isWinner (s : Game) (p : Participant) : Bool :=
  [s.winners.earlyFive, s.winners.topLine, s.winners.middleLine, s.winners.bottomLine,
    s.winners.corners, s.winners.fullHouse].any (fun w => ledgerIdProperty w == some p.id)

/-- Participant `p`, matched by id, is in the ledger of at least one category. -/
def InSomeLedger (s : Game) (p : Participant) : Prop :=
  ∃ c : Category, ∃ e ∈ s.winners.get c, e.id = p.id

/-! ## The tests of one turn and what they announce -/

/-- The categories in the order in which `checkWinners` tests them for one participant. -/
def allCategories : List Category :=
  [.earlyFive, .topLine, .middleLine, .bottomLine, .corners, .fullHouse]

/-- The test of category `c` in `checkWinners`, given the ledger of `c` at the
participant's turn and the participant after marking. -/
def winsNow (c : Category) (ledger : List LedgerEntry) (p : Participant) : Bool :=
  match c with
  | .earlyFive => earlyFiveWinsNow ledger p
  | .topLine => lineWinsNow ledger p 0
  | .middleLine => lineWinsNow ledger p 1
  | .bottomLine => lineWinsNow ledger p 2
  | .corners => cornersWinNow ledger p
  | .fullHouse => fullHouseWinsNow ledger p

/-- Going from `s` to `s'`, the test of category `c` for the participant with this id and
name announced `evs`: either nothing, the ledgers being left as they were, or one event of
category `c` under the participant's name, the participant being appended to the ledger
of `c`. -/
def StepLog (c : Category) (id : Nat) (name : String) (s s' : Game)
    (evs : List WinnerEvent) : Prop :=
  EventsAppended s s' evs ∧
    ((evs = [] ∧ s'.winners = s.winners) ∨
      ((∃ d, evs = [{ category := c, name := name, displayName := d }]) ∧
        s'.winners = s.winners.push c { id := id, name := name }))

/-! ## Lemmas on grids -/

theorem forall_lt_three (P : Nat → Prop) : (∀ r, r < 3 → P r) ↔ P 0 ∧ P 1 ∧ P 2 := by
  constructor
  · intro h
    exact ⟨h 0 (by omega), h 1 (by omega), h 2 (by omega)⟩
  · rintro ⟨h0, h1, h2⟩ r hr
    interval_cases r <;> assumption

theorem columnRanges_eq (c : Nat) (hc : c < 9) :
    columnRanges.getD c (0, 0) = (rangeLo c, rangeHi c) := by
  interval_cases c <;> rfl

theorem shape_rows {t : Ticket} (h : Shape t) :
    ∃ r0 r1 r2, t = [r0, r1, r2] ∧ r0.length = 9 ∧ r1.length = 9 ∧ r2.length = 9 := by
  obtain ⟨hl, hr⟩ := h
  match t, hl with
  | [r0, r1, r2], _ =>
    exact ⟨r0, r1, r2, rfl, hr r0 (by simp), hr r1 (by simp), hr r2 (by simp)⟩

theorem filter_length_eq_range {α : Type} (p : α → Bool) (d : α) (l : List α) :
    (l.filter p).length = ((List.range l.length).filter (fun i => p (l.getD i d))).length := by
  induction l with
  | nil => simp
  | cons a l ih =>
    have hc : (fun i => p ((a :: l).getD i d)) ∘ Nat.succ = fun i => p (l.getD i d) := by
      funext i; simp
    rw [List.length_cons, List.range_succ_eq_map, List.filter_cons, List.filter_cons,
      List.filter_map, hc]
    simp only [List.getD_cons_zero]
    by_cases hp : p a = true <;> simp [hp, ih]

theorem row_count_eq (t : Ticket) (h : Shape t) (r : Nat) (hr : r < 3) :
    ((t.getD r []).filter Option.isSome).length = nonNullInRow t r := by
  obtain ⟨r0, r1, r2, rfl, h0, h1, h2⟩ := shape_rows h
  have hlen : ([r0, r1, r2].getD r []).length = 9 := by
    interval_cases r <;> simpa
  rw [filter_length_eq_range Option.isSome none, hlen]
  rfl

/-- The three cells of a column decide the column check of `_isValidTicket`. -/
theorem columnOk_iff (x y z : Option Int) (mn mx : Int) :
    columnOk ([x, y, z].filterMap id) mn mx = true ↔
      (1 ≤ ([x, y, z].filter Option.isSome).length ∧
        ([x, y, z].filter Option.isSome).length ≤ 3) ∧
      ((∀ v, x = some v → mn ≤ v ∧ v ≤ mx) ∧ (∀ v, y = some v → mn ≤ v ∧ v ≤ mx) ∧
        (∀ v, z = some v → mn ≤ v ∧ v ≤ mx)) ∧
      ((∀ a b, x = some a → y = some b → a < b) ∧ (∀ a b, x = some a → z = some b → a < b) ∧
        (∀ a b, y = some a → z = some b → a < b)) := by
  cases x <;> cases y <;> cases z <;>
    simp [columnOk, List.range']
  all_goals omega

theorem column_cells (t : Ticket) (h : Shape t) (c : Nat) :
    columnNumbersOf t c = [cell t 0 c, cell t 1 c, cell t 2 c].filterMap id ∧
    nonNullInCol t c = ([cell t 0 c, cell t 1 c, cell t 2 c].filter Option.isSome).length := by
  obtain ⟨r0, r1, r2, rfl, -, -, -⟩ := shape_rows h
  constructor
  · rfl
  · have h3 : List.range 3 = [0, 1, 2] := rfl
    unfold nonNullInCol
    rw [h3]
    simp only [List.filter_cons, List.filter_nil]
    split_ifs <;> rfl

/-- The column check of `_isValidTicket` on column `c`, in terms of cells. -/
theorem columnOk_cells (t : Ticket) (h : Shape t) (c : Nat) (mn mx : Int) :
    columnOk (columnNumbersOf t c) mn mx = true ↔
      (1 ≤ nonNullInCol t c ∧ nonNullInCol t c ≤ 3) ∧
      (∀ r v, r < 3 → cell t r c = some v → mn ≤ v ∧ v ≤ mx) ∧
      (∀ r₁ r₂ a b, r₁ < r₂ → r₂ < 3 → cell t r₁ c = some a → cell t r₂ c = some b → a < b) := by
  obtain ⟨h1, h2⟩ := column_cells t h c
  rw [h1, h2, columnOk_iff]
  constructor
  · rintro ⟨hc, ⟨ha, hb, hd⟩, ⟨hab, had, hbd⟩⟩
    refine ⟨hc, ?_, ?_⟩
    · intro r v hr
      interval_cases r
      · exact ha v
      · exact hb v
      · exact hd v
    · intro r₁ r₂ a b h12 hr2
      interval_cases r₂ <;> interval_cases r₁
      · exact hab a b
      · exact had a b
      · exact hbd a b
  · rintro ⟨hc, hr, hi⟩
    refine ⟨hc, ⟨fun v => hr 0 v (by omega), fun v => hr 1 v (by omega),
      fun v => hr 2 v (by omega)⟩, ⟨fun a b => hi 0 1 a b (by omega) (by omega),
      fun a b => hi 0 2 a b (by omega) (by omega), fun a b => hi 1 2 a b (by omega) (by omega)⟩⟩

theorem isValidTicket_iff_valid (t : Ticket) (h : Shape t) :
    _isValidTicket t = true ↔ ValidTicket t := by
  unfold _isValidTicket
  rw [Bool.and_eq_true, List.all_eq_true, List.all_eq_true]
  constructor
  · rintro ⟨hrow, hcol⟩
    have hcol2 : ∀ c, c < 9 → _ := fun c hc => (columnOk_cells t h c _ _).1
      (by have := hcol c (List.mem_range.2 hc); rwa [columnRanges_eq c hc] at this)
    refine ⟨?_, fun c hc => (hcol2 c hc).1, fun r c v hr hc => (hcol2 c hc).2.1 r v hr,
      fun r₁ r₂ c a b h12 hr2 hc => (hcol2 c hc).2.2 r₁ r₂ a b h12 hr2⟩
    intro r hr
    have := hrow r (List.mem_range.2 hr)
    rw [← row_count_eq t h r hr]
    simpa using this
  · intro hv
    refine ⟨?_, ?_⟩
    · intro r hr
      have hr3 := List.mem_range.1 hr
      rw [row_count_eq t h r hr3, hv.rows r hr3]
      rfl
    · intro c hc
      have hc9 := List.mem_range.1 hc
      rw [columnRanges_eq c hc9]
      exact (columnOk_cells t h c _ _).2 ⟨hv.cols c hc9, fun r v hr => hv.inRange r c v hr hc9,
        fun r₁ r₂ a b h12 hr2 => hv.increasing r₁ r₂ c a b h12 hr2 hc9⟩

/-! ## The shuffle is a permutation -/

theorem swapAt_perm {α : Type} [DecidableEq α] (a : List α) (i j : Nat) :
    (swapAt a i j).Perm a := by
  unfold swapAt
  split
  · rename_i x y hx hy
    obtain ⟨hi, rfl⟩ := List.getElem?_eq_some.1 hx
    obtain ⟨hj, rfl⟩ := List.getElem?_eq_some.1 hy
    rw [List.perm_iff_count]
    intro z
    have hj2 : j < (a.set i a[j]).length := by simpa using hj
    rw [List.count_set _ _ _ _ hj2, List.count_set _ _ _ _ hi]
    have h1 : (a.set i a[j])[j] = a[j] := by
      rw [List.getElem_set]
      split <;> simp_all
    rw [h1]
    have h2 : (if (a[i] == z) = true then 1 else 0) ≤ List.count z a := by
      split
      · rename_i h
        have : a[i] = z := by simpa using h
        rw [← this]
        exact List.one_le_count_iff.2 (List.getElem_mem hi)
      · omega
    omega
  · exact List.Perm.refl a

theorem shuffleLoop_perm {α : Type} [DecidableEq α] (g : Rng) (i pos : Nat) (a : List α) :
    (shuffleLoop g i pos a).1.Perm a := by
  induction i generalizing pos a with
  | zero => exact List.Perm.refl a
  | succ i ih => exact (ih _ _).trans (swapAt_perm a _ _)

theorem shuffle_perm {α : Type} [DecidableEq α] (g : Rng) (pos : Nat) (a : List α) :
    (_shuffle g pos a).1.Perm a :=
  shuffleLoop_perm g _ pos a

theorem shuffleLoop_pos {α : Type} (g : Rng) (i pos : Nat) (a : List α) :
    (shuffleLoop g i pos a).2 = pos + i := by
  induction i generalizing pos a with
  | zero => rfl
  | succ i ih => rw [shuffleLoop, ih]; omega

/-! ## The numbers drawn for a column -/

theorem mem_rangeIncl (mn mx n : Int) : n ∈ rangeIncl mn mx ↔ mn ≤ n ∧ n ≤ mx := by
  unfold rangeIncl
  simp only [List.mem_map, List.mem_range]
  constructor
  · rintro ⟨i, hi, rfl⟩
    omega
  · rintro ⟨h1, h2⟩
    exact ⟨(n - mn).toNat, by omega, by omega⟩

theorem nodup_rangeIncl (mn mx : Int) : (rangeIncl mn mx).Nodup := by
  unfold rangeIncl
  refine List.Nodup.map ?_ (List.nodup_range _)
  intro a b h
  simpa using h

theorem length_rangeIncl (mn mx : Int) : (rangeIncl mn mx).length = (mx - mn + 1).toNat := by
  simp [rangeIncl]

/-- The `count` numbers of a column: sorted, strictly increasing, in range. -/
theorem drawn_numbers (g : Rng) (pos count : Nat) (mn mx : Int)
    (hcount : (count : Int) ≤ mx - mn + 1) :
    let numbers := sortAsc ((_shuffle g pos (rangeIncl mn mx)).1.take count)
    numbers.length = count ∧ numbers.Sorted (fun a b => a < b) ∧
      ∀ n ∈ numbers, mn ≤ n ∧ n ≤ mx := by
  intro numbers
  have hperm := shuffle_perm g pos (rangeIncl mn mx)
  have hsort : numbers.Perm ((_shuffle g pos (rangeIncl mn mx)).1.take count) :=
    List.perm_insertionSort _ _
  refine ⟨?_, ?_, ?_⟩
  · rw [hsort.length_eq, List.length_take, hperm.length_eq, length_rangeIncl]
    omega
  · refine List.Sorted.lt_of_le (List.sorted_insertionSort _ _) ?_
    rw [hsort.nodup_iff]
    exact List.Nodup.sublist (List.take_sublist _ _)
      ((hperm.nodup_iff).2 (nodup_rangeIncl mn mx))
  · intro n hn
    rw [← mem_rangeIncl]
    exact hperm.mem_iff.1 (List.mem_of_mem_take (hsort.mem_iff.1 hn))

/-! ## Writing cells -/

theorem shape_setCell (t : Ticket) (r c : Nat) (v : Option Int) (h : Shape t) :
    Shape (setCell t r c v) := by
  obtain ⟨hl, hr⟩ := h
  refine ⟨by simp [setCell, hl], ?_⟩
  intro row hrow
  unfold setCell at hrow
  rcases List.mem_or_eq_of_mem_set hrow with h1 | h1
  · exact hr row h1
  · rw [h1, List.length_set]
    by_cases hlt : r < t.length
    · rw [List.getD_eq_getElem _ _ hlt]
      exact hr _ (List.getElem_mem hlt)
    · rw [List.set_eq_of_length_le (by omega)] at hrow
      exact absurd (hr row hrow) (by
        intro h9
        rw [h1, List.length_set] at h9
        rw [List.getD_eq_default _ _ (by omega)] at h9
        simp at h9)

theorem cell_setCell (t : Ticket) (h : Shape t) (r c : Nat) (hr : r < 3) (hc : c < 9)
    (v : Option Int) (r' c' : Nat) :
    cell (setCell t r c v) r' c' = if r' = r ∧ c' = c then v else cell t r' c' := by
  obtain ⟨r0, r1, r2, rfl, h0, h1, h2⟩ := shape_rows h
  unfold cell setCell
  simp only [List.getD_eq_getElem?_getD, List.getElem?_set]
  have hc0 : c < r0.length := by omega
  have hc1 : c < r1.length := by omega
  have hc2 : c < r2.length := by omega
  match r' with
  | 0 =>
    by_cases hcc : c = c'
    · subst hcc; interval_cases r <;> simp [hc0]
    · interval_cases r <;> simp [hcc, eq_comm]
  | 1 =>
    by_cases hcc : c = c'
    · subst hcc; interval_cases r <;> simp [hc1]
    · interval_cases r <;> simp [hcc, eq_comm]
  | 2 =>
    by_cases hcc : c = c'
    · subst hcc; interval_cases r <;> simp [hc2]
    · interval_cases r <;> simp [hcc, eq_comm]
  | n + 3 => interval_cases r <;> simp

/-! ## Counting cells -/

theorem filter_range_flip (p q : Nat → Bool) (c n : Nat) (hc : c < n) (hq : q c = false)
    (hp : p c = true) (hpq : ∀ i, i ≠ c → p i = q i) :
    ((List.range n).filter p).length = ((List.range n).filter q).length + 1 := by
  induction n with
  | zero => omega
  | succ n ih =>
    rw [List.range_succ, List.filter_append, List.filter_append, List.length_append,
      List.length_append]
    by_cases hcn : c = n
    · subst hcn
      have : (List.range c).filter p = (List.range c).filter q := by
        apply List.filter_congr
        intro i hi
        exact hpq i (by have := List.mem_range.1 hi; omega)
      rw [this]
      simp [hp, hq]
    · rw [ih (by omega)]
      have : p n = q n := hpq n (Ne.symm hcn)
      simp [List.filter_cons, this]
      omega

theorem nonNullInRow_setCell (t : Ticket) (h : Shape t) (r c : Nat) (hr : r < 3) (hc : c < 9)
    (v : Int) (hnone : cell t r c = none) (r' : Nat) :
    nonNullInRow (setCell t r c (some v)) r' = nonNullInRow t r' + if r' = r then 1 else 0 := by
  unfold nonNullInRow
  simp only [cell_setCell t h r c hr hc]
  by_cases hrr : r' = r
  · subst hrr
    simp only [true_and, if_true]
    apply filter_range_flip _ _ c 9 hc
    · simp [hnone]
    · simp
    · intro i hi
      simp [hi]
  · simp [hrr]

theorem shape_placeNumbers (t : Ticket) (col count : Nat) (rows : List Nat) (numbers : List Int)
    (h : Shape t) : Shape (placeNumbers t col count rows numbers) := by
  unfold placeNumbers
  generalize List.range count = l
  induction l generalizing t with
  | nil => exact h
  | cons i l ih => exact ih _ (shape_setCell t _ _ _ h)

theorem shape_emptyTicket : Shape emptyTicket := by decide

/-! ## The fallback generator -/

theorem chooseBest_mem (rowCounts : List Nat) (avail : List (List Nat)) (h : avail ≠ []) :
    chooseBest rowCounts avail ∈ avail := by
  unfold chooseBest
  have key : ∀ (l : List (List Nat)) (acc : List Nat × Option Nat), acc.1 ∈ avail →
      (∀ rp ∈ l, rp ∈ avail) →
      (l.foldl (fun (acc : List Nat × Option Nat) rp =>
        let score := spread (tempCountsOf rowCounts rp)
        match acc.2 with
        | none => (rp, some score)
        | some best => if score < best then (rp, some score) else acc) acc).1 ∈ avail := by
    intro l
    induction l with
    | nil => intro acc hacc _; exact hacc
    | cons rp l ih =>
      intro acc hacc hl
      rw [List.foldl_cons]
      apply ih
      · have hrp := hl rp (List.mem_cons_self _ _)
        dsimp only
        split
        · exact hrp
        · split
          · exact hrp
          · exact hacc
      · intro x hx
        exact hl x (List.mem_cons_of_mem _ hx)
  apply key
  · cases avail with
    | nil => exact absurd rfl h
    | cons a l => simp
  · exact fun rp hrp => hrp

theorem guaranteedStep_rowCounts (g : Rng) (pattern : List Nat) (s : FillState) (col : Nat) :
    (guaranteedStep g pattern s col).rowCounts = planStep pattern s.rowCounts col := by
  unfold guaranteedStep planStep
  dsimp only
  split <;> rfl

theorem foldl_guaranteedStep_rowCounts (g : Rng) (pattern : List Nat) (cols : List Nat)
    (s : FillState) :
    (cols.foldl (guaranteedStep g pattern) s).rowCounts =
      cols.foldl (planStep pattern) s.rowCounts := by
  induction cols generalizing s with
  | nil => rfl
  | cons c cols ih => rw [List.foldl_cons, List.foldl_cons, ih, guaranteedStep_rowCounts]

theorem patterns_planOk : ∀ k, k < 5 → PlanOk (patterns.getD k []) := by decide

theorem guaranteedStep_inv (g : Rng) (pattern : List Nat) (s : FillState) (c : Nat)
    (hc : c < 9) (hinv : FillInv c s)
    (havail : availablePatternsOf s.rowCounts (pattern.getD c 0) ≠ []) :
    FillInv (c + 1) (guaranteedStep g pattern s c) := by
  obtain ⟨hshape, hcounts, hdone, hblank⟩ := hinv
  have hb0 := hblank c 0 le_rfl hc (by omega)
  have hb1 := hblank c 1 le_rfl hc (by omega)
  have hb2 := hblank c 2 le_rfl hc (by omega)
  have hbp := chooseBest_mem s.rowCounts _ havail
  have hrp := List.mem_of_mem_filter hbp
  unfold guaranteedStep
  have hlen0 : ¬ (availablePatternsOf s.rowCounts (pattern.getD c 0)).length = 0 := by
    intro h0
    exact havail (List.length_eq_zero.1 h0)
  simp only [hlen0, if_false, columnRanges_eq c hc]
  have hcnt : pattern.getD c 0 = 1 ∨ pattern.getD c 0 = 2 ∨ pattern.getD c 0 = 3 := by
    generalize pattern.getD c 0 = count at hrp
    match count with
    | 0 => simp [rowPatterns] at hrp
    | 1 => simp
    | 2 => simp
    | 3 => simp
    | n + 4 => simp [rowPatterns] at hrp
  have hwide : ((pattern.getD c 0 : Nat) : Int) ≤ rangeHi c - rangeLo c + 1 := by
    unfold rangeHi rangeLo
    split <;> split <;> omega
  obtain ⟨hlen, hsorted, hrange⟩ :=
    drawn_numbers g s.pos (pattern.getD c 0) (rangeLo c) (rangeHi c) hwide
  generalize sortAsc ((_shuffle g s.pos (rangeIncl (rangeLo c) (rangeHi c))).1.take
    (pattern.getD c 0)) = numbers at hlen hsorted hrange ⊢
  generalize chooseBest s.rowCounts (availablePatternsOf s.rowCounts (pattern.getD c 0)) = bp
    at hbp hrp ⊢
  generalize (_shuffle g s.pos (rangeIncl (rangeLo c) (rangeHi c))).2 = p2
  rcases hcnt with h1 | h1 | h1 <;> rw [h1] at hrp hlen ⊢
  · simp only [rowPatterns, List.mem_cons, List.mem_singleton, List.not_mem_nil, or_false]
      at hrp
    obtain ⟨a, rfl⟩ := List.length_eq_one.1 hlen
    have ha := hrange a (by simp)
    rcases hrp with rfl | rfl | rfl
    all_goals
      simp only [placeNumbers, List.range_succ, List.range_zero, List.foldl_append,
        List.foldl_cons, List.foldl_nil, List.nil_append, List.getD_cons_zero,
        List.getD_cons_succ, List.getElem?_cons_zero, List.getElem?_cons_succ]
      refine ⟨?_, ?_, ?_, ?_⟩
      · repeat (first | exact hshape | apply shape_setCell)
      · dsimp only
        rw [hcounts]
        simp [nonNullInRow_setCell, cell_setCell, shape_setCell, hshape, hc, hb0, hb1, hb2]
      · intro c' hc'
        unfold ColumnGood
        by_cases hcc : c' = c
        · subst hcc
          simp [cell_setCell, shape_setCell, hshape, hc, hb0, hb1, hb2, columnOk, List.range']
          omega
        · have hd := hdone c' (by omega)
          unfold ColumnGood at hd
          simpa [cell_setCell, shape_setCell, hshape, hc, hcc] using hd
      · intro c' r hle hlt hr
        have hne : c' ≠ c := by omega
        have hd := hblank c' r (by omega) hlt hr
        simpa [cell_setCell, shape_setCell, hshape, hc, hne] using hd
  · simp only [rowPatterns, List.mem_cons, List.mem_singleton, List.not_mem_nil, or_false]
      at hrp
    obtain ⟨a, b, rfl⟩ := List.length_eq_two.1 hlen
    have ha := hrange a (by simp)
    have hb := hrange b (by simp)
    have hab : a < b := by simpa [List.Sorted] using hsorted
    rcases hrp with rfl | rfl | rfl
    all_goals
      simp only [placeNumbers, List.range_succ, List.range_zero, List.foldl_append,
        List.foldl_cons, List.foldl_nil, List.nil_append, List.getD_cons_zero,
        List.getD_cons_succ, List.getElem?_cons_zero, List.getElem?_cons_succ]
      refine ⟨?_, ?_, ?_, ?_⟩
      · repeat (first | exact hshape | apply shape_setCell)
      · dsimp only
        rw [hcounts]
        simp [nonNullInRow_setCell, cell_setCell, shape_setCell, hshape, hc, hb0, hb1, hb2]
      · intro c' hc'
        unfold ColumnGood
        by_cases hcc : c' = c
        · subst hcc
          simp [cell_setCell, shape_setCell, hshape, hc, hb0, hb1, hb2, columnOk, List.range']
          omega
        · have hd := hdone c' (by omega)
          unfold ColumnGood at hd
          simpa [cell_setCell, shape_setCell, hshape, hc, hcc] using hd
      · intro c' r hle hlt hr
        have hne : c' ≠ c := by omega
        have hd := hblank c' r (by omega) hlt hr
        simpa [cell_setCell, shape_setCell, hshape, hc, hne] using hd
  · simp only [rowPatterns, List.mem_cons, List.mem_singleton, List.not_mem_nil, or_false]
      at hrp
    obtain ⟨a, b, e, rfl⟩ := List.length_eq_three.1 hlen
    have ha := hrange a (by simp)
    have hb := hrange b (by simp)
    have he := hrange e (by simp)
    have hab : a < b ∧ b < e := by
      have := hsorted
      simp [List.Sorted] at this
      omega
    subst hrp
    have s1 := shape_setCell s.ticket 0 c (some a) hshape
    have s2 := shape_setCell _ 1 c (some b) s1
    have c1 : cell (setCell s.ticket 0 c (some a)) 1 c = none := by
      simp [cell_setCell, hshape, hc, hb1]
    have c2 : cell (setCell (setCell s.ticket 0 c (some a)) 1 c (some b)) 2 c = none := by
      simp [cell_setCell, hshape, s1, hc, hb2]
    simp only [placeNumbers, List.range_succ, List.range_zero, List.foldl_append,
      List.foldl_cons, List.foldl_nil, List.nil_append, List.getD_cons_zero,
      List.getD_cons_succ, List.getElem?_cons_zero, List.getElem?_cons_succ]
    refine ⟨?_, ?_, ?_, ?_⟩
    · repeat (first | exact hshape | apply shape_setCell)
    · dsimp only
      rw [hcounts]
      simp [nonNullInRow_setCell, s1, s2, c1, c2, hshape, hc, hb0]
    · intro c' hc'
      unfold ColumnGood
      by_cases hcc : c' = c
      · subst hcc
        simp [cell_setCell, s1, s2, hshape, hc, columnOk, List.range']
        omega
      · have hd := hdone c' (by omega)
        unfold ColumnGood at hd
        simpa [cell_setCell, s1, s2, hshape, hc, hcc] using hd
    · intro c' r hle hlt hr
      have hne : c' ≠ c := by omega
      have hd := hblank c' r (by omega) hlt hr
      simpa [cell_setCell, s1, s2, hshape, hc, hne] using hd

theorem fillInv_init (pos : Nat) :
    FillInv 0 { ticket := emptyTicket, rowCounts := [0, 0, 0], pos := pos } := by
  refine ⟨shape_emptyTicket, rfl, fun c' h => absurd h (Nat.not_lt_zero _), ?_⟩
  intro c' r _ hc hr
  interval_cases r <;> interval_cases c' <;> rfl

theorem fillInv_range (g : Rng) (pattern : List Nat) (pos : Nat) (hplan : PlanOk pattern)
    (c : Nat) (hc : c ≤ 9) :
    FillInv c ((List.range c).foldl (guaranteedStep g pattern)
      { ticket := emptyTicket, rowCounts := [0, 0, 0], pos := pos }) := by
  induction c with
  | zero => exact fillInv_init pos
  | succ c ih =>
    rw [List.range_succ, List.foldl_append, List.foldl_cons, List.foldl_nil]
    apply guaranteedStep_inv g pattern _ c (by omega) (ih (by omega))
    rw [foldl_guaranteedStep_rowCounts]
    exact hplan.1 c (by omega)

theorem isValidTicket_of_good (t : Ticket) (h : Shape t)
    (hrows : ∀ r, r < 3 → nonNullInRow t r = 5) (hcols : ∀ c, c < 9 → ColumnGood t c) :
    _isValidTicket t = true := by
  unfold _isValidTicket
  rw [Bool.and_eq_true, List.all_eq_true, List.all_eq_true]
  refine ⟨?_, ?_⟩
  · intro r hr
    have hr3 := List.mem_range.1 hr
    rw [row_count_eq t h r hr3, hrows r hr3]
    rfl
  · intro c hc
    have hc9 := List.mem_range.1 hc
    rw [columnRanges_eq c hc9, (column_cells t h c).1]
    exact hcols c hc9

/-- On a pattern whose row plan is sound, the column loop of the fallback builds a ticket
that `_isValidTicket` accepts, with row counts `[5, 5, 5]`. -/
theorem fillPattern_valid (g : Rng) (pattern : List Nat) (pos : Nat) (hplan : PlanOk pattern) :
    Shape (fillPattern g pattern pos).ticket ∧
      _isValidTicket (fillPattern g pattern pos).ticket = true ∧
      (fillPattern g pattern pos).rowCounts = [5, 5, 5] := by
  have hinv := fillInv_range g pattern pos hplan 9 le_rfl
  have hrc : (fillPattern g pattern pos).rowCounts = [5, 5, 5] := by
    unfold fillPattern
    rw [foldl_guaranteedStep_rowCounts]
    exact hplan.2
  refine ⟨hinv.shape, ?_, hrc⟩
  have hcounts := hinv.counts
  change (fillPattern g pattern pos).rowCounts = _ at hcounts
  rw [hrc] at hcounts
  simp only [List.cons.injEq, and_true] at hcounts
  apply isValidTicket_of_good _ hinv.shape
  · intro r hr
    interval_cases r
    · exact hcounts.1.symm
    · exact hcounts.2.1.symm
    · exact hcounts.2.2.symm
  · exact fun c hc => hinv.filled c hc

theorem generateTicketGuaranteed_valid (g : Rng) (pos : Nat) :
    Shape (_generateTicketGuaranteed g pos).1 ∧
      _isValidTicket (_generateTicketGuaranteed g pos).1 = true := by
  unfold _generateTicketGuaranteed
  have hk : randomBelow g pos patterns.length < 5 := Nat.mod_lt _ (by decide)
  have h := fillPattern_valid g _ (pos + 1) (patterns_planOk _ hk)
  exact ⟨h.1, h.2.1⟩

/-! ## The column-count loop -/

theorem countsInv_cases {counts : List Nat} {remaining : Nat} (h : CountsInv counts remaining) :
    ∃ a b c d e f x y z, counts = [a, b, c, d, e, f, x, y, z] ∧
      (1 ≤ a ∧ a ≤ 3) ∧ (1 ≤ b ∧ b ≤ 3) ∧ (1 ≤ c ∧ c ≤ 3) ∧ (1 ≤ d ∧ d ≤ 3) ∧ (1 ≤ e ∧ e ≤ 3) ∧
      (1 ≤ f ∧ f ≤ 3) ∧ (1 ≤ x ∧ x ≤ 3) ∧ (1 ≤ y ∧ y ≤ 3) ∧ (1 ≤ z ∧ z ≤ 3) ∧
      a + b + c + d + e + f + x + y + z + remaining = 15 := by
  obtain ⟨hl, hb, hs⟩ := h
  match counts, hl with
  | [a, b, c, d, e, f, x, y, z], _ =>
    refine ⟨a, b, c, d, e, f, x, y, z, rfl, hb 0 (by omega), hb 1 (by omega), hb 2 (by omega),
      hb 3 (by omega), hb 4 (by omega), hb 5 (by omega), hb 6 (by omega), hb 7 (by omega),
      hb 8 (by omega), ?_⟩
    simp at hs
    omega

theorem countsInv_init : CountsInv [1, 1, 1, 1, 1, 1, 1, 1, 1] (15 - 9) := by
  unfold CountsInv; decide

theorem countsInv_exists_below {counts : List Nat} {remaining : Nat}
    (h : CountsInv counts (remaining + 1)) : ∃ c, c < 9 ∧ counts.getD c 0 < 3 := by
  obtain ⟨a, b, c, d, e, f, x, y, z, rfl, ha, hb, hc, hd, he, hf, hx, hy, hz, hs⟩ :=
    countsInv_cases h
  by_contra hcon
  push_neg at hcon
  have h0 := hcon 0 (by omega)
  have h1 := hcon 1 (by omega)
  have h2 := hcon 2 (by omega)
  have h3 := hcon 3 (by omega)
  have h4 := hcon 4 (by omega)
  have h5 := hcon 5 (by omega)
  have h6 := hcon 6 (by omega)
  have h7 := hcon 7 (by omega)
  have h8 := hcon 8 (by omega)
  simp at h0 h1 h2 h3 h4 h5 h6 h7 h8
  omega

theorem countsInv_set {counts : List Nat} {remaining : Nat}
    (h : CountsInv counts (remaining + 1)) (col : Nat) (hcol : col < 9)
    (hlt : counts.getD col 0 < 3) :
    CountsInv (counts.set col (counts.getD col 0 + 1)) remaining := by
  obtain ⟨a, b, c, d, e, f, x, y, z, rfl, ha, hb, hc, hd, he, hf, hx, hy, hz, hs⟩ :=
    countsInv_cases h
  refine ⟨by simp, ?_, ?_⟩
  · intro i hi
    interval_cases col <;> interval_cases i <;> simp at hlt ⊢ <;> omega
  · interval_cases col <;> simp at hlt ⊢ <;> omega

/-- The loop of `_distributeColumnCounts` keeps `CountsInv`; when it ends, nothing remains. -/
theorem distributeLoop_inv (g : Rng) (fuel pos : Nat) (counts : List Nat) (remaining : Nat)
    (h : CountsInv counts remaining) (res : List Nat × Nat)
    (hres : distributeLoop g fuel pos counts remaining = some res) : CountsInv res.1 0 := by
  induction fuel generalizing pos counts remaining with
  | zero =>
    cases remaining with
    | zero => simp [distributeLoop] at hres; subst hres; exact h
    | succ r => simp [distributeLoop] at hres
  | succ fuel ih =>
    cases remaining with
    | zero => simp [distributeLoop] at hres; subst hres; exact h
    | succ r =>
      rw [distributeLoop] at hres
      split at hres
      · rename_i hlt
        exact ih _ _ _ (countsInv_set h _ (Nat.mod_lt _ (by decide)) hlt) hres
      · exact ih _ _ _ h hres

/-- Once a column below 3 is picked within `j` more values, the loop ends within the fuel. -/
theorem distributeLoop_isSome (g : Rng) (w : Nat) (hfair : PicksEveryColumn g w)
    (remaining : Nat) :
    ∀ (fuel pos : Nat) (counts : List Nat), CountsInv counts remaining →
      remaining * w ≤ fuel → (distributeLoop g fuel pos counts remaining).isSome = true := by
  induction remaining with
  | zero =>
    intro fuel pos counts _ _
    cases fuel <;> simp [distributeLoop]
  | succ r ih =>
    intro fuel pos counts hinv hfuel
    obtain ⟨c, hc, hlt⟩ := countsInv_exists_below hinv
    obtain ⟨j, hj, hpick⟩ := hfair pos c hc
    have key : ∀ (j fuel pos : Nat), randomBelow g (pos + j) 9 = c → j + 1 + r * w ≤ fuel →
        (distributeLoop g fuel pos counts (r + 1)).isSome = true := by
      intro j
      induction j with
      | zero =>
        intro fuel pos hp hf
        obtain ⟨fuel, rfl⟩ : ∃ k, fuel = k + 1 := ⟨fuel - 1, by omega⟩
        rw [distributeLoop]
        rw [Nat.add_zero] at hp
        rw [hp, if_pos hlt]
        exact ih _ _ _ (countsInv_set hinv c hc hlt) (by omega)
      | succ j ihj =>
        intro fuel pos hp hf
        obtain ⟨fuel, rfl⟩ : ∃ k, fuel = k + 1 := ⟨fuel - 1, by omega⟩
        rw [distributeLoop]
        split
        · rename_i hlt2
          exact ih _ _ _ (countsInv_set hinv _ (Nat.mod_lt _ (by decide)) hlt2) (by omega)
        · exact ihj fuel (pos + 1) (by rw [← hp]; congr 1; omega) (by omega)
    apply key j fuel pos hpick
    have : (r + 1) * w = w + r * w := by ring
    omega

/-! ## The randomized attempt keeps the 3x9 shape -/

theorem shape_assignColumns (g : Rng) (columnNumbers : List (List Int)) (columnCounts : List Nat)
    (t : Ticket) (pos : Nat) (h : Shape t) :
    Shape (assignColumns g columnNumbers columnCounts t pos).1 := by
  unfold assignColumns
  generalize List.range 9 = cols
  have key : ∀ (acc : Ticket × Nat), Shape acc.1 →
      Shape (cols.foldl (fun (acc : Ticket × Nat) col =>
        let count := columnCounts.getD col 0
        let numbers := sortAsc ((columnNumbers.getD col []).take count)
        let r := _selectRows g acc.2 count
        (placeNumbers acc.1 col count r.1 numbers, r.2)) acc).1 := by
    induction cols with
    | nil => exact fun acc hacc => hacc
    | cons col cols ih =>
      intro acc hacc
      rw [List.foldl_cons]
      exact ih _ (shape_placeNumbers _ _ _ _ _ hacc)
  exact key (t, pos) h

theorem shape_moveInColumn (g : Rng) (t : Ticket) (fromRow toRow col pos : Nat) (h : Shape t)
    (r : Ticket × Nat) (hr : moveInColumn g t fromRow toRow col pos = some r) : Shape r.1 := by
  unfold moveInColumn at hr
  split at hr
  · dsimp only at hr
    split at hr
    · cases hr
      exact shape_placeNumbers _ _ _ _ _ (shape_setCell _ _ _ _ (shape_setCell _ _ _ _ h))
    · cases hr
  · cases hr

theorem shape_tryColumns (g : Rng) (t : Ticket) (fromRow toRow pos : Nat) (cols : List Nat)
    (h : Shape t) : Shape (tryColumns g t fromRow toRow pos cols).1 := by
  induction cols with
  | nil => exact h
  | cons col cols ih =>
    rw [tryColumns]
    split
    · rename_i r hr
      exact shape_moveInColumn g t fromRow toRow col pos h r hr
    · exact ih

theorem shape_balanceLoop (g : Rng) (k : Nat) (t : Ticket) (pos : Nat) (h : Shape t) :
    Shape (balanceLoop g k t pos).2.1 := by
  induction k generalizing t pos with
  | zero => exact h
  | succ k ih =>
    rw [balanceLoop]
    dsimp only
    split
    · exact h
    · split
      · exact ih t pos h
      · exact ih _ _ (shape_tryColumns g t _ _ pos _ h)

theorem tryGenerateTicket_shape (g : Rng) (fuel pos : Nat) (r : Ticket × Nat)
    (hr : _tryGenerateTicket g fuel pos = some r) : Shape r.1 := by
  unfold _tryGenerateTicket at hr
  dsimp only at hr
  split at hr
  · cases hr
  · cases hr
    exact shape_balanceLoop g 50 _ _ (shape_assignColumns g _ _ _ _ shape_emptyTicket)

theorem tryGenerateTicket_isSome (g : Rng) (w fuel pos : Nat) (hfair : PicksEveryColumn g w)
    (hfuel : 6 * w ≤ fuel) : ∃ r, _tryGenerateTicket g fuel pos = some r := by
  have h := distributeLoop_isSome g w hfair (15 - 9) fuel (shuffledColumns g pos).2 _
    countsInv_init (by omega)
  obtain ⟨cc, hcc⟩ := Option.isSome_iff_exists.1 h
  unfold _tryGenerateTicket _distributeColumnCounts
  dsimp only
  rw [hcc]
  exact ⟨_, rfl⟩

/-! ## The generator as a whole -/

theorem generateTicketLoop_isSome (g : Rng) (w fuel : Nat) (hfair : PicksEveryColumn g w)
    (hfuel : 6 * w ≤ fuel) (left pos : Nat) :
    ∃ r, generateTicketLoop g fuel left pos = some r ∧ Shape r.1 := by
  induction left generalizing pos with
  | zero =>
    obtain ⟨r, hr⟩ := tryGenerateTicket_isSome g w fuel pos hfair hfuel
    exact ⟨r, hr, tryGenerateTicket_shape g fuel pos r hr⟩
  | succ left ih =>
    obtain ⟨r, hr⟩ := tryGenerateTicket_isSome g w fuel pos hfair hfuel
    rw [generateTicketLoop, hr]
    dsimp only
    split
    · exact ih _
    · exact ⟨r, rfl, tryGenerateTicket_shape g fuel pos r hr⟩

/-- Whatever `generateTicket` returns passes `_isValidTicket` and is a 3x9 grid. -/
theorem generateTicket_sound (g : Rng) (fuel pos : Nat) (r : Ticket × Nat)
    (hr : generateTicket g fuel pos = some r) (hshape : ∀ left p r',
      generateTicketLoop g fuel left p = some r' → Shape r'.1) :
    Shape r.1 ∧ _isValidTicket r.1 = true := by
  unfold generateTicket at hr
  split at hr
  · cases hr
  · rename_i t p ht
    split at hr
    · cases hr
      exact generateTicketGuaranteed_valid g p
    · rename_i hv
      cases hr
      exact ⟨hshape _ _ _ ht, by simpa using hv⟩

theorem generateTicketLoop_shape (g : Rng) (fuel left pos : Nat) (r : Ticket × Nat)
    (hr : generateTicketLoop g fuel left pos = some r) : Shape r.1 := by
  induction left generalizing pos with
  | zero => exact tryGenerateTicket_shape g fuel pos r hr
  | succ left ih =>
    rw [generateTicketLoop] at hr
    split at hr
    · cases hr
    · rename_i t p ht
      split at hr
      · exact ih _ hr
      · cases hr
        exact tryGenerateTicket_shape g fuel pos _ ht

theorem generateTicket_isSome (g : Rng) (w fuel pos : Nat) (hfair : PicksEveryColumn g w)
    (hfuel : 6 * w ≤ fuel) : ∃ r, generateTicket g fuel pos = some r := by
  obtain ⟨r, hr, -⟩ := generateTicketLoop_isSome g w fuel hfair hfuel 99 pos
  unfold generateTicket
  rw [hr]
  dsimp only
  split <;> exact ⟨_, rfl⟩

theorem generateTickets_sound (g : Rng) (fuel count pos : Nat) (r : List Ticket × Nat)
    (hr : generateTickets g fuel count pos = some r) :
    r.1.length = count ∧ ∀ t ∈ r.1, Shape t ∧ _isValidTicket t = true := by
  induction count generalizing pos r with
  | zero =>
    rw [generateTickets] at hr
    cases hr
    simp
  | succ count ih =>
    rw [generateTickets] at hr
    split at hr
    · cases hr
    · rename_i t p ht
      split at hr
      · cases hr
      · rename_i ts p2 hts
        cases hr
        have h1 := generateTicket_sound g fuel pos (t, p) ht
          (fun left p r' h => generateTicketLoop_shape g fuel left p r' h)
        have h2 := ih p (ts, p2) hts
        refine ⟨by simp [h2.1], ?_⟩
        intro t' ht'
        rcases List.mem_cons.1 ht' with rfl | hmem
        · exact h1
        · exact h2.2 t' hmem

theorem generateTickets_isSome (g : Rng) (w fuel count pos : Nat) (hfair : PicksEveryColumn g w)
    (hfuel : 6 * w ≤ fuel) : ∃ r, generateTickets g fuel count pos = some r := by
  induction count generalizing pos with
  | zero => exact ⟨_, rfl⟩
  | succ count ih =>
    obtain ⟨r, hr⟩ := generateTicket_isSome g w fuel pos hfair hfuel
    obtain ⟨r2, hr2⟩ := ih r.2
    rw [generateTickets, hr]
    dsimp only
    rw [hr2]
    exact ⟨_, rfl⟩

/-- With the random source stuck on column 0, the column-count loop never ends. -/
theorem distributeLoop_stuck (fuel pos : Nat) (counts : List Nat) (remaining : Nat)
    (h : ¬ counts.getD 0 0 < 3) :
    distributeLoop (fun _ => 0) fuel pos counts (remaining + 1) = none := by
  induction fuel generalizing pos with
  | zero => rfl
  | succ fuel ih =>
    rw [distributeLoop]
    have h0 : randomBelow (fun _ => 0) pos 9 = 0 := rfl
    simp only [h0, if_neg h]
    exact ih _

theorem distributeColumnCounts_stuck (fuel pos : Nat) :
    _distributeColumnCounts (fun _ => 0) fuel pos = none := by
  unfold _distributeColumnCounts
  rcases fuel with _ | _ | fuel
  · rfl
  · rfl
  · have h0 : ∀ p, randomBelow (fun _ => 0) p 9 = 0 := fun _ => rfl
    rw [distributeLoop]
    simp only [h0]
    rw [if_pos (by decide), distributeLoop]
    simp only [h0]
    rw [if_pos (by decide)]
    exact distributeLoop_stuck _ _ _ _ (by decide)

theorem generateTickets_stuck (fuel : Nat) : generateTickets (fun _ => 0) fuel 1 0 = none := by
  have h1 : ∀ pos, _tryGenerateTicket (fun _ => 0) fuel pos = none := by
    intro pos
    unfold _tryGenerateTicket
    dsimp only
    rw [distributeColumnCounts_stuck]
  have h2 : generateTicket (fun _ => 0) fuel 0 = none := by
    unfold generateTicket
    rw [generateTicketLoop, h1]
  rw [generateTickets, h2]

theorem picksEveryColumn_id : PicksEveryColumn (fun k => k) 9 := by
  intro pos col hcol
  refine ⟨(col + 9 - pos % 9) % 9, Nat.mod_lt _ (by decide), ?_⟩
  show (pos + (col + 9 - pos % 9) % 9) % 9 = col
  omega

theorem totalNonNull_of_valid (t : Ticket) (h : ValidTicket t) : totalNonNull t = 15 := by
  unfold totalNonNull
  rw [h.rows 0 (by omega), h.rows 1 (by omega), h.rows 2 (by omega)]

/-! ## Winner detection leaves the pool alone -/

theorem poolView_announceWinner (s : Game) (c : Category) (p : Participant) (d : String) :
    poolView (announceWinner s c p d) = poolView s := by
  unfold announceWinner sendWinnerToDisplay
  dsimp only
  split <;> rfl

theorem poolView_checkEarlyFive (s : Game) (p : Participant) :
    poolView (checkEarlyFive s p) = poolView s := by
  unfold checkEarlyFive
  split
  · exact poolView_announceWinner _ _ _ _
  · rfl

theorem poolView_checkRow (sp : Game × Participant) (row : Nat) :
    poolView (checkRow sp row).1 = poolView sp.1 := by
  unfold checkRow
  dsimp only
  split
  · rfl
  · split
    · split
      · exact poolView_announceWinner _ _ _ _
      · rfl
    · rfl

theorem poolView_checkRowWins (s : Game) (p : Participant) :
    poolView (checkRowWins s p).1 = poolView s := by
  unfold checkRowWins
  have key : ∀ (rows : List Nat) (sp : Game × Participant),
      poolView (rows.foldl checkRow sp).1 = poolView sp.1 := by
    intro rows
    induction rows with
    | nil => exact fun _ => rfl
    | cons r rows ih =>
      intro sp
      rw [List.foldl_cons, ih, poolView_checkRow]
  exact key _ (s, p)

theorem poolView_checkCornerWins (s : Game) (p : Participant) :
    poolView (checkCornerWins s p).1 = poolView s := by
  unfold checkCornerWins
  dsimp only
  split
  · rfl
  · split
    · exact poolView_announceWinner _ _ _ _
    · rfl

theorem poolView_checkFullHouse (s : Game) (p : Participant) :
    poolView (checkFullHouse s p) = poolView s := by
  unfold checkFullHouse
  dsimp only
  split
  · split
    · exact poolView_announceWinner _ _ _ _
    · exact poolView_announceWinner _ _ _ _
  · rfl

theorem poolView_checkParticipant (n : Int) (s : Game) (p : Participant) :
    poolView (checkParticipant n s p).1 = poolView s := by
  unfold checkParticipant
  dsimp only
  split
  · rw [poolView_checkFullHouse, poolView_checkCornerWins, poolView_checkRowWins,
      poolView_checkEarlyFive]
  · rfl

theorem poolView_checkAll (n : Int) (ps : List Participant) (s : Game) :
    poolView (checkAll n s ps).1 = poolView s := by
  induction ps generalizing s with
  | nil => rfl
  | cons p ps ih =>
    rw [checkAll]
    dsimp only
    rw [ih, poolView_checkParticipant]

theorem poolView_checkWinners (s : Game) (n : Int) :
    poolView (checkWinners s n) = poolView s :=
  poolView_checkAll n s.participants s

theorem checkWinners_called (s : Game) (n : Int) :
    (checkWinners s n).calledNumbers = s.calledNumbers :=
  congrArg (fun v => v.1) (poolView_checkWinners s n)

theorem checkWinners_remaining (s : Game) (n : Int) :
    (checkWinners s n).remainingNumbers = s.remainingNumbers :=
  congrArg (fun v => v.2.1) (poolView_checkWinners s n)

theorem checkWinners_current (s : Game) (n : Int) :
    (checkWinners s n).currentNumber = s.currentNumber :=
  congrArg (fun v => v.2.2.1) (poolView_checkWinners s n)

/-! ## The number pool -/

theorem mem_fullPool (n : Int) : n ∈ fullPool ↔ 1 ≤ n ∧ n ≤ 90 := by
  unfold fullPool
  simp only [List.mem_map, List.mem_range]
  constructor
  · rintro ⟨i, hi, rfl⟩
    omega
  · rintro ⟨h1, h2⟩
    exact ⟨(n - 1).toNat, by omega, by omega⟩

theorem nodup_fullPool : fullPool.Nodup := by
  unfold fullPool
  refine List.Nodup.map ?_ (List.nodup_range _)
  intro a b h
  simpa using h

theorem length_fullPool : fullPool.length = 90 := by
  simp [fullPool]

theorem callNextNumber_pool (s : Game) :
    (callNextNumber s).remainingNumbers = s.remainingNumbers.dropLast ∧
      (callNextNumber s).calledNumbers =
        s.calledNumbers ++ s.remainingNumbers.getLast?.toList := by
  unfold callNextNumber
  split
  · rename_i h
    have : s.remainingNumbers = [] := List.getLast?_eq_none_iff.1 h
    simp [stopAutoCall, this]
  · rename_i number h
    rw [checkWinners_remaining, checkWinners_called]
    simp [h]

/-- A call of `callNextNumber` moves the last remaining number to the end of the history. -/
theorem callNextNumber_history (s : Game) :
    (callNextNumber s).calledNumbers ++ (callNextNumber s).remainingNumbers.reverse =
        s.calledNumbers ++ s.remainingNumbers.reverse ∧
      (callNextNumber s).remainingNumbers.length = s.remainingNumbers.length - 1 := by
  obtain ⟨h1, h2⟩ := callNextNumber_pool s
  rw [h1, h2]
  refine ⟨?_, by simp⟩
  rcases List.eq_nil_or_concat s.remainingNumbers with h | ⟨l, a, h⟩
  · simp [h]
  · simp [h]

theorem iterate_callNextNumber_history (k : Nat) (s : Game) :
    (callNextNumber^[k] s).calledNumbers ++ (callNextNumber^[k] s).remainingNumbers.reverse =
        s.calledNumbers ++ s.remainingNumbers.reverse ∧
      (callNextNumber^[k] s).remainingNumbers.length = s.remainingNumbers.length - k := by
  induction k with
  | zero => simp
  | succ k ih =>
    rw [Function.iterate_succ_apply']
    obtain ⟨h1, h2⟩ := callNextNumber_history (callNextNumber^[k] s)
    rw [h1, h2, ih.1, ih.2]
    exact ⟨rfl, by omega⟩

theorem poolInv_newGame (g : Rng) (pos : Nat) (roster : List RosterEntry) :
    PoolInv (newGame g pos roster) := by
  unfold PoolInv newGame
  simpa using shuffle_perm g pos fullPool

theorem poolInv_resetGame (g : Rng) (pos : Nat) (s : Game) : PoolInv (resetGame g pos s) := by
  unfold PoolInv resetGame
  simpa using shuffle_perm g pos fullPool

theorem poolInv_callNextNumber (s : Game) (h : PoolInv s) : PoolInv (callNextNumber s) := by
  unfold PoolInv at h ⊢
  obtain ⟨h1, h2⟩ := callNextNumber_pool s
  rw [h1, h2]
  rcases List.eq_nil_or_concat s.remainingNumbers with h0 | ⟨l, a, h0⟩
  · simpa [h0] using h
  · rw [List.concat_eq_append] at h0
    rw [h0] at h ⊢
    have e1 : (l ++ [a]).dropLast = l := by simp
    have e2 : (l ++ [a]).getLast?.toList = [a] := by simp
    rw [e1, e2, List.append_assoc]
    exact (List.Perm.append_left _ List.perm_append_comm).trans h

theorem poolInv_manualCallNumber (s : Game) (n : Int) (h : PoolInv s) (h1 : 1 ≤ n)
    (h90 : n ≤ 90) : PoolInv (manualCallNumber s n) := by
  unfold manualCallNumber
  split
  · exact h
  · rename_i hnot
    unfold PoolInv at h ⊢
    rw [checkWinners_called, checkWinners_remaining]
    dsimp only
    have hmem : n ∈ s.calledNumbers ++ s.remainingNumbers :=
      h.mem_iff.2 ((mem_fullPool n).2 ⟨h1, h90⟩)
    have hrem : n ∈ s.remainingNumbers := by
      rcases List.mem_append.1 hmem with hc | hr
      · exact absurd (by simpa using hc) hnot
      · exact hr
    refine List.Perm.trans ?_ h
    rw [List.append_assoc]
    exact List.Perm.append_left _ (List.perm_cons_erase hrem).symm

theorem reachable_poolInv (s : Game) (h : Reachable s) : PoolInv s := by
  induction h with
  | fresh g pos roster => exact poolInv_newGame g pos roster
  | callNext s _ ih => exact poolInv_callNextNumber s ih
  | manual s n _ h1 h90 ih => exact poolInv_manualCallNumber s n ih h1 h90
  | reset g pos s _ _ => exact poolInv_resetGame g pos s

theorem callNextNumber_of_empty (s : Game) (h : s.remainingNumbers = []) :
    callNextNumber s = stopAutoCall s := by
  unfold callNextNumber
  rw [h]
  rfl

theorem newGame_start (g : Rng) (pos : Nat) (roster : List RosterEntry) :
    (newGame g pos roster).remainingNumbers.Perm fullPool ∧
      (newGame g pos roster).calledNumbers = [] := by
  have h := poolInv_newGame g pos roster
  unfold PoolInv at h
  have e : (newGame g pos roster).calledNumbers = [] := rfl
  rw [e, List.nil_append] at h
  exact ⟨h, e⟩

theorem resetGame_start (g : Rng) (pos : Nat) (s : Game) :
    (resetGame g pos s).remainingNumbers.Perm fullPool ∧
      (resetGame g pos s).calledNumbers = [] := by
  have h := poolInv_resetGame g pos s
  unfold PoolInv at h
  have e : (resetGame g pos s).calledNumbers = [] := rfl
  rw [e, List.nil_append] at h
  exact ⟨h, e⟩

theorem stopAutoCall_fields (s : Game) :
    (stopAutoCall s).calledNumbers = s.calledNumbers ∧
      (stopAutoCall s).remainingNumbers = s.remainingNumbers ∧
      (stopAutoCall s).currentNumber = s.currentNumber ∧
      (stopAutoCall s).participants = s.participants ∧
      (stopAutoCall s).winners = s.winners ∧
      (stopAutoCall s).pendingWinners = s.pendingWinners ∧
      (stopAutoCall s).displayed = s.displayed :=
  ⟨rfl, rfl, rfl, rfl, rfl, rfl, rfl⟩

/-! ## The winners ledger -/

theorem Winners.get_push (w : Winners) (c c' : Category) (e : LedgerEntry) :
    (w.push c e).get c' = if c' = c then w.get c ++ [e] else w.get c' := by
  cases c <;> cases c' <;> rfl

theorem winners_announceWinner (s : Game) (c : Category) (p : Participant) (d : String) :
    (announceWinner s c p d).winners = s.winners.push c { id := p.id, name := p.name } := by
  unfold announceWinner sendWinnerToDisplay
  dsimp only
  split <;> rfl

theorem hasWon_eq_false (s : Game) (p : Participant) (c : Category)
    (h : hasWon s p c = false) : p.id ∉ (s.winners.get c).map (fun e => e.id) := by
  unfold hasWon at h
  intro hmem
  obtain ⟨e, he, hid⟩ := List.mem_map.1 hmem
  have : (s.winners.get c).any (fun w => w.id == p.id) = true :=
    List.any_eq_true.2 ⟨e, he, by simpa using hid⟩
  rw [h] at this
  exact absurd this (by decide)

theorem ledgerOk_emptyWinners : LedgerOk emptyWinners := by
  intro c
  cases c <;> exact ⟨Nat.zero_le _, List.nodup_nil⟩

/-- An announcement under the guards "below the limit" and "has not won" keeps the ledger
within its limits and free of repeated ids. -/
theorem ledgerOk_announceWinner (s : Game) (c : Category) (p : Participant) (d : String)
    (h : LedgerOk s.winners) (hlen : (s.winners.get c).length < winnerLimits c)
    (hwon : hasWon s p c = false) : LedgerOk (announceWinner s c p d).winners := by
  intro c'
  rw [winners_announceWinner, Winners.get_push]
  split
  · rename_i hc
    subst hc
    refine ⟨by rw [List.length_append]; exact hlen, ?_⟩
    rw [List.map_append]
    refine List.Nodup.append (h c').2 (List.nodup_singleton _) ?_
    intro x hx hx'
    rw [List.map_singleton, List.mem_singleton] at hx'
    subst hx'
    exact hasWon_eq_false s p c' hwon hx
  · exact h c'

theorem ledgerOk_checkEarlyFive (s : Game) (p : Participant) (h : LedgerOk s.winners) :
    LedgerOk (checkEarlyFive s p).winners := by
  unfold checkEarlyFive
  split
  · rename_i hc
    simp only [Bool.and_eq_true, decide_eq_true_eq, Bool.not_eq_true'] at hc
    exact ledgerOk_announceWinner s _ p _ h hc.1.1 hc.2
  · exact h

theorem ledgerOk_checkRow (sp : Game × Participant) (row : Nat) (h : LedgerOk sp.1.winners) :
    LedgerOk (checkRow sp row).1.winners := by
  unfold checkRow
  dsimp only
  split
  · exact h
  · split
    · split
      · rename_i hc
        simp only [Bool.and_eq_true, decide_eq_true_eq, Bool.not_eq_true'] at hc
        exact ledgerOk_announceWinner sp.1 _ _ _ h hc.1 hc.2
      · exact h
    · exact h

theorem ledgerOk_checkRowWins (s : Game) (p : Participant) (h : LedgerOk s.winners) :
    LedgerOk (checkRowWins s p).1.winners := by
  unfold checkRowWins
  have key : ∀ (rows : List Nat) (sp : Game × Participant), LedgerOk sp.1.winners →
      LedgerOk (rows.foldl checkRow sp).1.winners := by
    intro rows
    induction rows with
    | nil => exact fun _ h => h
    | cons r rows ih =>
      intro sp hsp
      rw [List.foldl_cons]
      exact ih _ (ledgerOk_checkRow sp r hsp)
  exact key _ (s, p) h

theorem ledgerOk_checkCornerWins (s : Game) (p : Participant) (h : LedgerOk s.winners) :
    LedgerOk (checkCornerWins s p).1.winners := by
  unfold checkCornerWins
  dsimp only
  split
  · exact h
  · split
    · rename_i hc
      simp only [Bool.and_eq_true, decide_eq_true_eq, Bool.not_eq_true'] at hc
      exact ledgerOk_announceWinner s _ _ _ h hc.1.2 hc.2
    · exact h

theorem ledgerOk_checkFullHouse (s : Game) (p : Participant) (h : LedgerOk s.winners) :
    LedgerOk (checkFullHouse s p).winners := by
  unfold checkFullHouse
  dsimp only
  split
  · rename_i hc
    simp only [Bool.and_eq_true, decide_eq_true_eq, Bool.not_eq_true'] at hc
    have := ledgerOk_announceWinner s .fullHouse p
      ("Full House (" ++ fullHouseSuffix ((s.winners.get .fullHouse).length + 1) ++ ")")
      h hc.1.1 hc.2
    split
    · exact this
    · exact this
  · exact h

theorem ledgerOk_checkParticipant (n : Int) (s : Game) (p : Participant)
    (h : LedgerOk s.winners) : LedgerOk (checkParticipant n s p).1.winners := by
  unfold checkParticipant
  dsimp only
  split
  · exact ledgerOk_checkFullHouse _ _ (ledgerOk_checkCornerWins _ _
      (ledgerOk_checkRowWins _ _ (ledgerOk_checkEarlyFive _ _ h)))
  · exact h

theorem ledgerOk_checkAll (n : Int) (ps : List Participant) (s : Game)
    (h : LedgerOk s.winners) : LedgerOk (checkAll n s ps).1.winners := by
  induction ps generalizing s with
  | nil => exact h
  | cons p ps ih =>
    rw [checkAll]
    exact ih _ (ledgerOk_checkParticipant n s p h)

theorem ledgerOk_checkWinners (s : Game) (n : Int) (h : LedgerOk s.winners) :
    LedgerOk (checkWinners s n).winners :=
  ledgerOk_checkAll n s.participants s h

theorem reachable_ledgerOk (s : Game) (h : Reachable s) : LedgerOk s.winners := by
  induction h with
  | fresh g pos roster => exact ledgerOk_emptyWinners
  | callNext s _ ih =>
    unfold callNextNumber
    split
    · exact ih
    · exact ledgerOk_checkWinners _ _ ih
  | manual s n _ _ _ ih =>
    unfold manualCallNumber
    split
    · exact ih
    · exact ledgerOk_checkWinners _ _ ih
  | reset g pos s _ _ => exact ledgerOk_emptyWinners

/-! ## Marking -/

theorem onTicket_iff (t : Ticket) (m : Int) : onTicket t m = true ↔ OnTicket t m := by
  unfold onTicket OnTicket
  simp only [List.any_eq_true, List.mem_range, beq_iff_eq]
  constructor
  · rintro ⟨r, hr, c, hc, h⟩
    exact ⟨r, c, hr, hc, h⟩
  · rintro ⟨r, c, hr, hc, h⟩
    exact ⟨r, hr, c, hc, h⟩

theorem coreView_checkRow (sp : Game × Participant) (row : Nat) :
    coreView (checkRow sp row).2 = coreView sp.2 := by
  unfold checkRow
  dsimp only
  split
  · rfl
  · split
    · split <;> rfl
    · rfl

theorem coreView_checkRowWins (s : Game) (p : Participant) :
    coreView (checkRowWins s p).2 = coreView p := by
  unfold checkRowWins
  have key : ∀ (rows : List Nat) (sp : Game × Participant),
      coreView (rows.foldl checkRow sp).2 = coreView sp.2 := by
    intro rows
    induction rows with
    | nil => exact fun _ => rfl
    | cons r rows ih =>
      intro sp
      rw [List.foldl_cons, ih, coreView_checkRow]
  exact key _ (s, p)

theorem coreView_checkCornerWins (s : Game) (p : Participant) :
    coreView (checkCornerWins s p).2 = coreView p := by
  unfold checkCornerWins
  dsimp only
  split
  · rfl
  · split <;> rfl

theorem coreView_checkParticipant (n : Int) (s : Game) (p : Participant) :
    coreView (checkParticipant n s p).2 =
      (p.id, p.name, p.ticket,
        if onTicket p.ticket n then p.markedNumbers ++ [n] else p.markedNumbers) := by
  unfold checkParticipant
  dsimp only
  split
  · rw [coreView_checkCornerWins, coreView_checkRowWins]
    rfl
  · rfl

theorem drawMarks_checkParticipant (n : Int) (s : Game) (p : Participant) :
    DrawMarks n p (checkParticipant n s p).2 := by
  have h := coreView_checkParticipant n s p
  unfold coreView at h
  simp only [Prod.mk.injEq] at h
  obtain ⟨h1, h2, h3, h4⟩ := h
  refine ⟨h1, h2, h3, ?_, ?_⟩
  · intro hon
    rw [h4, if_pos ((onTicket_iff _ _).2 hon)]
  · intro hon
    rw [h4, if_neg (fun hc => hon ((onTicket_iff _ _).1 hc))]

theorem drawMarks_checkAll (n : Int) (ps : List Participant) (s : Game) :
    List.Forall₂ (DrawMarks n) ps (checkAll n s ps).2 := by
  induction ps generalizing s with
  | nil => exact List.Forall₂.nil
  | cons p ps ih =>
    rw [checkAll]
    exact List.Forall₂.cons (drawMarks_checkParticipant n s p) (ih _)

theorem participants_checkWinners (s : Game) (n : Int) :
    (checkWinners s n).participants = (checkAll n s s.participants).2 := rfl

theorem forall₂_exists_left {α β : Type} {R : α → β → Prop} {l₁ : List α} {l₂ : List β}
    (h : List.Forall₂ R l₁ l₂) (b : β) (hb : b ∈ l₂) : ∃ a, a ∈ l₁ ∧ R a b := by
  induction h with
  | nil => exact absurd hb (List.not_mem_nil _)
  | cons hab _ ih =>
    rcases List.mem_cons.1 hb with rfl | hb'
    · exact ⟨_, List.mem_cons_self _ _, hab⟩
    · obtain ⟨a, ha, hr⟩ := ih hb'
      exact ⟨a, List.mem_cons_of_mem _ ha, hr⟩

/-- A draw of a number not called before keeps the marks in step with the call history. -/
theorem markInv_draw (s s1 : Game) (n : Int) (h : MarkInv s) (hn : n ∉ s.calledNumbers)
    (hp : s1.participants = s.participants)
    (hc : s1.calledNumbers = s.calledNumbers ++ [n]) : MarkInv (checkWinners s1 n) := by
  intro p' hp'
  rw [participants_checkWinners, hp] at hp'
  have hall := drawMarks_checkAll n s.participants s1
  obtain ⟨p, hpmem, -, -, ht, hyes, hno⟩ := forall₂_exists_left hall p' hp'
  obtain ⟨hnd, hmem⟩ := h p hpmem
  rw [checkWinners_called, hc, ht]
  by_cases hon : OnTicket p.ticket n
  · rw [hyes hon]
    have hnot : n ∉ p.markedNumbers := fun hm => hn ((hmem n).1 hm).2
    refine ⟨List.Nodup.append hnd (List.nodup_singleton _) (by
      intro x hx hx'
      rw [List.mem_singleton] at hx'
      exact hnot (hx' ▸ hx)), ?_⟩
    intro m
    rw [List.mem_append, List.mem_append, List.mem_singleton, hmem m]
    constructor
    · rintro (⟨h1, h2⟩ | rfl)
      · exact ⟨h1, Or.inl h2⟩
      · exact ⟨hon, Or.inr rfl⟩
    · rintro ⟨h1, h2 | rfl⟩
      · exact Or.inl ⟨h1, h2⟩
      · exact Or.inr rfl
  · rw [hno hon]
    refine ⟨hnd, ?_⟩
    intro m
    rw [List.mem_append, List.mem_singleton, hmem m]
    constructor
    · rintro ⟨h1, h2⟩
      exact ⟨h1, Or.inl h2⟩
    · rintro ⟨h1, h2 | rfl⟩
      · exact ⟨h1, h2⟩
      · exact absurd h1 hon

theorem markInv_resetGame (g : Rng) (pos : Nat) (s : Game) : MarkInv (resetGame g pos s) := by
  intro p hp
  unfold resetGame at hp
  simp only [List.mem_map] at hp
  obtain ⟨q, -, rfl⟩ := hp
  exact ⟨List.nodup_nil, fun m => by simp [resetGame]⟩

theorem markInv_newGame (g : Rng) (pos : Nat) (roster : List RosterEntry) :
    MarkInv (newGame g pos roster) := by
  intro p hp
  unfold newGame at hp
  simp only [List.mem_map] at hp
  obtain ⟨q, -, rfl⟩ := hp
  exact ⟨List.nodup_nil, fun m => by simp [newGame]⟩

theorem reachable_markInv (s : Game) (h : Reachable s) : MarkInv s := by
  induction h with
  | fresh g pos roster => exact markInv_newGame g pos roster
  | callNext s hs ih =>
    unfold callNextNumber
    split
    · exact ih
    · rename_i number hlast
      have hmem : number ∈ s.remainingNumbers := List.mem_of_getLast?_eq_some hlast
      have hpool := reachable_poolInv s hs
      have hnd : (s.calledNumbers ++ s.remainingNumbers).Nodup :=
        hpool.nodup_iff.2 nodup_fullPool
      exact markInv_draw s _ number ih
        (fun hc => (List.nodup_append.1 hnd).2.2 hc hmem) rfl rfl
  | manual s n _ _ _ ih =>
    unfold manualCallNumber
    split
    · exact ih
    · rename_i hnot
      exact markInv_draw s _ n ih (by simpa using hnot) rfl rfl
  | reset g pos s _ _ => exact markInv_resetGame g pos s

/-! ## Line wins -/

theorem allMarked_iff (t : Ticket) (r : Nat) (marked : List Int) :
    (rowNumbers t r).all (fun n => marked.contains n) = true ↔ RowComplete t r marked := by
  unfold rowNumbers RowComplete
  simp only [List.all_eq_true, List.mem_filterMap, id]
  constructor
  · intro h v hv
    simpa using h v ⟨some v, hv, rfl⟩
  · rintro h v ⟨a, ha, rfl⟩
    simpa using h v ha

theorem winnerLimits_line (row : Nat) : winnerLimits (lineCategory row) = 2 := by
  unfold lineCategory
  split <;> rfl

theorem checkRow_ledger_other (sp : Game × Participant) (row : Nat) (c : Category)
    (h : c ≠ lineCategory row) :
    (checkRow sp row).1.winners.get c = sp.1.winners.get c := by
  unfold checkRow
  dsimp only
  split
  · rfl
  · split
    · split
      · rw [winners_announceWinner, Winners.get_push, if_neg h]
      · rfl
    · rfl

theorem checkRow_ledger (sp : Game × Participant) (row : Nat) :
    (checkRow sp row).1.winners.get (lineCategory row) =
      if lineWinsNow (sp.1.winners.get (lineCategory row)) sp.2 row then
        sp.1.winners.get (lineCategory row) ++ [{ id := sp.2.id, name := sp.2.name }]
      else sp.1.winners.get (lineCategory row) := by
  unfold checkRow lineWinsNow hasWon
  rw [winnerLimits_line]
  dsimp only
  generalize sp.2.rowsCompleted.getD row false = b1
  generalize (rowNumbers sp.2.ticket row).all (fun n => sp.2.markedNumbers.contains n) = b2
  generalize (sp.1.winners.get (lineCategory row)).any (fun w => w.id == sp.2.id) = b4
  by_cases h3 : (sp.1.winners.get (lineCategory row)).length < 2 <;>
    cases b1 <;> cases b2 <;> cases b4 <;>
    simp [h3, winners_announceWinner, Winners.get_push]

theorem checkRow_flags_other (sp : Game × Participant) (row row' : Nat) (h : row' ≠ row) :
    (checkRow sp row).2.rowsCompleted.getD row' false = sp.2.rowsCompleted.getD row' false := by
  unfold checkRow
  dsimp only
  have hset : (sp.2.rowsCompleted.set row true).getD row' false =
      sp.2.rowsCompleted.getD row' false := by
    simp [List.getD_eq_getElem?_getD, List.getElem?_set_ne (Ne.symm h)]
  split
  · rfl
  · split
    · split <;> exact hset
    · rfl

theorem lineWinsNow_congr (ledger : List LedgerEntry) (p q : Participant) (row : Nat)
    (hcore : coreView q = coreView p)
    (hflag : q.rowsCompleted.getD row false = p.rowsCompleted.getD row false) :
    lineWinsNow ledger q row = lineWinsNow ledger p row := by
  unfold coreView at hcore
  simp only [Prod.mk.injEq] at hcore
  obtain ⟨h1, -, h3, h4⟩ := hcore
  unfold lineWinsNow
  rw [hflag, h1, h3, h4]

theorem checkEarlyFive_ledger_other (s : Game) (p : Participant) (c : Category)
    (h : c ≠ .earlyFive) : (checkEarlyFive s p).winners.get c = s.winners.get c := by
  unfold checkEarlyFive
  split
  · rw [winners_announceWinner, Winners.get_push, if_neg h]
  · rfl

theorem checkCornerWins_ledger_other (s : Game) (p : Participant) (c : Category)
    (h : c ≠ .corners) : (checkCornerWins s p).1.winners.get c = s.winners.get c := by
  unfold checkCornerWins
  dsimp only
  split
  · rfl
  · split
    · rw [winners_announceWinner, Winners.get_push, if_neg h]
    · rfl

theorem checkFullHouse_ledger_other (s : Game) (p : Participant) (c : Category)
    (h : c ≠ .fullHouse) : (checkFullHouse s p).winners.get c = s.winners.get c := by
  unfold checkFullHouse
  dsimp only
  split
  · split
    · show (announceWinner s .fullHouse p _).winners.get c = _
      rw [winners_announceWinner, Winners.get_push, if_neg h]
    · rw [winners_announceWinner, Winners.get_push, if_neg h]
  · rfl

theorem lineCategory_ne (row : Nat) :
    lineCategory row ≠ .earlyFive ∧ lineCategory row ≠ .corners ∧
      lineCategory row ≠ .fullHouse := by
  unfold lineCategory
  split <;> exact ⟨by decide, by decide, by decide⟩

/-- What `checkRowWins` does to the ledger of row `r`: the test `lineWinsNow` on the ledger
and the participant it was called with decides whether the participant is appended. -/
theorem checkRowWins_ledger (s : Game) (p : Participant) (r : Nat) (hr : r < 3) :
    (checkRowWins s p).1.winners.get (lineCategory r) =
      if lineWinsNow (s.winners.get (lineCategory r)) p r then
        s.winners.get (lineCategory r) ++ [{ id := p.id, name := p.name }]
      else s.winners.get (lineCategory r) := by
  have e : checkRowWins s p = checkRow (checkRow (checkRow (s, p) 0) 1) 2 := rfl
  rw [e]
  have hid : ∀ sp row, (checkRow sp row).2.id = sp.2.id ∧ (checkRow sp row).2.name = sp.2.name :=
    by
      intro sp row
      have := coreView_checkRow sp row
      unfold coreView at this
      simp only [Prod.mk.injEq] at this
      exact ⟨this.1, this.2.1⟩
  interval_cases r
  · rw [checkRow_ledger_other _ 2 _ (by decide), checkRow_ledger_other _ 1 _ (by decide),
      checkRow_ledger]
  · rw [checkRow_ledger_other _ 2 _ (by decide), checkRow_ledger,
      checkRow_ledger_other _ 0 _ (by decide),
      lineWinsNow_congr _ p _ 1 (coreView_checkRow _ 0) (checkRow_flags_other _ 0 1 (by decide)),
      (hid (s, p) 0).1, (hid (s, p) 0).2]
  · rw [checkRow_ledger, checkRow_ledger_other _ 1 _ (by decide),
      checkRow_ledger_other _ 0 _ (by decide),
      lineWinsNow_congr _ p _ 2 ((coreView_checkRow _ 1).trans (coreView_checkRow _ 0))
        ((checkRow_flags_other _ 1 2 (by decide)).trans (checkRow_flags_other _ 0 2 (by decide))),
      (hid _ 1).1, (hid _ 1).2, (hid (s, p) 0).1, (hid (s, p) 0).2]

/-- What a draw does, at the turn of participant `p`, to the ledger of row `r`. -/
theorem checkParticipant_line (n : Int) (s : Game) (p : Participant) (r : Nat) (hr : r < 3) :
    (checkParticipant n s p).1.winners.get (lineCategory r) =
      if onTicket p.ticket n &&
          lineWinsNow (s.winners.get (lineCategory r))
            { p with markedNumbers := p.markedNumbers ++ [n] } r then
        s.winners.get (lineCategory r) ++ [{ id := p.id, name := p.name }]
      else s.winners.get (lineCategory r) := by
  obtain ⟨h1, h2, h3⟩ := lineCategory_ne r
  unfold checkParticipant
  dsimp only
  by_cases hon : onTicket p.ticket n = true
  · rw [if_pos hon, checkFullHouse_ledger_other _ _ _ h3, checkCornerWins_ledger_other _ _ _ h2,
      checkRowWins_ledger _ _ r hr, checkEarlyFive_ledger_other _ _ _ h1]
    simp [hon]
  · rw [if_neg hon]
    simp [hon]

/-! ## Row flags -/

theorem rowFlagsSound_checkRow (sp : Game × Participant) (row : Nat)
    (h : RowFlagsSound sp.2) : RowFlagsSound (checkRow sp row).2 := by
  unfold checkRow
  dsimp only
  split
  · exact h
  · split
    · rename_i hall
      have hcomp := (allMarked_iff _ _ _).1 hall
      have key : RowFlagsSound { sp.2 with rowsCompleted := sp.2.rowsCompleted.set row true } := by
        intro r hr hflag
        by_cases hrr : r = row
        · subst hrr
          exact hcomp
        · apply h r hr
          have : (sp.2.rowsCompleted.set row true).getD r false =
              sp.2.rowsCompleted.getD r false := by
            simp [List.getD_eq_getElem?_getD, List.getElem?_set_ne (Ne.symm hrr)]
          rw [← this]
          exact hflag
      split <;> exact key
    · exact h

theorem rowFlagsSound_checkRowWins (s : Game) (p : Participant) (h : RowFlagsSound p) :
    RowFlagsSound (checkRowWins s p).2 := by
  have e : checkRowWins s p = checkRow (checkRow (checkRow (s, p) 0) 1) 2 := rfl
  rw [e]
  exact rowFlagsSound_checkRow _ 2 (rowFlagsSound_checkRow _ 1 (rowFlagsSound_checkRow _ 0 h))

theorem rowFlagsSound_checkCornerWins (s : Game) (p : Participant) (h : RowFlagsSound p) :
    RowFlagsSound (checkCornerWins s p).2 := by
  unfold checkCornerWins
  dsimp only
  split
  · exact h
  · split
    · exact h
    · exact h

theorem rowFlagsSound_checkParticipant (n : Int) (s : Game) (p : Participant)
    (h : RowFlagsSound p) : RowFlagsSound (checkParticipant n s p).2 := by
  unfold checkParticipant
  dsimp only
  split
  · apply rowFlagsSound_checkCornerWins
    apply rowFlagsSound_checkRowWins
    intro r hr hflag v hv
    exact List.mem_append_left _ (h r hr hflag v hv)
  · exact h

theorem rowFlagsSound_checkAll (n : Int) (ps : List Participant) (s : Game)
    (h : ∀ p ∈ ps, RowFlagsSound p) : ∀ p ∈ (checkAll n s ps).2, RowFlagsSound p := by
  induction ps generalizing s with
  | nil => intro p hp; exact absurd hp (List.not_mem_nil _)
  | cons q ps ih =>
    rw [checkAll]
    intro p hp
    rcases List.mem_cons.1 hp with rfl | hp'
    · exact rowFlagsSound_checkParticipant n s q (h q (List.mem_cons_self _ _))
    · exact ih _ (fun x hx => h x (List.mem_cons_of_mem _ hx)) p hp'

theorem reachable_rowFlagsSound (s : Game) (h : Reachable s) :
    ∀ p ∈ s.participants, RowFlagsSound p := by
  induction h with
  | fresh g pos roster =>
    intro p hp
    unfold newGame at hp
    simp only [List.mem_map] at hp
    obtain ⟨q, -, rfl⟩ := hp
    intro r hr hflag
    interval_cases r <;> simp at hflag
  | callNext s _ ih =>
    unfold callNextNumber
    split
    · exact ih
    · exact rowFlagsSound_checkAll _ _ _ ih
  | manual s n _ _ _ ih =>
    unfold manualCallNumber
    split
    · exact ih
    · exact rowFlagsSound_checkAll _ _ _ ih
  | reset g pos s _ _ =>
    intro p hp
    unfold resetGame at hp
    simp only [List.mem_map] at hp
    obtain ⟨q, -, rfl⟩ := hp
    intro r hr hflag
    interval_cases r <;> simp at hflag

/-! ## Row flags and line ledgers -/

theorem checkRow_flags_length (sp : Game × Participant) (row : Nat) :
    (checkRow sp row).2.rowsCompleted.length = sp.2.rowsCompleted.length := by
  unfold checkRow
  dsimp only
  split
  · rfl
  · split
    · split <;> exact List.length_set _ _ _
    · rfl

theorem checkRow_flag_same (sp : Game × Participant) (row : Nat)
    (hlen : row < sp.2.rowsCompleted.length) :
    (checkRow sp row).2.rowsCompleted.getD row false =
      (sp.2.rowsCompleted.getD row false ||
        (rowNumbers sp.2.ticket row).all (fun n => sp.2.markedNumbers.contains n)) := by
  unfold checkRow
  dsimp only
  have hset : (sp.2.rowsCompleted.set row true).getD row false = true := by
    simp [List.getD_eq_getElem?_getD, List.getElem?_set_self, hlen]
  split
  · rename_i h
    rw [h, Bool.true_or]
  · rename_i h
    rw [Bool.not_eq_true] at h
    split
    · rename_i h2
      rw [h, h2]
      split <;> exact hset
    · rename_i h2
      rw [Bool.not_eq_true] at h2
      rw [h, h2]
      rfl

theorem checkRowWins_flags (s : Game) (p : Participant) (hlen : p.rowsCompleted.length = 3)
    (r : Nat) (hr : r < 3) :
    (checkRowWins s p).2.rowsCompleted.getD r false =
      (p.rowsCompleted.getD r false ||
        (rowNumbers p.ticket r).all (fun n => p.markedNumbers.contains n)) := by
  have e : checkRowWins s p = checkRow (checkRow (checkRow (s, p) 0) 1) 2 := rfl
  rw [e]
  have hcore : ∀ sp row, (checkRow sp row).2.ticket = sp.2.ticket ∧
      (checkRow sp row).2.markedNumbers = sp.2.markedNumbers := by
    intro sp row
    have := coreView_checkRow sp row
    unfold coreView at this
    simp only [Prod.mk.injEq] at this
    exact ⟨this.2.2.1, this.2.2.2⟩
  have l0 : (checkRow (s, p) 0).2.rowsCompleted.length = 3 := by
    rw [checkRow_flags_length]; exact hlen
  have l1 : (checkRow (checkRow (s, p) 0) 1).2.rowsCompleted.length = 3 := by
    rw [checkRow_flags_length]; exact l0
  interval_cases r
  · rw [checkRow_flags_other _ 2 0 (by decide), checkRow_flags_other _ 1 0 (by decide),
      checkRow_flag_same _ 0 (by rw [hlen]; decide)]
  · rw [checkRow_flags_other _ 2 1 (by decide), checkRow_flag_same _ 1 (by rw [l0]; decide),
      checkRow_flags_other _ 0 1 (by decide), (hcore (s, p) 0).1, (hcore (s, p) 0).2]
  · rw [checkRow_flag_same _ 2 (by rw [l1]; decide), checkRow_flags_other _ 1 2 (by decide),
      checkRow_flags_other _ 0 2 (by decide), (hcore _ 1).1, (hcore _ 1).2,
      (hcore (s, p) 0).1, (hcore (s, p) 0).2]

theorem checkCornerWins_flags (s : Game) (p : Participant) :
    (checkCornerWins s p).2.rowsCompleted = p.rowsCompleted := by
  unfold checkCornerWins
  dsimp only
  split
  · rfl
  · split <;> rfl

theorem checkParticipant_flags_length (n : Int) (s : Game) (p : Participant) :
    (checkParticipant n s p).2.rowsCompleted.length = p.rowsCompleted.length := by
  unfold checkParticipant
  dsimp only
  split
  · rw [checkCornerWins_flags]
    have e : ∀ s' p', checkRowWins s' p' = checkRow (checkRow (checkRow (s', p') 0) 1) 2 :=
      fun _ _ => rfl
    rw [e, checkRow_flags_length, checkRow_flags_length, checkRow_flags_length]
  · rfl

theorem checkParticipant_flags (n : Int) (s : Game) (p : Participant)
    (hlen : p.rowsCompleted.length = 3) (r : Nat) (hr : r < 3) :
    (checkParticipant n s p).2.rowsCompleted.getD r false =
      (p.rowsCompleted.getD r false || (onTicket p.ticket n &&
        (rowNumbers p.ticket r).all (fun m => (p.markedNumbers ++ [n]).contains m))) := by
  unfold checkParticipant
  dsimp only
  split
  · rename_i hon
    have hrow := checkRowWins_flags
      (checkEarlyFive s { p with markedNumbers := p.markedNumbers ++ [n] })
      { p with markedNumbers := p.markedNumbers ++ [n] } hlen r hr
    rw [checkCornerWins_flags, hrow, hon, Bool.true_and]
  · rename_i hon
    rw [Bool.not_eq_true] at hon
    rw [hon, Bool.false_and, Bool.or_false]

theorem checkParticipant_id (n : Int) (s : Game) (p : Participant) :
    (checkParticipant n s p).2.id = p.id :=
  (drawMarks_checkParticipant n s p).1

theorem lineLedgerInv_step (n : Int) (s : Game) (p : Participant)
    (done rest : List Participant) (hlen : p.rowsCompleted.length = 3)
    (h : LineLedgerInv s.winners (done ++ p :: rest)) :
    LineLedgerInv (checkParticipant n s p).1.winners
      (done ++ (checkParticipant n s p).2 :: rest) := by
  intro r hr e he
  have hflag := checkParticipant_flags n s p hlen r hr
  have hold : e ∈ s.winners.get (lineCategory r) →
      ∃ q ∈ done ++ (checkParticipant n s p).2 :: rest,
        q.id = e.id ∧ q.rowsCompleted.getD r false = true := by
    intro hmem
    obtain ⟨q, hq, hid, hf⟩ := h r hr e hmem
    rcases List.mem_append.1 hq with hq1 | hq2
    · exact ⟨q, List.mem_append_left _ hq1, hid, hf⟩
    · rcases List.mem_cons.1 hq2 with rfl | hq3
      · refine ⟨_, List.mem_append_right _ (List.mem_cons_self _ _), ?_, ?_⟩
        · rw [checkParticipant_id]; exact hid
        · rw [hflag, hf, Bool.true_or]
      · exact ⟨q, List.mem_append_right _ (List.mem_cons_of_mem _ hq3), hid, hf⟩
  rw [checkParticipant_line n s p r hr] at he
  split at he
  · rename_i hwin
    rcases List.mem_append.1 he with h1 | h1
    · exact hold h1
    · rw [List.mem_singleton] at h1
      subst h1
      refine ⟨_, List.mem_append_right _ (List.mem_cons_self _ _), checkParticipant_id n s p, ?_⟩
      rw [hflag]
      rw [Bool.and_eq_true] at hwin
      obtain ⟨hon, hw⟩ := hwin
      unfold lineWinsNow at hw
      simp only [Bool.and_eq_true] at hw
      rw [hon, Bool.true_and, hw.1.1.2, Bool.or_true]
  · exact hold he

theorem lineLedgerInv_checkAll (n : Int) (pending : List Participant) :
    ∀ (s : Game) (done tail : List Participant),
      (∀ q ∈ pending, q.rowsCompleted.length = 3) →
      LineLedgerInv s.winners (done ++ (pending ++ tail)) →
      LineLedgerInv (checkAll n s pending).1.winners
        (done ++ ((checkAll n s pending).2 ++ tail)) := by
  induction pending with
  | nil => exact fun s done tail _ h => h
  | cons p rest ih =>
    intro s done tail hlen h
    rw [checkAll]
    dsimp only
    have hstep := lineLedgerInv_step n s p done (rest ++ tail)
      (hlen p (List.mem_cons_self _ _)) h
    have := ih (checkParticipant n s p).1 (done ++ [(checkParticipant n s p).2]) tail
      (fun q hq => hlen q (List.mem_cons_of_mem _ hq))
      (by rw [List.append_assoc]; exact hstep)
    rw [List.append_assoc] at this
    exact this

theorem flagsLength_checkAll (n : Int) (ps : List Participant) (s : Game)
    (h : ∀ p ∈ ps, p.rowsCompleted.length = 3) :
    ∀ p ∈ (checkAll n s ps).2, p.rowsCompleted.length = 3 := by
  induction ps generalizing s with
  | nil => intro p hp; exact absurd hp (List.not_mem_nil _)
  | cons q ps ih =>
    rw [checkAll]
    intro p hp
    rcases List.mem_cons.1 hp with rfl | hp'
    · rw [checkParticipant_flags_length]
      exact h q (List.mem_cons_self _ _)
    · exact ih _ (fun x hx => h x (List.mem_cons_of_mem _ hx)) p hp'

theorem reachable_flagsLength (s : Game) (h : Reachable s) :
    ∀ p ∈ s.participants, p.rowsCompleted.length = 3 := by
  induction h with
  | fresh g pos roster =>
    intro p hp
    unfold newGame at hp
    simp only [List.mem_map] at hp
    obtain ⟨q, -, rfl⟩ := hp
    rfl
  | callNext s _ ih =>
    unfold callNextNumber
    split
    · exact ih
    · exact flagsLength_checkAll _ _ _ ih
  | manual s n _ _ _ ih =>
    unfold manualCallNumber
    split
    · exact ih
    · exact flagsLength_checkAll _ _ _ ih
  | reset g pos s _ _ =>
    intro p hp
    unfold resetGame at hp
    simp only [List.mem_map] at hp
    obtain ⟨q, -, rfl⟩ := hp
    rfl

theorem lineLedgerInv_empty (ps : List Participant) : LineLedgerInv emptyWinners ps := by
  intro r hr e he
  interval_cases r <;> exact absurd he (List.not_mem_nil _)

theorem reachable_lineLedgerInv (s : Game) (h : Reachable s) :
    LineLedgerInv s.winners s.participants := by
  induction h with
  | fresh g pos roster => exact lineLedgerInv_empty _
  | callNext s hs ih =>
    unfold callNextNumber
    split
    · exact ih
    · rename_i number _
      have := lineLedgerInv_checkAll number s.participants
        { s with remainingNumbers := s.remainingNumbers.dropLast
                 currentNumber := some number
                 calledNumbers := s.calledNumbers ++ [number] } [] []
        (reachable_flagsLength s hs) (by simpa using ih)
      simpa using this
  | manual s n hs _ _ ih =>
    unfold manualCallNumber
    split
    · exact ih
    · have := lineLedgerInv_checkAll n s.participants
        { s with remainingNumbers := s.remainingNumbers.erase n
                 currentNumber := some n
                 calledNumbers := s.calledNumbers ++ [n] } [] []
        (reachable_flagsLength s hs) (by simpa using ih)
      simpa using this
  | reset g pos s _ _ => exact lineLedgerInv_empty _

theorem ids_checkAll (n : Int) (ps : List Participant) (s : Game) :
    (checkAll n s ps).2.map (fun p => p.id) = ps.map (fun p => p.id) := by
  induction ps generalizing s with
  | nil => rfl
  | cons p ps ih =>
    rw [checkAll]
    dsimp only
    rw [List.map_cons, List.map_cons, ih, checkParticipant_id]

theorem checkAll_append (n : Int) (before after : List Participant) (s : Game) :
    (checkAll n s (before ++ after)).1 = (checkAll n (checkAll n s before).1 after).1 ∧
      (checkAll n s (before ++ after)).2 =
        (checkAll n s before).2 ++ (checkAll n (checkAll n s before).1 after).2 := by
  induction before generalizing s with
  | nil => exact ⟨rfl, rfl⟩
  | cons p before ih =>
    rw [List.cons_append, checkAll, checkAll]
    dsimp only
    exact ⟨(ih _).1, by rw [(ih _).2, List.cons_append]⟩

/-! ## The announcement queue -/

theorem shiftAndSend_cons (s : Game) (w : WinnerEvent) (rest : List WinnerEvent)
    (h : s.pendingWinners = w :: rest) :
    shiftAndSend s = { s with pendingWinners := rest, displayed := s.displayed ++ [w] } := by
  unfold shiftAndSend
  rw [h]
  rfl

theorem showNextPendingWinner_cons (s : Game) (w : WinnerEvent) (rest : List WinnerEvent)
    (h : s.pendingWinners = w :: rest) :
    showNextPendingWinner s =
      { s with pendingWinners := rest, displayed := s.displayed ++ [w] } := by
  unfold showNextPendingWinner
  rw [if_neg (by rw [h]; simp), shiftAndSend_cons s w rest h]

theorem showNextPendingWinner_nil (s : Game) (h : s.pendingWinners = []) :
    showNextPendingWinner s = s := by
  unfold showNextPendingWinner
  rw [if_pos (by rw [h]; rfl)]

/-- Successive calls of `showNextPendingWinner` send the queue in its order. -/
theorem iterate_showNextPendingWinner (k : Nat) (s : Game) :
    showNextPendingWinner^[k] s =
      { s with pendingWinners := s.pendingWinners.drop k
               displayed := s.displayed ++ s.pendingWinners.take k } := by
  induction k generalizing s with
  | zero => simp
  | succ k ih =>
    rw [Function.iterate_succ_apply]
    cases hq : s.pendingWinners with
    | nil =>
      rw [showNextPendingWinner_nil s hq, ih, hq]
      simp
    | cons w rest =>
      rw [showNextPendingWinner_cons s w rest hq, ih]
      simp

/-- The flush loop, allowed as many passes as the queue is long, sends the whole queue in
its order and leaves it empty. -/
theorem flushLoop_all (k : Nat) (s : Game) (h : s.pendingWinners.length ≤ k) :
    flushLoop k s =
      { s with pendingWinners := [], displayed := s.displayed ++ s.pendingWinners } := by
  induction k generalizing s with
  | zero =>
    have : s.pendingWinners = [] := List.length_eq_zero.1 (by omega)
    rw [flushLoop]
    cases s
    simp_all
  | succ k ih =>
    rw [flushLoop]
    cases hq : s.pendingWinners with
    | nil =>
      rw [if_neg (by simp)]
      cases s
      simp_all
    | cons w rest =>
      rw [if_pos (by simp), shiftAndSend_cons s w rest hq, ih _ (by
        rw [hq] at h
        simpa using h)]
      simp

theorem setAnnouncementMode_auto (s : Game) :
    setAnnouncementMode s true =
      { s with autoAnnounce := true, pendingWinners := []
               displayed := s.displayed ++ s.pendingWinners } := by
  unfold setAnnouncementMode updateAnnouncementModeUI
  rw [if_pos rfl, flushLoop_all _ _ (Nat.le_refl _)]

theorem setAnnouncementMode_manual (s : Game) :
    setAnnouncementMode s false = { s with autoAnnounce := false } := by
  unfold setAnnouncementMode updateAnnouncementModeUI
  rw [if_neg (by simp)]

/-! ## Winner events -/

theorem eventsAppended_refl (s : Game) : EventsAppended s s [] := by
  unfold EventsAppended
  refine ⟨rfl, ?_⟩
  split <;> simp

theorem eventsAppended_trans {s s' s'' : Game} {a b : List WinnerEvent}
    (h1 : EventsAppended s s' a) (h2 : EventsAppended s' s'' b) :
    EventsAppended s s'' (a ++ b) := by
  unfold EventsAppended at *
  obtain ⟨ha, h1⟩ := h1
  obtain ⟨hb, h2⟩ := h2
  rw [ha] at h2
  refine ⟨hb.trans ha, ?_⟩
  split
  · rename_i hauto
    rw [if_pos hauto] at h1 h2
    rw [h2.1, h1.1, h2.2, h1.2, List.append_assoc]
    exact ⟨rfl, rfl⟩
  · rename_i hauto
    rw [if_neg hauto] at h1 h2
    rw [h2.1, h1.1, h2.2, h1.2, List.append_assoc]
    exact ⟨rfl, rfl⟩

theorem eventsAppended_announceWinner (s : Game) (c : Category) (p : Participant) (d : String) :
    EventsAppended s (announceWinner s c p d)
      [{ category := c, name := p.name, displayName := d }] := by
  unfold EventsAppended announceWinner sendWinnerToDisplay
  dsimp only
  cases h : s.autoAnnounce <;> simp

theorem eventsAppended_stopAutoCall (s : Game) : EventsAppended s (stopAutoCall s) [] :=
  eventsAppended_refl s

/-! ## What one participant's turn does to each ledger -/

theorem checkEarlyFive_ledger (s : Game) (p : Participant) :
    (checkEarlyFive s p).winners.get .earlyFive =
      if earlyFiveWinsNow (s.winners.get .earlyFive) p then
        s.winners.get .earlyFive ++ [{ id := p.id, name := p.name }]
      else s.winners.get .earlyFive := by
  unfold checkEarlyFive earlyFiveWinsNow hasWon
  have hl : winnerLimits .earlyFive = 1 := rfl
  rw [hl]
  split
  · rw [winners_announceWinner, Winners.get_push, if_pos rfl]
  · rfl

theorem checkCornerWins_ledger (s : Game) (p : Participant) :
    (checkCornerWins s p).1.winners.get .corners =
      if cornersWinNow (s.winners.get .corners) p then
        s.winners.get .corners ++ [{ id := p.id, name := p.name }]
      else s.winners.get .corners := by
  unfold checkCornerWins cornersWinNow hasWon cornerValues
  have hl : winnerLimits .corners = 2 := rfl
  rw [hl]
  dsimp only
  cases hc : p.cornersWon
  · simp only [Bool.false_eq_true, if_false, Bool.not_false, Bool.true_and]
    split
    · rw [winners_announceWinner, Winners.get_push, if_pos rfl]
    · rfl
  · simp

theorem checkCornerWins_flag (s : Game) (p : Participant) :
    (checkCornerWins s p).2.cornersWon =
      (p.cornersWon || cornersWinNow (s.winners.get .corners) p) := by
  unfold checkCornerWins cornersWinNow hasWon cornerValues
  have hl : winnerLimits .corners = 2 := rfl
  rw [hl]
  dsimp only
  cases hc : p.cornersWon
  · simp only [Bool.false_eq_true, if_false, Bool.not_false, Bool.true_and, Bool.false_or]
    split
    · rename_i h
      rw [h]
    · rename_i h
      rw [Bool.not_eq_true] at h
      rw [h]
      exact hc
  · simp [hc]

theorem checkFullHouse_ledger (s : Game) (p : Participant) :
    (checkFullHouse s p).winners.get .fullHouse =
      if fullHouseWinsNow (s.winners.get .fullHouse) p then
        s.winners.get .fullHouse ++ [{ id := p.id, name := p.name }]
      else s.winners.get .fullHouse := by
  unfold checkFullHouse fullHouseWinsNow hasWon
  have hl : winnerLimits .fullHouse = 3 := rfl
  rw [hl]
  dsimp only
  split
  · split
    · show (announceWinner s .fullHouse p _).winners.get .fullHouse = _
      rw [winners_announceWinner, Winners.get_push, if_pos rfl]
    · rw [winners_announceWinner, Winners.get_push, if_pos rfl]
  · rfl

theorem checkRowWins_ledger_other (s : Game) (p : Participant) (c : Category)
    (h0 : c ≠ .topLine) (h1 : c ≠ .middleLine) (h2 : c ≠ .bottomLine) :
    (checkRowWins s p).1.winners.get c = s.winners.get c := by
  have e : checkRowWins s p = checkRow (checkRow (checkRow (s, p) 0) 1) 2 := rfl
  rw [e, checkRow_ledger_other _ 2 c h2, checkRow_ledger_other _ 1 c h1,
    checkRow_ledger_other _ 0 c h0]

theorem checkRow_cornersWon (sp : Game × Participant) (row : Nat) :
    (checkRow sp row).2.cornersWon = sp.2.cornersWon := by
  unfold checkRow
  dsimp only
  split
  · rfl
  · split
    · split <;> rfl
    · rfl

theorem checkRowWins_cornersWon (s : Game) (p : Participant) :
    (checkRowWins s p).2.cornersWon = p.cornersWon := by
  have e : checkRowWins s p = checkRow (checkRow (checkRow (s, p) 0) 1) 2 := rfl
  rw [e, checkRow_cornersWon, checkRow_cornersWon, checkRow_cornersWon]

theorem cornersWinNow_congr (ledger : List LedgerEntry) (p q : Participant)
    (hcore : coreView q = coreView p) (hflag : q.cornersWon = p.cornersWon) :
    cornersWinNow ledger q = cornersWinNow ledger p := by
  unfold coreView at hcore
  simp only [Prod.mk.injEq] at hcore
  obtain ⟨h1, -, h3, h4⟩ := hcore
  unfold cornersWinNow
  rw [hflag, h1, h3, h4]

theorem fullHouseWinsNow_congr (ledger : List LedgerEntry) (p q : Participant)
    (hcore : coreView q = coreView p) :
    fullHouseWinsNow ledger q = fullHouseWinsNow ledger p := by
  unfold coreView at hcore
  simp only [Prod.mk.injEq] at hcore
  obtain ⟨h1, -, -, h4⟩ := hcore
  unfold fullHouseWinsNow
  rw [h1, h4]

theorem coreView_fields {p q : Participant} (h : coreView q = coreView p) :
    q.id = p.id ∧ q.name = p.name ∧ q.ticket = p.ticket ∧
      q.markedNumbers = p.markedNumbers := by
  unfold coreView at h
  simp only [Prod.mk.injEq] at h
  exact h

/-- What a draw does, at the turn of participant `p`, to the earlyFive ledger. -/
theorem checkParticipant_earlyFive (n : Int) (s : Game) (p : Participant) :
    (checkParticipant n s p).1.winners.get .earlyFive =
      if onTicket p.ticket n &&
          earlyFiveWinsNow (s.winners.get .earlyFive)
            { p with markedNumbers := p.markedNumbers ++ [n] } then
        s.winners.get .earlyFive ++ [{ id := p.id, name := p.name }]
      else s.winners.get .earlyFive := by
  unfold checkParticipant
  dsimp only
  by_cases hon : onTicket p.ticket n = true
  · rw [if_pos hon, checkFullHouse_ledger_other _ _ _ (by decide),
      checkCornerWins_ledger_other _ _ _ (by decide),
      checkRowWins_ledger_other _ _ _ (by decide) (by decide) (by decide),
      checkEarlyFive_ledger]
    simp [hon]
  · rw [if_neg hon]
    simp [hon]

/-- What a draw does, at the turn of participant `p`, to the corners ledger. -/
theorem checkParticipant_corners (n : Int) (s : Game) (p : Participant) :
    (checkParticipant n s p).1.winners.get .corners =
      if onTicket p.ticket n &&
          cornersWinNow (s.winners.get .corners)
            { p with markedNumbers := p.markedNumbers ++ [n] } then
        s.winners.get .corners ++ [{ id := p.id, name := p.name }]
      else s.winners.get .corners := by
  unfold checkParticipant
  dsimp only
  by_cases hon : onTicket p.ticket n = true
  · rw [if_pos hon, checkFullHouse_ledger_other _ _ _ (by decide), checkCornerWins_ledger,
      checkRowWins_ledger_other _ _ _ (by decide) (by decide) (by decide),
      checkEarlyFive_ledger_other _ _ _ (by decide),
      cornersWinNow_congr _ _ _ (coreView_checkRowWins _ _) (checkRowWins_cornersWon _ _),
      (coreView_fields (coreView_checkRowWins _ _)).1,
      (coreView_fields (coreView_checkRowWins _ _)).2.1]
    simp [hon]
  · rw [if_neg hon]
    simp [hon]

theorem checkParticipant_cornersWon (n : Int) (s : Game) (p : Participant) :
    (checkParticipant n s p).2.cornersWon =
      (p.cornersWon || (onTicket p.ticket n &&
        cornersWinNow (s.winners.get .corners)
          { p with markedNumbers := p.markedNumbers ++ [n] })) := by
  unfold checkParticipant
  dsimp only
  by_cases hon : onTicket p.ticket n = true
  · rw [if_pos hon, checkCornerWins_flag,
      checkRowWins_ledger_other _ _ _ (by decide) (by decide) (by decide),
      checkEarlyFive_ledger_other _ _ _ (by decide),
      cornersWinNow_congr _ _ _ (coreView_checkRowWins _ _) (checkRowWins_cornersWon _ _),
      checkRowWins_cornersWon, hon, Bool.true_and]
  · rw [if_neg hon]
    simp [hon]

/-- What a draw does, at the turn of participant `p`, to the fullHouse ledger. -/
theorem checkParticipant_fullHouse (n : Int) (s : Game) (p : Participant) :
    (checkParticipant n s p).1.winners.get .fullHouse =
      if onTicket p.ticket n &&
          fullHouseWinsNow (s.winners.get .fullHouse)
            { p with markedNumbers := p.markedNumbers ++ [n] } then
        s.winners.get .fullHouse ++ [{ id := p.id, name := p.name }]
      else s.winners.get .fullHouse := by
  unfold checkParticipant
  dsimp only
  by_cases hon : onTicket p.ticket n = true
  · have hcore := (coreView_checkCornerWins
      (checkRowWins (checkEarlyFive s { p with markedNumbers := p.markedNumbers ++ [n] })
        { p with markedNumbers := p.markedNumbers ++ [n] }).1
      (checkRowWins (checkEarlyFive s { p with markedNumbers := p.markedNumbers ++ [n] })
        { p with markedNumbers := p.markedNumbers ++ [n] }).2).trans
      (coreView_checkRowWins _ _)
    rw [if_pos hon, checkFullHouse_ledger, checkCornerWins_ledger_other _ _ _ (by decide),
      checkRowWins_ledger_other _ _ _ (by decide) (by decide) (by decide),
      checkEarlyFive_ledger_other _ _ _ (by decide),
      fullHouseWinsNow_congr _ _ _ hcore, (coreView_fields hcore).1,
      (coreView_fields hcore).2.1]
    simp [hon]
  · rw [if_neg hon]
    simp [hon]

/-! ## The events of a draw -/

theorem atMostOneEvent_congr {c : Category} {p q : Participant} {evs : List WinnerEvent}
    (hname : q.name = p.name) (h : AtMostOneEvent c q evs) : AtMostOneEvent c p evs := by
  unfold AtMostOneEvent at *
  rw [hname] at h
  exact h

theorem events_checkEarlyFive (s : Game) (p : Participant) :
    ∃ evs, EventsAppended s (checkEarlyFive s p) evs ∧ AtMostOneEvent .earlyFive p evs := by
  unfold checkEarlyFive
  split
  · exact ⟨_, eventsAppended_announceWinner s _ p _, Or.inr ⟨_, rfl⟩⟩
  · exact ⟨[], eventsAppended_refl s, Or.inl rfl⟩

theorem events_checkRow (sp : Game × Participant) (row : Nat) :
    ∃ evs, EventsAppended sp.1 (checkRow sp row).1 evs ∧
      AtMostOneEvent (lineCategory row) sp.2 evs := by
  unfold checkRow
  dsimp only
  split
  · exact ⟨[], eventsAppended_refl _, Or.inl rfl⟩
  · split
    · split
      · exact ⟨_, eventsAppended_announceWinner sp.1 _ _ _, Or.inr ⟨_, rfl⟩⟩
      · exact ⟨[], eventsAppended_refl _, Or.inl rfl⟩
    · exact ⟨[], eventsAppended_refl _, Or.inl rfl⟩

theorem events_checkCornerWins (s : Game) (p : Participant) :
    ∃ evs, EventsAppended s (checkCornerWins s p).1 evs ∧ AtMostOneEvent .corners p evs := by
  unfold checkCornerWins
  dsimp only
  split
  · exact ⟨[], eventsAppended_refl _, Or.inl rfl⟩
  · split
    · exact ⟨_, eventsAppended_announceWinner s _ _ _, Or.inr ⟨_, rfl⟩⟩
    · exact ⟨[], eventsAppended_refl _, Or.inl rfl⟩

theorem events_checkFullHouse (s : Game) (p : Participant) :
    ∃ evs, EventsAppended s (checkFullHouse s p) evs ∧ AtMostOneEvent .fullHouse p evs := by
  unfold checkFullHouse
  dsimp only
  split
  · split
    · exact ⟨_, eventsAppended_announceWinner s .fullHouse p _, Or.inr ⟨_, rfl⟩⟩
    · exact ⟨_, eventsAppended_announceWinner s .fullHouse p _, Or.inr ⟨_, rfl⟩⟩
  · exact ⟨[], eventsAppended_refl _, Or.inl rfl⟩

/-- At most one event per category, taken in the order of the six tests, is a list in
strictly increasing category order. -/
theorem ownEventsInOrder_of_six (p : Participant) (a b c d e f : List WinnerEvent)
    (ha : AtMostOneEvent .earlyFive p a) (hb : AtMostOneEvent .topLine p b)
    (hc : AtMostOneEvent .middleLine p c) (hd : AtMostOneEvent .bottomLine p d)
    (he : AtMostOneEvent .corners p e) (hf : AtMostOneEvent .fullHouse p f) :
    OwnEventsInOrder p (a ++ (b ++ (c ++ (d ++ (e ++ f))))) := by
  unfold OwnEventsInOrder
  rcases ha with rfl | ⟨_, rfl⟩ <;> rcases hb with rfl | ⟨_, rfl⟩ <;>
    rcases hc with rfl | ⟨_, rfl⟩ <;> rcases hd with rfl | ⟨_, rfl⟩ <;>
    rcases he with rfl | ⟨_, rfl⟩ <;> rcases hf with rfl | ⟨_, rfl⟩ <;>
    simp [Category.rank, List.Sorted]

theorem events_checkParticipant (n : Int) (s : Game) (p : Participant) :
    ∃ evs, EventsAppended s (checkParticipant n s p).1 evs ∧ OwnEventsInOrder p evs := by
  unfold checkParticipant
  dsimp only
  split
  · have e : ∀ s' p', checkRowWins s' p' = checkRow (checkRow (checkRow (s', p') 0) 1) 2 :=
      fun _ _ => rfl
    obtain ⟨a, ha1, ha2⟩ := events_checkEarlyFive s
      { p with markedNumbers := p.markedNumbers ++ [n] }
    rw [e]
    generalize checkEarlyFive s { p with markedNumbers := p.markedNumbers ++ [n] } = s1
      at ha1 ⊢
    obtain ⟨b, hb1, hb2⟩ := events_checkRow (s1, { p with markedNumbers := p.markedNumbers ++ [n] }) 0
    have n0 := (coreView_fields (coreView_checkRow
      (s1, { p with markedNumbers := p.markedNumbers ++ [n] }) 0)).2.1
    generalize checkRow (s1, { p with markedNumbers := p.markedNumbers ++ [n] }) 0 = sp0
      at hb1 n0 ⊢
    obtain ⟨c, hc1, hc2⟩ := events_checkRow sp0 1
    have n1 := (coreView_fields (coreView_checkRow sp0 1)).2.1
    generalize checkRow sp0 1 = sp1 at hc1 n1 ⊢
    obtain ⟨d, hd1, hd2⟩ := events_checkRow sp1 2
    have n2 := (coreView_fields (coreView_checkRow sp1 2)).2.1
    generalize checkRow sp1 2 = sp2 at hd1 n2 ⊢
    obtain ⟨e', he1, he2⟩ := events_checkCornerWins sp2.1 sp2.2
    have n3 := (coreView_fields (coreView_checkCornerWins sp2.1 sp2.2)).2.1
    generalize checkCornerWins sp2.1 sp2.2 = sp3 at he1 n3 ⊢
    obtain ⟨f, hf1, hf2⟩ := events_checkFullHouse sp3.1 sp3.2
    refine ⟨a ++ (b ++ (c ++ (d ++ (e' ++ f)))),
      eventsAppended_trans ha1 (eventsAppended_trans hb1 (eventsAppended_trans hc1
        (eventsAppended_trans hd1 (eventsAppended_trans he1 hf1)))), ?_⟩
    have m0 : sp0.2.name = p.name := n0
    have m1 : sp1.2.name = p.name := n1.trans m0
    have m2 : sp2.2.name = p.name := n2.trans m1
    have m3 : sp3.2.name = p.name := n3.trans m2
    exact ownEventsInOrder_of_six p a b c d e' f
      (atMostOneEvent_congr (p := p) rfl ha2)
      (atMostOneEvent_congr (p := p) rfl hb2)
      (atMostOneEvent_congr m0 hc2) (atMostOneEvent_congr m1 hd2)
      (atMostOneEvent_congr m2 he2) (atMostOneEvent_congr m3 hf2)
  · exact ⟨[], eventsAppended_refl s, by unfold OwnEventsInOrder; simp [List.Sorted]⟩

/-- A draw announces, participant after participant in roster order, the events of each
participant in category order. -/
theorem events_checkAll (n : Int) (ps : List Participant) (s : Game) :
    ∃ evss : List (List WinnerEvent), List.Forall₂ OwnEventsInOrder ps evss ∧
      EventsAppended s (checkAll n s ps).1 evss.flatten := by
  induction ps generalizing s with
  | nil => exact ⟨[], List.Forall₂.nil, eventsAppended_refl s⟩
  | cons p ps ih =>
    obtain ⟨evs, h1, h2⟩ := events_checkParticipant n s p
    obtain ⟨evss, h3, h4⟩ := ih (checkParticipant n s p).1
    rw [checkAll]
    exact ⟨evs :: evss, List.Forall₂.cons h2 h3, eventsAppended_trans h1 h4⟩

theorem events_checkWinners (s : Game) (n : Int) :
    ∃ evss : List (List WinnerEvent), List.Forall₂ OwnEventsInOrder s.participants evss ∧
      EventsAppended s (checkWinners s n) evss.flatten :=
  events_checkAll n s.participants s

/-! ## The auto-call timer -/

theorem interval_announceWinner (s : Game) (c : Category) (p : Participant) (d : String) :
    (announceWinner s c p d).autoCallInterval = s.autoCallInterval := by
  unfold announceWinner sendWinnerToDisplay
  dsimp only
  split <;> rfl

theorem interval_checkEarlyFive (s : Game) (p : Participant) :
    (checkEarlyFive s p).autoCallInterval = s.autoCallInterval := by
  unfold checkEarlyFive
  split
  · exact interval_announceWinner _ _ _ _
  · rfl

theorem interval_checkRow (sp : Game × Participant) (row : Nat) :
    (checkRow sp row).1.autoCallInterval = sp.1.autoCallInterval := by
  unfold checkRow
  dsimp only
  split
  · rfl
  · split
    · split
      · exact interval_announceWinner _ _ _ _
      · rfl
    · rfl

theorem interval_checkRowWins (s : Game) (p : Participant) :
    (checkRowWins s p).1.autoCallInterval = s.autoCallInterval := by
  have e : checkRowWins s p = checkRow (checkRow (checkRow (s, p) 0) 1) 2 := rfl
  rw [e, interval_checkRow, interval_checkRow, interval_checkRow]

theorem interval_checkCornerWins (s : Game) (p : Participant) :
    (checkCornerWins s p).1.autoCallInterval = s.autoCallInterval := by
  unfold checkCornerWins
  dsimp only
  split
  · rfl
  · split
    · exact interval_announceWinner _ _ _ _
    · rfl

/-- Once the fullHouse ledger holds 3 entries or more, the timer is off: kept by the Full
House test. -/
theorem timerOff_checkFullHouse (s : Game) (p : Participant)
    (h : 3 ≤ (s.winners.get .fullHouse).length → s.autoCallInterval = none) :
    3 ≤ ((checkFullHouse s p).winners.get .fullHouse).length →
      (checkFullHouse s p).autoCallInterval = none := by
  unfold checkFullHouse
  dsimp only
  split
  · split
    · intro _
      rfl
    · rename_i hlt
      intro h3
      have hl : winnerLimits .fullHouse = 3 := rfl
      rw [hl] at hlt
      exact absurd h3 hlt
  · exact h

theorem timerOff_checkParticipant (n : Int) (s : Game) (p : Participant)
    (h : 3 ≤ (s.winners.get .fullHouse).length → s.autoCallInterval = none) :
    3 ≤ ((checkParticipant n s p).1.winners.get .fullHouse).length →
      (checkParticipant n s p).1.autoCallInterval = none := by
  unfold checkParticipant
  dsimp only
  split
  · apply timerOff_checkFullHouse
    rw [interval_checkCornerWins, interval_checkRowWins, interval_checkEarlyFive,
      checkCornerWins_ledger_other _ _ _ (by decide),
      checkRowWins_ledger_other _ _ _ (by decide) (by decide) (by decide),
      checkEarlyFive_ledger_other _ _ _ (by decide)]
    exact h
  · exact h

theorem timerOff_checkAll (n : Int) (ps : List Participant) (s : Game)
    (h : 3 ≤ (s.winners.get .fullHouse).length → s.autoCallInterval = none) :
    3 ≤ ((checkAll n s ps).1.winners.get .fullHouse).length →
      (checkAll n s ps).1.autoCallInterval = none := by
  induction ps generalizing s with
  | nil => exact h
  | cons p ps ih =>
    rw [checkAll]
    exact ih _ (timerOff_checkParticipant n s p h)

/-! ## The corners of a ticket -/

theorem findSome_range_eq_some {α : Type} (f : Nat → Option α) (n : Nat) (v : α) :
    (List.range n).findSome? f = some v ↔
      ∃ c, c < n ∧ f c = some v ∧ ∀ c', c' < c → f c' = none := by
  induction n generalizing v with
  | zero => simp
  | succ n ih =>
    rw [List.range_succ, List.findSome?_append]
    cases hfs : (List.range n).findSome? f with
    | none =>
      have hnone : ∀ c, c < n → f c = none := by
        intro c hc
        exact List.findSome?_eq_none_iff.1 hfs c (List.mem_range.2 hc)
      rw [Option.none_or]
      simp only [List.findSome?_cons, List.findSome?_nil]
      constructor
      · intro h
        refine ⟨n, Nat.lt_succ_self n, ?_, hnone⟩
        cases hfn : f n with
        | none => rw [hfn] at h; exact absurd h (by simp)
        | some w => rw [hfn] at h; exact h
      · rintro ⟨c, hc, hv, -⟩
        have hcn : c = n := by
          by_contra hne
          have := hnone c (by omega)
          rw [this] at hv
          exact absurd hv (by simp)
        subst hcn
        rw [hv]
    | some w =>
      have hor : (some w).or (List.findSome? f [n]) = some w := rfl
      rw [hor]
      obtain ⟨c₀, hc₀, hw, hbefore⟩ := (ih w).1 hfs
      constructor
      · intro h
        injection h with h
        subst h
        exact ⟨c₀, by omega, hw, hbefore⟩
      · rintro ⟨c, hc, hv, hb⟩
        rcases Nat.lt_trichotomy c c₀ with h1 | h1 | h1
        · rw [hbefore c h1] at hv
          exact absurd hv (by simp)
        · subst h1
          rw [hw] at hv
          exact hv
        · rw [hb c₀ h1] at hw
          exact absurd hw (by simp)

theorem findSome_reverse_range_eq_some {α : Type} (f : Nat → Option α) (n : Nat) (v : α) :
    (List.range n).reverse.findSome? f = some v ↔
      ∃ c, c < n ∧ f c = some v ∧ ∀ c', c < c' → c' < n → f c' = none := by
  induction n with
  | zero => simp
  | succ n ih =>
    rw [List.range_succ, List.reverse_append, List.reverse_singleton, List.singleton_append,
      List.findSome?_cons]
    cases hfn : f n with
    | some w =>
      dsimp only
      constructor
      · intro h
        injection h with h
        subst h
        exact ⟨n, Nat.lt_succ_self n, hfn, fun c' h1 h2 => absurd h2 (by omega)⟩
      · rintro ⟨c, hc, hv, hb⟩
        have hcn : c = n := by
          by_contra hne
          have := hb n (by omega) (Nat.lt_succ_self n)
          rw [hfn] at this
          exact absurd this (by simp)
        subst hcn
        rw [hfn] at hv
        exact hv
    | none =>
      dsimp only
      rw [ih]
      constructor
      · rintro ⟨c, hc, hv, hb⟩
        refine ⟨c, by omega, hv, ?_⟩
        intro c' h1 h2
        by_cases hcn : c' = n
        · rw [hcn]; exact hfn
        · exact hb c' h1 (by omega)
      · rintro ⟨c, hc, hv, hb⟩
        have hcn : c ≠ n := by
          intro h
          rw [h, hfn] at hv
          exact absurd hv (by simp)
        exact ⟨c, by omega, hv, fun c' h1 h2 => hb c' h1 (by omega)⟩

/-- The value of `getFirstNumberInRow` is the leftmost non-null cell of the row. -/
theorem getFirstNumberInRow_eq_some (t : Ticket) (row : Nat) (v : Int) :
    getFirstNumberInRow t row = some v ↔
      ∃ c, c < 9 ∧ cell t row c = some v ∧ ∀ c', c' < c → cell t row c' = none :=
  findSome_range_eq_some (fun col => cell t row col) 9 v

/-- The value of `getLastNumberInRow` is the rightmost non-null cell of the row. -/
theorem getLastNumberInRow_eq_some (t : Ticket) (row : Nat) (v : Int) :
    getLastNumberInRow t row = some v ↔
      ∃ c, c < 9 ∧ cell t row c = some v ∧ ∀ c', c < c' → c' < 9 → cell t row c' = none :=
  findSome_reverse_range_eq_some (fun col => cell t row col) 9 v

/-! ## The corners flag and the corners ledger -/

theorem corners_ledger_mono (n : Int) (s : Game) (p : Participant) (e : LedgerEntry)
    (he : e ∈ s.winners.get .corners) : e ∈ (checkParticipant n s p).1.winners.get .corners := by
  rw [checkParticipant_corners]
  split
  · exact List.mem_append_left _ he
  · exact he

theorem cornerFlagInv_step (n : Int) (s : Game) (p : Participant)
    (done rest : List Participant) (h : CornerFlagInv s.winners (done ++ p :: rest)) :
    CornerFlagInv (checkParticipant n s p).1.winners
      (done ++ (checkParticipant n s p).2 :: rest) := by
  intro q hq hflag
  have hold : ∀ q', q' ∈ done ++ p :: rest → q'.cornersWon = true →
      ∃ e ∈ (checkParticipant n s p).1.winners.get .corners, e.id = q'.id := by
    intro q' hq' hf
    obtain ⟨e, he, hid⟩ := h q' hq' hf
    exact ⟨e, corners_ledger_mono n s p e he, hid⟩
  rcases List.mem_append.1 hq with h1 | h2
  · exact hold q (List.mem_append_left _ h1) hflag
  · rcases List.mem_cons.1 h2 with rfl | h3
    · rw [checkParticipant_cornersWon] at hflag
      rw [checkParticipant_id]
      rcases Bool.or_eq_true_iff.1 hflag with hc | hx
      · exact hold p (List.mem_append_right _ (List.mem_cons_self _ _)) hc
      · rw [checkParticipant_corners, if_pos hx]
        exact ⟨_, List.mem_append_right _ (List.mem_singleton_self _), rfl⟩
    · exact hold q (List.mem_append_right _ (List.mem_cons_of_mem _ h3)) hflag

theorem cornerFlagInv_checkAll (n : Int) (pending : List Participant) :
    ∀ (s : Game) (done tail : List Participant),
      CornerFlagInv s.winners (done ++ (pending ++ tail)) →
      CornerFlagInv (checkAll n s pending).1.winners
        (done ++ ((checkAll n s pending).2 ++ tail)) := by
  induction pending with
  | nil => exact fun s done tail h => h
  | cons p rest ih =>
    intro s done tail h
    rw [checkAll]
    dsimp only
    have hstep := cornerFlagInv_step n s p done (rest ++ tail) h
    have := ih (checkParticipant n s p).1 (done ++ [(checkParticipant n s p).2]) tail
      (by rw [List.append_assoc]; exact hstep)
    rw [List.append_assoc] at this
    exact this

theorem reachable_cornerFlagInv (s : Game) (h : Reachable s) :
    CornerFlagInv s.winners s.participants := by
  induction h with
  | fresh g pos roster =>
    intro q hq hflag
    unfold newGame at hq
    simp only [List.mem_map] at hq
    obtain ⟨x, -, rfl⟩ := hq
    exact absurd hflag (by simp)
  | callNext s hs ih =>
    unfold callNextNumber
    split
    · exact ih
    · rename_i number _
      have := cornerFlagInv_checkAll number s.participants
        { s with remainingNumbers := s.remainingNumbers.dropLast
                 currentNumber := some number
                 calledNumbers := s.calledNumbers ++ [number] } [] []
        (by simpa using ih)
      simpa using this
  | manual s n hs _ _ ih =>
    unfold manualCallNumber
    split
    · exact ih
    · have := cornerFlagInv_checkAll n s.participants
        { s with remainingNumbers := s.remainingNumbers.erase n
                 currentNumber := some n
                 calledNumbers := s.calledNumbers ++ [n] } [] []
        (by simpa using ih)
      simpa using this
  | reset g pos s _ _ =>
    intro q hq hflag
    unfold resetGame at hq
    simp only [List.mem_map] at hq
    obtain ⟨x, -, rfl⟩ := hq
    exact absurd hflag (by simp)

/-! ## Full house -/

theorem mem_ticketNumbers (t : Ticket) (m : Int) : m ∈ ticketNumbers t ↔ OnTicket t m := by
  unfold ticketNumbers OnTicket
  simp only [List.mem_flatMap, List.mem_filterMap, List.mem_range]
  constructor
  · rintro ⟨r, hr, c, hc, h⟩
    exact ⟨r, c, hr, hc, h⟩
  · rintro ⟨r, c, hr, hc, h⟩
    exact ⟨r, hr, c, hc, h⟩

/-- Distinct marks that are all on a ticket of 15 distinct numbers number at least 15
exactly when every number of the ticket is marked; they then number exactly 15. -/
theorem marks_full_iff (t : Ticket) (marked : List Int)
    (hticket : (ticketNumbers t).Nodup ∧ (ticketNumbers t).length = 15)
    (hnd : marked.Nodup) (hon : ∀ m ∈ marked, OnTicket t m) :
    (15 ≤ marked.length ↔ ∀ m, OnTicket t m → m ∈ marked) ∧
      (15 ≤ marked.length → marked.length = 15) := by
  have hsub : marked.Subperm (ticketNumbers t) :=
    List.subperm_of_subset hnd (fun m hm => (mem_ticketNumbers t m).2 (hon m hm))
  have hle : marked.length ≤ 15 := by
    rw [← hticket.2]
    exact hsub.length_le
  refine ⟨⟨?_, ?_⟩, fun h => by omega⟩
  · intro h15 m hm
    have hperm := hsub.perm_of_length_le (by rw [hticket.2]; exact h15)
    exact hperm.mem_iff.2 ((mem_ticketNumbers t m).2 hm)
  · intro hall
    have hsub2 : (ticketNumbers t).Subperm marked :=
      List.subperm_of_subset hticket.1 (fun m hm => hall m ((mem_ticketNumbers t m).1 hm))
    rw [← hticket.2]
    exact hsub2.length_le

theorem marks_length_mono (n : Int) (s : Game) (p : Participant) :
    p.markedNumbers.length ≤ (checkParticipant n s p).2.markedNumbers.length := by
  obtain ⟨-, -, -, hyes, hno⟩ := drawMarks_checkParticipant n s p
  by_cases hon : OnTicket p.ticket n
  · rw [hyes hon, List.length_append]
    omega
  · rw [hno hon]

theorem fullHouseInv_step (n : Int) (s : Game) (p : Participant)
    (done rest : List Participant) (h : FullHouseInv s.winners (done ++ p :: rest)) :
    FullHouseInv (checkParticipant n s p).1.winners
      (done ++ (checkParticipant n s p).2 :: rest) := by
  intro e he
  have hold : e ∈ s.winners.get .fullHouse →
      ∃ q ∈ done ++ (checkParticipant n s p).2 :: rest,
        q.id = e.id ∧ 15 ≤ q.markedNumbers.length := by
    intro hmem
    obtain ⟨q, hq, hid, hf⟩ := h e hmem
    rcases List.mem_append.1 hq with hq1 | hq2
    · exact ⟨q, List.mem_append_left _ hq1, hid, hf⟩
    · rcases List.mem_cons.1 hq2 with rfl | hq3
      · exact ⟨_, List.mem_append_right _ (List.mem_cons_self _ _),
          by rw [checkParticipant_id]; exact hid,
          Nat.le_trans hf (marks_length_mono n s q)⟩
      · exact ⟨q, List.mem_append_right _ (List.mem_cons_of_mem _ hq3), hid, hf⟩
  rw [checkParticipant_fullHouse] at he
  split at he
  · rename_i hwin
    rcases List.mem_append.1 he with h1 | h1
    · exact hold h1
    · rw [List.mem_singleton] at h1
      subst h1
      refine ⟨_, List.mem_append_right _ (List.mem_cons_self _ _), checkParticipant_id n s p, ?_⟩
      rw [Bool.and_eq_true] at hwin
      obtain ⟨hon, hw⟩ := hwin
      unfold fullHouseWinsNow at hw
      simp only [Bool.and_eq_true, decide_eq_true_eq] at hw
      have hm := (drawMarks_checkParticipant n s p).2.2.2.1 ((onTicket_iff _ _).1 hon)
      rw [hm]
      exact hw.1.2
  · exact hold he

theorem fullHouseInv_checkAll (n : Int) (pending : List Participant) :
    ∀ (s : Game) (done tail : List Participant),
      FullHouseInv s.winners (done ++ (pending ++ tail)) →
      FullHouseInv (checkAll n s pending).1.winners
        (done ++ ((checkAll n s pending).2 ++ tail)) := by
  induction pending with
  | nil => exact fun s done tail h => h
  | cons p rest ih =>
    intro s done tail h
    rw [checkAll]
    dsimp only
    have hstep := fullHouseInv_step n s p done (rest ++ tail) h
    have := ih (checkParticipant n s p).1 (done ++ [(checkParticipant n s p).2]) tail
      (by rw [List.append_assoc]; exact hstep)
    rw [List.append_assoc] at this
    exact this

theorem fullHouseInv_empty (ps : List Participant) : FullHouseInv emptyWinners ps := by
  intro e he
  exact absurd he (List.not_mem_nil _)

theorem reachable_fullHouseInv (s : Game) (h : Reachable s) :
    FullHouseInv s.winners s.participants := by
  induction h with
  | fresh g pos roster => exact fullHouseInv_empty _
  | callNext s hs ih =>
    unfold callNextNumber
    split
    · exact ih
    · rename_i number _
      have := fullHouseInv_checkAll number s.participants
        { s with remainingNumbers := s.remainingNumbers.dropLast
                 currentNumber := some number
                 calledNumbers := s.calledNumbers ++ [number] } [] []
        (by simpa using ih)
      simpa using this
  | manual s n hs _ _ ih =>
    unfold manualCallNumber
    split
    · exact ih
    · have := fullHouseInv_checkAll n s.participants
        { s with remainingNumbers := s.remainingNumbers.erase n
                 currentNumber := some n
                 calledNumbers := s.calledNumbers ++ [n] } [] []
        (by simpa using ih)
      simpa using this
  | reset g pos s _ _ => exact fullHouseInv_empty _


/-! ## Ids -/

theorem any_id_eq_false_iff (ledger : List LedgerEntry) (i : Nat) :
    (!ledger.any (fun w => w.id == i)) = true ↔ ∀ e ∈ ledger, e.id ≠ i := by
  rw [Bool.not_eq_true', ← Bool.not_eq_true, List.any_eq_true]
  constructor
  · intro h e he heq
    exact h ⟨e, he, by simpa using heq⟩
  · rintro h ⟨e, he, heq⟩
    exact h e he (by simpa using heq)

/-- With distinct ids, the only participant of the roster under way that carries the id
of `p` is `p`. -/
theorem same_id_is_self (n : Int) (s₁ : Game) (before after : List Participant)
    (p q : Participant) (hnodup : ((before ++ p :: after).map (fun x => x.id)).Nodup)
    (hq : q ∈ (checkAll n s₁ before).2 ++ p :: after) (hid : q.id = p.id) : q = p := by
  rw [List.map_append, List.map_cons] at hnodup
  have hmid := List.nodup_middle.1 hnodup
  rw [List.nodup_cons, List.mem_append] at hmid
  rcases List.mem_append.1 hq with h1 | h2
  · exfalso
    apply hmid.1
    left
    rw [← ids_checkAll n before s₁]
    exact List.mem_map.2 ⟨q, h1, hid⟩
  · rcases List.mem_cons.1 h2 with h3 | h3
    · exact h3
    · exfalso
      apply hmid.1
      right
      exact List.mem_map.2 ⟨q, h3, hid⟩

theorem allCorners_iff (t : Ticket) (marked : List Int) :
    (cornerValues t).all (fun n =>
        match n with
        | none => false
        | some v => marked.contains v) = true ↔
      ∀ corner ∈ cornerValues t, ∃ v, corner = some v ∧ v ∈ marked := by
  rw [List.all_eq_true]
  constructor
  · intro h corner hc
    have := h corner hc
    cases corner with
    | none => exact absurd this (by simp)
    | some v => exact ⟨v, rfl, by simpa using this⟩
  · intro h corner hc
    obtain ⟨v, rfl, hv⟩ := h corner hc
    simpa using hv

/-! ## Row balancing: one move -/

theorem exists_of_filter_length_lt (p q : Nat → Bool) (l : List Nat)
    (h : (l.filter q).length < (l.filter p).length) : ∃ c ∈ l, p c = true ∧ q c = false := by
  induction l with
  | nil => simp at h
  | cons a l ih =>
    by_cases hp : p a = true
    · by_cases hq : q a = true
      · rw [List.filter_cons_of_pos hp, List.filter_cons_of_pos hq] at h
        simp only [List.length_cons] at h
        obtain ⟨c, hc, h1, h2⟩ := ih (by omega)
        exact ⟨c, List.mem_cons_of_mem _ hc, h1, h2⟩
      · exact ⟨a, List.mem_cons_self _ _, hp, by simpa using hq⟩
    · rw [List.filter_cons_of_neg hp] at h
      have hle : (l.filter q).length ≤ ((a :: l).filter q).length := by
        rw [List.filter_cons]
        split <;> simp
      obtain ⟨c, hc, h1, h2⟩ := ih (by omega)
      exact ⟨c, List.mem_cons_of_mem _ hc, h1, h2⟩

/-- The first index of a three-element array whose entry passes a test that some entry
passes. -/
theorem indicesWhere_first (p : Nat → Bool) (a0 a1 a2 : Nat)
    (h : p a0 = true ∨ p a1 = true ∨ p a2 = true) :
    (indicesWhere p [a0, a1, a2]).length ≠ 0 ∧
      (indicesWhere p [a0, a1, a2]).getD 0 0 < 3 ∧
      p ([a0, a1, a2].getD ((indicesWhere p [a0, a1, a2]).getD 0 0) 0) = true := by
  have e : indicesWhere p [a0, a1, a2] =
      [0, 1, 2].filter (fun idx => p ([a0, a1, a2].getD idx 0)) := rfl
  rw [e]
  cases h0 : p a0 <;> cases h1 : p a1 <;> cases h2 : p a2 <;>
    simp [List.filter_cons, h0, h1, h2] at h ⊢

/-- The range of a column always has a number that the column does not hold. -/
theorem available_nonempty (t : Ticket) (h : Shape t) (col : Nat) (hc : col < 9) :
    0 < ((rangeIncl (columnRanges.getD col (0, 0)).1 (columnRanges.getD col (0, 0)).2).filter
      (fun n => !(columnNumbersOf t col).contains n)).length := by
  have he : (columnNumbersOf t col).length ≤ 3 := by
    rw [(column_cells t h col).1]
    exact List.length_filterMap_le _ _
  have hl : 9 ≤ (rangeIncl (columnRanges.getD col (0, 0)).1
      (columnRanges.getD col (0, 0)).2).length := by
    rw [length_rangeIncl]
    interval_cases col <;> simp [columnRanges]
  have hnd := nodup_rangeIncl (columnRanges.getD col (0, 0)).1 (columnRanges.getD col (0, 0)).2
  generalize rangeIncl (columnRanges.getD col (0, 0)).1 (columnRanges.getD col (0, 0)).2 = l
    at hl hnd ⊢
  have hsplit := List.length_eq_length_filter_add (l := l)
    (fun n => (columnNumbersOf t col).contains n)
  have hsub : (l.filter (fun n => (columnNumbersOf t col).contains n)).length ≤
      (columnNumbersOf t col).length := by
    apply List.Subperm.length_le
    apply List.subperm_of_subset (hnd.filter _)
    intro x hx
    have := (List.mem_filter.1 hx).2
    simpa using this
  omega

theorem moveInColumn_isSome (g : Rng) (t : Ticket) (h : Shape t) (fromRow toRow col pos : Nat)
    (hc : col < 9) (hf : (cell t fromRow col).isSome = true)
    (hu : (cell t toRow col).isNone = true) :
    ∃ r, moveInColumn g t fromRow toRow col pos = some r := by
  unfold moveInColumn
  rw [if_pos (by rw [hf, hu]; rfl)]
  dsimp only
  rw [if_pos (by simpa using available_nonempty t h col hc)]
  exact ⟨_, rfl⟩

/-- Writing numbers over cells that hold numbers leaves every cell null or non-null as it
was. -/
theorem pattern_foldl_setCell (t0 : Ticket) (col : Nat) (hc : col < 9) (rows : List Nat)
    (numbers : List Int) (l : List Nat)
    (hl : ∀ i ∈ l, i < numbers.length ∧ rows.getD i 0 < 3 ∧
      (cell t0 (rows.getD i 0) col).isSome = true) :
    ∀ t, Shape t → (∀ r c, (cell t r c).isSome = (cell t0 r c).isSome) →
      ∀ r c, (cell (l.foldl (fun t i => setCell t (rows.getD i 0) col numbers[i]?) t)
        r c).isSome = (cell t0 r c).isSome := by
  induction l with
  | nil => exact fun t _ hp => hp
  | cons i l ih =>
    intro t ht hp
    rw [List.foldl_cons]
    obtain ⟨hi, hr3, hsome⟩ := hl i (List.mem_cons_self _ _)
    apply ih (fun j hj => hl j (List.mem_cons_of_mem _ hj)) _ (shape_setCell t _ _ _ ht)
    intro r c
    rw [cell_setCell t ht _ _ hr3 hc]
    split
    · rename_i hrc
      rw [hrc.1, hrc.2, hsome, List.getElem?_eq_getElem hi]
      rfl
    · exact hp r c

/-- In a 3x9 grid, the rows that hold a number in column `col` are as many as the numbers
of the column, and each of them is a row of the grid that holds a number there. -/
theorem colRows_spec (t : Ticket) (h : Shape t) (col : Nat) :
    (sortAsc (columnNumbersOf t col)).length =
        ((List.range t.length).filter (fun idx => (cell t idx col).isSome)).length ∧
      ∀ i, i < ((List.range t.length).filter (fun idx => (cell t idx col).isSome)).length →
        ((List.range t.length).filter (fun idx => (cell t idx col).isSome)).getD i 0 < 3 ∧
        (cell t (((List.range t.length).filter
          (fun idx => (cell t idx col).isSome)).getD i 0) col).isSome = true := by
  constructor
  · unfold sortAsc
    rw [List.length_insertionSort, (column_cells t h col).1, h.1]
    have h3 : List.range 3 = [0, 1, 2] := rfl
    rw [h3]
    simp only [List.filter_cons, List.filter_nil]
    generalize cell t 0 col = x
    generalize cell t 1 col = y
    generalize cell t 2 col = z
    cases x <;> cases y <;> cases z <;> simp
  · intro i hi
    rw [List.getD_eq_getElem _ _ hi]
    have hmem := List.getElem_mem hi
    rw [List.mem_filter, List.mem_range] at hmem
    exact ⟨by have := h.1; omega, hmem.2⟩

/-- The re-sort of a column at the end of a move leaves every cell null or non-null as it
was. -/
theorem pattern_resort (t : Ticket) (h : Shape t) (col : Nat) (hc : col < 9) (x c : Nat) :
    (cell (placeNumbers t col (sortAsc (columnNumbersOf t col)).length
      ((List.range t.length).filter (fun idx => (cell t idx col).isSome))
      (sortAsc (columnNumbersOf t col))) x c).isSome = (cell t x c).isSome := by
  obtain ⟨hlen, hrows⟩ := colRows_spec t h col
  unfold placeNumbers
  apply pattern_foldl_setCell t col hc _ _ _ _ t h (fun _ _ => rfl)
  intro i hi
  rw [List.mem_range] at hi
  exact ⟨hi, hrows i (by omega)⟩

/-- A move of `_balanceRows` empties the cell of `fromRow`, fills the cell of `toRow`, and
leaves every other cell null or non-null as it was. -/
theorem pattern_moveInColumn (g : Rng) (t : Ticket) (h : Shape t) (fromRow toRow col pos : Nat)
    (hf3 : fromRow < 3) (hu3 : toRow < 3) (hc : col < 9) (r : Ticket × Nat)
    (hr : moveInColumn g t fromRow toRow col pos = some r) :
    Shape r.1 ∧ (cell t fromRow col).isSome = true ∧ (cell t toRow col).isSome = false ∧
      ∀ x c, (cell r.1 x c).isSome =
        if x = toRow ∧ c = col then true
        else if x = fromRow ∧ c = col then false else (cell t x c).isSome := by
  have hshape := shape_moveInColumn g t fromRow toRow col pos h r hr
  unfold moveInColumn at hr
  split at hr
  · rename_i hcond
    dsimp only at hr
    split at hr
    · rename_i hav
      obtain ⟨hf, hu⟩ := Bool.and_eq_true_iff.1 hcond
      generalize hA : (rangeIncl (columnRanges.getD col (0, 0)).1
        (columnRanges.getD col (0, 0)).2).filter
          (fun n => !(columnNumbersOf t col).contains n) = available at hr hav
      have hlt : randomBelow g pos available.length < available.length := Nat.mod_lt _ hav
      have hidx : available[randomBelow g pos available.length]? =
          some available[randomBelow g pos available.length] := List.getElem?_eq_getElem hlt
      rw [hidx] at hr
      generalize available[randomBelow g pos available.length] = v at hr
      cases hr
      have h1 := shape_setCell t fromRow col none h
      have h2 := shape_setCell _ toRow col (some v) h1
      refine ⟨hshape, hf, by simpa using hu, ?_⟩
      intro x c
      show (cell (placeNumbers _ _ _ _ _) x c).isSome = _
      rw [pattern_resort _ h2 col hc, cell_setCell _ h1 _ _ hu3 hc,
        cell_setCell t h _ _ hf3 hc]
      split
      · rfl
      · split
        · rfl
        · rfl
    · cases hr
  · cases hr

/-- The column loop of `_balanceRows` stops at a move as soon as some column allows
one. -/
theorem tryColumns_moves (g : Rng) (t : Ticket) (h : Shape t) (fromRow toRow pos : Nat)
    (cols : List Nat) (hcols : ∀ c ∈ cols, c < 9)
    (hex : ∃ c ∈ cols, (cell t fromRow c).isSome = true ∧ (cell t toRow c).isSome = false) :
    ∃ col r, col < 9 ∧ moveInColumn g t fromRow toRow col pos = some r ∧
      tryColumns g t fromRow toRow pos cols = r := by
  induction cols with
  | nil =>
    obtain ⟨c, hc, -⟩ := hex
    exact absurd hc (List.not_mem_nil c)
  | cons a cols ih =>
    cases hm : moveInColumn g t fromRow toRow a pos with
    | some r =>
      refine ⟨a, r, hcols a (List.mem_cons_self _ _), hm, ?_⟩
      rw [tryColumns, hm]
    | none =>
      have hrest : ∃ c ∈ cols, (cell t fromRow c).isSome = true ∧
          (cell t toRow c).isSome = false := by
        obtain ⟨c, hc, h1, h2⟩ := hex
        rcases List.mem_cons.1 hc with hca | hc'
        · subst hca
          obtain ⟨r, hr⟩ := moveInColumn_isSome g t h fromRow toRow c pos
            (hcols c (List.mem_cons_self _ _)) h1 (by
              cases hx : cell t toRow c with
              | none => rfl
              | some v => rw [hx] at h2; cases h2)
          rw [hm] at hr
          cases hr
        · exact ⟨c, hc', h1, h2⟩
      obtain ⟨col, r, h1, h2, h3⟩ := ih (fun c hc => hcols c (List.mem_cons_of_mem _ hc)) hrest
      refine ⟨col, r, h1, h2, ?_⟩
      rw [tryColumns, hm]
      exact h3

/-! ## Row balancing: the loop -/

theorem rowCountsOf_eq (t : Ticket) (h : Shape t) :
    rowCountsOf t = [nonNullInRow t 0, nonNullInRow t 1, nonNullInRow t 2] := by
  have e0 := row_count_eq t h 0 (by omega)
  have e1 := row_count_eq t h 1 (by omega)
  have e2 := row_count_eq t h 2 (by omega)
  obtain ⟨r0, r1, r2, rfl, -, -, -⟩ := shape_rows h
  rw [← e0, ← e1, ← e2]
  rfl

theorem nonNullInRow_le (t : Ticket) (r : Nat) : nonNullInRow t r ≤ 9 := by
  unfold nonNullInRow
  exact (List.length_filter_le _ _).trans (by simp)

/-- Row counts after a move: one less in `fromRow`, one more in `toRow`. -/
theorem nonNullInRow_of_move (t t2 : Ticket) (fromRow toRow col : Nat) (hc : col < 9)
    (hfu : fromRow ≠ toRow) (hf : (cell t fromRow col).isSome = true)
    (hu : (cell t toRow col).isSome = false)
    (hpat : ∀ x c, (cell t2 x c).isSome =
      if x = toRow ∧ c = col then true
      else if x = fromRow ∧ c = col then false else (cell t x c).isSome) (x : Nat) :
    nonNullInRow t2 x + (if x = fromRow then 1 else 0) =
      nonNullInRow t x + (if x = toRow then 1 else 0) := by
  unfold nonNullInRow
  simp only [hpat]
  by_cases hxu : x = toRow
  · subst hxu
    rw [if_neg (Ne.symm hfu), if_pos rfl, Nat.add_zero]
    apply filter_range_flip _ _ col 9 hc hu
    · simp
    · intro i hi
      simp [hi]
  · by_cases hxf : x = fromRow
    · subst hxf
      rw [if_pos rfl, if_neg hxu, Nat.add_zero]
      symm
      apply filter_range_flip _ _ col 9 hc _ hf
      · intro i hi
        simp [hi, hxu]
      · simp [hxu]
    · rw [if_neg hxf, if_neg hxu]
      simp [hxu, hxf]

/-- One pass of `_balanceRows` on an unbalanced grid of 15 numbers: an overflowing and an
underflowing row exist, a column allows the move, and the move brings the grid one step
closer to balance. -/
theorem balance_pass (g : Rng) (t : Ticket) (pos : Nat) (h : Shape t)
    (h15 : totalNonNull t = 15)
    (hnot : ¬ (rowCountsOf t).all (fun count => count == 5) = true) :
    ((indicesWhere (fun count => decide (count > 5)) (rowCountsOf t)).length == 0 ||
      (indicesWhere (fun count => decide (count < 5)) (rowCountsOf t)).length == 0) = false ∧
    Shape (tryColumns g t
      ((indicesWhere (fun count => decide (count > 5)) (rowCountsOf t)).getD 0 0)
      ((indicesWhere (fun count => decide (count < 5)) (rowCountsOf t)).getD 0 0) pos
      (List.range 9)).1 ∧
    totalNonNull (tryColumns g t
      ((indicesWhere (fun count => decide (count > 5)) (rowCountsOf t)).getD 0 0)
      ((indicesWhere (fun count => decide (count < 5)) (rowCountsOf t)).getD 0 0) pos
      (List.range 9)).1 = 15 ∧
    overflow (tryColumns g t
      ((indicesWhere (fun count => decide (count > 5)) (rowCountsOf t)).getD 0 0)
      ((indicesWhere (fun count => decide (count < 5)) (rowCountsOf t)).getD 0 0) pos
      (List.range 9)).1 + 1 = overflow t := by
  rw [rowCountsOf_eq t h] at hnot ⊢
  have hsum : nonNullInRow t 0 + nonNullInRow t 1 + nonNullInRow t 2 = 15 := h15
  have hne : ¬ (nonNullInRow t 0 = 5 ∧ nonNullInRow t 1 = 5 ∧ nonNullInRow t 2 = 5) := by
    intro hall
    apply hnot
    rw [hall.1, hall.2.1, hall.2.2]
    rfl
  have hover : (fun count => decide (count > 5)) (nonNullInRow t 0) = true ∨
      (fun count => decide (count > 5)) (nonNullInRow t 1) = true ∨
      (fun count => decide (count > 5)) (nonNullInRow t 2) = true := by
    simp only [decide_eq_true_eq]
    omega
  have hunder : (fun count => decide (count < 5)) (nonNullInRow t 0) = true ∨
      (fun count => decide (count < 5)) (nonNullInRow t 1) = true ∨
      (fun count => decide (count < 5)) (nonNullInRow t 2) = true := by
    simp only [decide_eq_true_eq]
    omega
  obtain ⟨ho1, ho2, ho3⟩ := indicesWhere_first (fun count => decide (count > 5)) _ _ _ hover
  obtain ⟨hu1, hu2, hu3⟩ := indicesWhere_first (fun count => decide (count < 5)) _ _ _ hunder
  refine ⟨by simp [ho1, hu1], ?_⟩
  generalize (indicesWhere (fun count => decide (count > 5))
    [nonNullInRow t 0, nonNullInRow t 1, nonNullInRow t 2]).getD 0 0 = fromRow at ho2 ho3 ⊢
  generalize (indicesWhere (fun count => decide (count < 5))
    [nonNullInRow t 0, nonNullInRow t 1, nonNullInRow t 2]).getD 0 0 = toRow at hu2 hu3 ⊢
  have hf5 : nonNullInRow t fromRow > 5 := by
    interval_cases fromRow <;> simpa using ho3
  have hu5 : nonNullInRow t toRow < 5 := by
    interval_cases toRow <;> simpa using hu3
  have hfu : fromRow ≠ toRow := by
    intro e
    rw [e] at hf5
    omega
  obtain ⟨c, hc, hfc, huc⟩ := exists_of_filter_length_lt
    (fun c => (cell t fromRow c).isSome) (fun c => (cell t toRow c).isSome) (List.range 9)
    (by
      have e1 : ((List.range 9).filter (fun c => (cell t fromRow c).isSome)).length =
        nonNullInRow t fromRow := rfl
      have e2 : ((List.range 9).filter (fun c => (cell t toRow c).isSome)).length =
        nonNullInRow t toRow := rfl
      omega)
  obtain ⟨col, r, hcol, hmove, htry⟩ := tryColumns_moves g t h fromRow toRow pos (List.range 9)
    (fun c hc => List.mem_range.1 hc) ⟨c, hc, hfc, huc⟩
  rw [htry]
  obtain ⟨hshape, hf, hu, hpat⟩ :=
    pattern_moveInColumn g t h fromRow toRow col pos ho2 hu2 hcol r hmove
  have hrow := nonNullInRow_of_move t r.1 fromRow toRow col hcol hfu hf hu hpat
  have e0 := hrow 0
  have e1 := hrow 1
  have e2 := hrow 2
  refine ⟨hshape, ?_, ?_⟩
  · unfold totalNonNull
    interval_cases fromRow <;> interval_cases toRow <;> simp at e0 e1 e2 hfu <;> omega
  · unfold overflow
    interval_cases fromRow <;> interval_cases toRow <;> simp at e0 e1 e2 hfu <;> omega

/-- From a 3x9 grid of 15 numbers, `_balanceRows` returns true, on a grid with 5 numbers in
every row, as soon as it is allowed more passes than the grid has cells beyond 5. -/
theorem balanceLoop_balanced (g : Rng) (k : Nat) (t : Ticket) (pos : Nat) (h : Shape t)
    (h15 : totalNonNull t = 15) (hk : overflow t < k) :
    (balanceLoop g k t pos).1 = true ∧
      (rowCountsOf (balanceLoop g k t pos).2.1).all (fun count => count == 5) = true := by
  induction k generalizing t pos with
  | zero => omega
  | succ k ih =>
    rw [balanceLoop]
    dsimp only
    split
    · rename_i hall
      exact ⟨rfl, hall⟩
    · rename_i hnot
      obtain ⟨hcont, hshape, hsum, hless⟩ := balance_pass g t pos h h15 hnot
      rw [if_neg (by rw [hcont]; decide)]
      exact ih _ _ hshape hsum (by omega)

theorem overflow_le (t : Ticket) (h15 : totalNonNull t = 15) : overflow t ≤ 5 := by
  have h0 := nonNullInRow_le t 0
  have h1 := nonNullInRow_le t 1
  have h2 := nonNullInRow_le t 2
  unfold totalNonNull at h15
  unfold overflow
  omega

/-! ## The events of a turn are its ledger appends -/

theorem stepLog_checkEarlyFive (s : Game) (p : Participant) :
    ∃ evs, StepLog .earlyFive p.id p.name s (checkEarlyFive s p) evs := by
  unfold checkEarlyFive
  split
  · exact ⟨_, eventsAppended_announceWinner s _ p _, Or.inr ⟨⟨_, rfl⟩,
      winners_announceWinner s _ p _⟩⟩
  · exact ⟨[], eventsAppended_refl s, Or.inl ⟨rfl, rfl⟩⟩

theorem stepLog_checkRow (sp : Game × Participant) (row : Nat) :
    ∃ evs, StepLog (lineCategory row) sp.2.id sp.2.name sp.1 (checkRow sp row).1 evs := by
  unfold checkRow
  dsimp only
  split
  · exact ⟨[], eventsAppended_refl _, Or.inl ⟨rfl, rfl⟩⟩
  · split
    · split
      · exact ⟨_, eventsAppended_announceWinner sp.1 _ _ _, Or.inr ⟨⟨_, rfl⟩,
          winners_announceWinner sp.1 _ _ _⟩⟩
      · exact ⟨[], eventsAppended_refl _, Or.inl ⟨rfl, rfl⟩⟩
    · exact ⟨[], eventsAppended_refl _, Or.inl ⟨rfl, rfl⟩⟩

theorem stepLog_checkCornerWins (s : Game) (p : Participant) :
    ∃ evs, StepLog .corners p.id p.name s (checkCornerWins s p).1 evs := by
  unfold checkCornerWins
  dsimp only
  split
  · exact ⟨[], eventsAppended_refl _, Or.inl ⟨rfl, rfl⟩⟩
  · split
    · exact ⟨_, eventsAppended_announceWinner s _ _ _, Or.inr ⟨⟨_, rfl⟩,
        winners_announceWinner s _ _ _⟩⟩
    · exact ⟨[], eventsAppended_refl _, Or.inl ⟨rfl, rfl⟩⟩

theorem stepLog_checkFullHouse (s : Game) (p : Participant) :
    ∃ evs, StepLog .fullHouse p.id p.name s (checkFullHouse s p) evs := by
  unfold checkFullHouse
  dsimp only
  split
  · split
    · exact ⟨_, eventsAppended_announceWinner s .fullHouse p _, Or.inr ⟨⟨_, rfl⟩,
        winners_announceWinner s _ p _⟩⟩
    · exact ⟨_, eventsAppended_announceWinner s .fullHouse p _, Or.inr ⟨⟨_, rfl⟩,
        winners_announceWinner s _ p _⟩⟩
  · exact ⟨[], eventsAppended_refl _, Or.inl ⟨rfl, rfl⟩⟩

theorem atMostOneEvent_of_stepLog {c : Category} {p : Participant} {s s2 : Game}
    {evs : List WinnerEvent} (h : StepLog c p.id p.name s s2 evs) : AtMostOneEvent c p evs := by
  rcases h.2 with ⟨h1, -⟩ | ⟨h1, -⟩
  · exact Or.inl h1
  · exact Or.inr h1

/-- The events of six tests run in category order are those of the categories whose ledger
has been extended by the participant. -/
theorem categories_of_six (id : Nat) (name : String) (w0 w1 w2 w3 w4 w5 w6 : Winners)
    (a b c d e f : List WinnerEvent)
    (h1 : (a = [] ∧ w1 = w0) ∨ ((∃ x, a =
        [{ category := .earlyFive, name := name, displayName := x }]) ∧
      w1 = w0.push .earlyFive { id := id, name := name }))
    (h2 : (b = [] ∧ w2 = w1) ∨ ((∃ x, b =
        [{ category := .topLine, name := name, displayName := x }]) ∧
      w2 = w1.push .topLine { id := id, name := name }))
    (h3 : (c = [] ∧ w3 = w2) ∨ ((∃ x, c =
        [{ category := .middleLine, name := name, displayName := x }]) ∧
      w3 = w2.push .middleLine { id := id, name := name }))
    (h4 : (d = [] ∧ w4 = w3) ∨ ((∃ x, d =
        [{ category := .bottomLine, name := name, displayName := x }]) ∧
      w4 = w3.push .bottomLine { id := id, name := name }))
    (h5 : (e = [] ∧ w5 = w4) ∨ ((∃ x, e =
        [{ category := .corners, name := name, displayName := x }]) ∧
      w5 = w4.push .corners { id := id, name := name }))
    (h6 : (f = [] ∧ w6 = w5) ∨ ((∃ x, f =
        [{ category := .fullHouse, name := name, displayName := x }]) ∧
      w6 = w5.push .fullHouse { id := id, name := name })) :
    (a ++ (b ++ (c ++ (d ++ (e ++ f))))).map (fun ev => ev.category) =
      allCategories.filter (fun k =>
        decide (w6.get k = w0.get k ++ [{ id := id, name := name }])) := by
  rcases h1 with ⟨rfl, rfl⟩ | ⟨⟨x1, rfl⟩, rfl⟩ <;>
  rcases h2 with ⟨rfl, rfl⟩ | ⟨⟨x2, rfl⟩, rfl⟩ <;>
  rcases h3 with ⟨rfl, rfl⟩ | ⟨⟨x3, rfl⟩, rfl⟩ <;>
  rcases h4 with ⟨rfl, rfl⟩ | ⟨⟨x4, rfl⟩, rfl⟩ <;>
  rcases h5 with ⟨rfl, rfl⟩ | ⟨⟨x5, rfl⟩, rfl⟩ <;>
  rcases h6 with ⟨rfl, rfl⟩ | ⟨⟨x6, rfl⟩, rfl⟩ <;>
  simp [allCategories, List.filter_cons, Winners.get_push]

/-- One turn: the events announced are under the participant's name, none when the number
is not on the ticket, and their categories are, in test order, those whose ledger the turn
has extended by the participant. -/
theorem turnLog_checkParticipant (n : Int) (s : Game) (p : Participant) :
    ∃ evs, EventsAppended s (checkParticipant n s p).1 evs ∧ TurnEvents n p evs ∧
      evs.map (fun ev => ev.category) = allCategories.filter (fun k =>
        decide ((checkParticipant n s p).1.winners.get k =
          s.winners.get k ++ [{ id := p.id, name := p.name }])) := by
  by_cases hon : onTicket p.ticket n = true
  · unfold checkParticipant
    dsimp only
    rw [if_pos hon]
    have e : ∀ s2 p2, checkRowWins s2 p2 = checkRow (checkRow (checkRow (s2, p2) 0) 1) 2 :=
      fun _ _ => rfl
    rw [e]
    obtain ⟨a, ha⟩ := stepLog_checkEarlyFive s
      { p with markedNumbers := p.markedNumbers ++ [n] }
    have ha : StepLog .earlyFive p.id p.name s
      (checkEarlyFive s { p with markedNumbers := p.markedNumbers ++ [n] }) a := ha
    generalize checkEarlyFive s { p with markedNumbers := p.markedNumbers ++ [n] } = s1
      at ha ⊢
    obtain ⟨b, hb⟩ := stepLog_checkRow
      (s1, { p with markedNumbers := p.markedNumbers ++ [n] }) 0
    have hb : StepLog .topLine p.id p.name s1
      (checkRow (s1, { p with markedNumbers := p.markedNumbers ++ [n] }) 0).1 b := hb
    have n0 := coreView_fields (coreView_checkRow
      (s1, { p with markedNumbers := p.markedNumbers ++ [n] }) 0)
    have i0 : (checkRow (s1, { p with markedNumbers := p.markedNumbers ++ [n] }) 0).2.id =
      p.id := n0.1
    have m0 : (checkRow (s1, { p with markedNumbers := p.markedNumbers ++ [n] }) 0).2.name =
      p.name := n0.2.1
    clear n0
    generalize checkRow (s1, { p with markedNumbers := p.markedNumbers ++ [n] }) 0 = sp0
      at hb i0 m0 ⊢
    obtain ⟨c, hc⟩ := stepLog_checkRow sp0 1
    rw [i0, m0] at hc
    have hc : StepLog .middleLine p.id p.name sp0.1 (checkRow sp0 1).1 c := hc
    have n1 := coreView_fields (coreView_checkRow sp0 1)
    have i1 : (checkRow sp0 1).2.id = p.id := n1.1.trans i0
    have m1 : (checkRow sp0 1).2.name = p.name := n1.2.1.trans m0
    clear n1
    generalize checkRow sp0 1 = sp1 at hc i1 m1 ⊢
    obtain ⟨d, hd⟩ := stepLog_checkRow sp1 2
    rw [i1, m1] at hd
    have hd : StepLog .bottomLine p.id p.name sp1.1 (checkRow sp1 2).1 d := hd
    have n2 := coreView_fields (coreView_checkRow sp1 2)
    have i2 : (checkRow sp1 2).2.id = p.id := n2.1.trans i1
    have m2 : (checkRow sp1 2).2.name = p.name := n2.2.1.trans m1
    clear n2
    generalize checkRow sp1 2 = sp2 at hd i2 m2 ⊢
    obtain ⟨e2, he⟩ := stepLog_checkCornerWins sp2.1 sp2.2
    rw [i2, m2] at he
    have n3 := coreView_fields (coreView_checkCornerWins sp2.1 sp2.2)
    have i3 : (checkCornerWins sp2.1 sp2.2).2.id = p.id := n3.1.trans i2
    have m3 : (checkCornerWins sp2.1 sp2.2).2.name = p.name := n3.2.1.trans m2
    clear n3
    generalize checkCornerWins sp2.1 sp2.2 = sp3 at he i3 m3 ⊢
    obtain ⟨f, hf⟩ := stepLog_checkFullHouse sp3.1 sp3.2
    rw [i3, m3] at hf
    refine ⟨a ++ (b ++ (c ++ (d ++ (e2 ++ f)))),
      eventsAppended_trans ha.1 (eventsAppended_trans hb.1 (eventsAppended_trans hc.1
        (eventsAppended_trans hd.1 (eventsAppended_trans he.1 hf.1)))), ⟨?_, ?_⟩, ?_⟩
    · exact ownEventsInOrder_of_six p a b c d e2 f
        (atMostOneEvent_of_stepLog ha) (atMostOneEvent_of_stepLog hb)
        (atMostOneEvent_of_stepLog hc) (atMostOneEvent_of_stepLog hd)
        (atMostOneEvent_of_stepLog he) (atMostOneEvent_of_stepLog hf)
    · intro hoff
      rw [hon] at hoff
      cases hoff
    · exact categories_of_six p.id p.name _ _ _ _ _ _ _ a b c d e2 f
        ha.2 hb.2 hc.2 hd.2 he.2 hf.2
  · have hsame : checkParticipant n s p = (s, p) := by
      unfold checkParticipant
      rw [if_neg hon]
    rw [hsame]
    refine ⟨[], eventsAppended_refl s, ⟨by unfold OwnEventsInOrder; simp [List.Sorted],
      fun _ => rfl⟩, ?_⟩
    simp [allCategories, List.filter_cons]

/-- A draw: one list of events per participant, appended in roster order; the list of the
participant at a given place in the roster is the log of that participant's turn. -/
theorem turnLog_checkAll (n : Int) (ps : List Participant) (s : Game) :
    ∃ evss : List (List WinnerEvent), List.Forall₂ (TurnEvents n) ps evss ∧
      EventsAppended s (checkAll n s ps).1 evss.flatten ∧
      ∀ (before after : List Participant) (p : Participant), ps = before ++ p :: after →
        (evss.getD before.length []).map (fun ev => ev.category) =
          allCategories.filter (fun k =>
            decide ((checkParticipant n (checkAll n s before).1 p).1.winners.get k =
              (checkAll n s before).1.winners.get k ++ [{ id := p.id, name := p.name }])) := by
  induction ps generalizing s with
  | nil =>
    refine ⟨[], List.Forall₂.nil, eventsAppended_refl s, ?_⟩
    intro before after p h
    exact absurd h (by simp)
  | cons q ps ih =>
    obtain ⟨evs, h1, h2, h3⟩ := turnLog_checkParticipant n s q
    obtain ⟨evss, h4, h5, h6⟩ := ih (checkParticipant n s q).1
    refine ⟨evs :: evss, List.Forall₂.cons h2 h4, ?_, ?_⟩
    · rw [checkAll]
      exact eventsAppended_trans h1 h5
    · intro before after p hsplit
      cases before with
      | nil =>
        rw [List.nil_append] at hsplit
        injection hsplit with hq _
        subst hq
        exact h3
      | cons x before =>
        rw [List.cons_append] at hsplit
        injection hsplit with hq hps
        subst hq
        have := h6 before after p hps
        rw [checkAll]
        simpa using this

/-- What the turn of `p` does to the ledger of any category, in terms of that category's
test. -/
theorem checkParticipant_ledger (n : Int) (s : Game) (p : Participant) (c : Category) :
    (checkParticipant n s p).1.winners.get c =
      if onTicket p.ticket n &&
          winsNow c (s.winners.get c) { p with markedNumbers := p.markedNumbers ++ [n] } then
        s.winners.get c ++ [{ id := p.id, name := p.name }]
      else s.winners.get c := by
  cases c
  · exact checkParticipant_earlyFive n s p
  · exact checkParticipant_line n s p 0 (by omega)
  · exact checkParticipant_line n s p 1 (by omega)
  · exact checkParticipant_line n s p 2 (by omega)
  · exact checkParticipant_corners n s p
  · exact checkParticipant_fullHouse n s p

/-! ## Claims on the ticket generator -/

/-- C1, as stated, fails: on the random outcome that always picks column 0, the loop of
`_distributeColumnCounts` never ends, so `generateTickets(1)` returns nothing, whatever the
number of loop iterations allowed. -/
theorem generateTickets_no_result_on_stuck_source :
    ¬ ∃ fuel, (generateTickets (fun _ => 0) fuel 1 0).isSome = true := by
  rintro ⟨fuel, h⟩
  rw [generateTickets_stuck fuel] at h
  exact absurd h (by decide)

/-- C1, amended: for every count and every outcome of the random choices, whenever
`generateTickets(count)` returns, it returns exactly `count` tickets, each a 3x9 grid with 5
non-null cells in each row (15 in total), 1 to 3 non-null cells in each column, every value
in its column's range and strictly increasing down each column; and it does return on every
outcome in which any `w` successive random values pick every column (each column-count loop
then ends within `6 * w` iterations). -/
theorem generateTickets_valid (g : Rng) (w fuel count pos : Nat) :
    (∀ r, generateTickets g fuel count pos = some r →
      r.1.length = count ∧ ∀ t ∈ r.1, Shape t ∧ ValidTicket t ∧ totalNonNull t = 15) ∧
    (PicksEveryColumn g w → 6 * w ≤ fuel → ∃ r, generateTickets g fuel count pos = some r) := by
  refine ⟨?_, fun hfair hfuel => generateTickets_isSome g w fuel count pos hfair hfuel⟩
  intro r hr
  obtain ⟨hlen, hall⟩ := generateTickets_sound g fuel count pos r hr
  refine ⟨hlen, fun t ht => ?_⟩
  obtain ⟨hs, hv⟩ := hall t ht
  have hvalid := (isValidTicket_iff_valid t hs).1 hv
  exact ⟨hs, hvalid, totalNonNull_of_valid t hvalid⟩

/-- C1 witness: on the source `0, 1, 2, ...` two tickets are returned and are valid. -/
theorem generateTickets_valid_witness :
    PicksEveryColumn (fun k => k) 9 ∧ 6 * 9 ≤ 54 ∧
      ∃ r, generateTickets (fun k => k) 54 2 0 = some r ∧ r.1.length = 2 ∧
        ∀ t ∈ r.1, Shape t ∧ ValidTicket t ∧ totalNonNull t = 15 := by
  refine ⟨picksEveryColumn_id, by decide, ?_⟩
  obtain ⟨r, hr⟩ := (generateTickets_valid (fun k => k) 9 54 2 0).2 picksEveryColumn_id
    (by decide)
  exact ⟨r, hr, (generateTickets_valid (fun k => k) 9 54 2 0).1 r hr⟩

/-- C2: on a 3x9 grid, `_isValidTicket` returns true exactly when every row has 5 non-null
cells, every column has 1 to 3 non-null cells, every value lies in its column's range
(`[10c, 10c + 9]`, column 0 from 1, column 8 up to 90) and the values of every column
strictly increase from top to bottom. -/
theorem isValidTicket_iff_four_conditions (t : Ticket) (h : Shape t) :
    _isValidTicket t = true ↔ ValidTicket t :=
  isValidTicket_iff_valid t h

/-- C2 witness: the statement at `sampleTicket`. -/
theorem isValidTicket_iff_four_conditions_witness :
    Shape sampleTicket ∧ (_isValidTicket sampleTicket = true ↔ ValidTicket sampleTicket) :=
  ⟨by decide, isValidTicket_iff_four_conditions sampleTicket (by decide)⟩

/-- C3: for each of the five patterns of `_generateTicketGuaranteed` and every random source,
the column loop builds a ticket that `_isValidTicket` accepts, the row counts end at
`[5, 5, 5]`, no column finds `availablePatterns` empty, and the method as a whole returns a
ticket that `_isValidTicket` accepts. -/
theorem generateTicketGuaranteed_always_valid (g : Rng) (pos : Nat) (pattern : List Nat)
    (hp : pattern ∈ patterns) :
    _isValidTicket (fillPattern g pattern pos).ticket = true ∧
      (fillPattern g pattern pos).rowCounts = [5, 5, 5] ∧
      (∀ col, col < 9 →
        availablePatternsOf ((List.range col).foldl (guaranteedStep g pattern)
          { ticket := emptyTicket, rowCounts := [0, 0, 0], pos := pos }).rowCounts
          (pattern.getD col 0) ≠ []) ∧
      _isValidTicket (_generateTicketGuaranteed g pos).1 = true := by
  have hplan : PlanOk pattern := by
    obtain ⟨k, hk, rfl⟩ := List.getElem_of_mem hp
    have := patterns_planOk k hk
    rwa [List.getD_eq_getElem _ _ hk] at this
  have h := fillPattern_valid g pattern pos hplan
  refine ⟨h.2.1, h.2.2, ?_, (generateTicketGuaranteed_valid g pos).2⟩
  intro col hcol
  rw [foldl_guaranteedStep_rowCounts]
  exact hplan.1 col hcol

/-- C3 witness: the first pattern of the table and the source `0, 1, 2, ...`. -/
theorem generateTicketGuaranteed_always_valid_witness :
    [2, 2, 2, 2, 1, 2, 1, 2, 1] ∈ patterns ∧
      _isValidTicket (fillPattern (fun k => k) [2, 2, 2, 2, 1, 2, 1, 2, 1] 0).ticket = true :=
  ⟨by decide,
    (generateTicketGuaranteed_always_valid (fun k => k) 0 [2, 2, 2, 2, 1, 2, 1, 2, 1]
      (by decide)).1⟩

/-! ## Claims on the number pool -/

/-- C4: a fresh game and a reset game start with `remainingNumbers` a rearrangement of 1..90
and `calledNumbers` empty; from any such state, each of 90 successive `callNextNumber` calls
appends one number to `calledNumbers`, after them `calledNumbers` has length 90 and holds
every number of 1..90 exactly once, `remainingNumbers` is empty, and a 91st call changes
neither of them, nor `currentNumber`, nor the participants. -/
theorem ninety_calls_draw_every_number (g : Rng) (pos : Nat) (roster : List RosterEntry)
    (s₀ : Game) :
    ((newGame g pos roster).remainingNumbers.Perm fullPool ∧
      (newGame g pos roster).calledNumbers = []) ∧
    ((resetGame g pos s₀).remainingNumbers.Perm fullPool ∧
      (resetGame g pos s₀).calledNumbers = []) ∧
    ∀ s : Game, s.remainingNumbers.Perm fullPool → s.calledNumbers = [] →
      (∀ k, k < 90 → ∃ x, (callNextNumber^[k + 1] s).calledNumbers =
        (callNextNumber^[k] s).calledNumbers ++ [x]) ∧
      (callNextNumber^[90] s).calledNumbers.Perm fullPool ∧
      (callNextNumber^[90] s).calledNumbers.length = 90 ∧
      (∀ n : Int, 1 ≤ n → n ≤ 90 → (callNextNumber^[90] s).calledNumbers.count n = 1) ∧
      (callNextNumber^[90] s).remainingNumbers = [] ∧
      (callNextNumber^[91] s).calledNumbers = (callNextNumber^[90] s).calledNumbers ∧
      (callNextNumber^[91] s).remainingNumbers = [] ∧
      (callNextNumber^[91] s).currentNumber = (callNextNumber^[90] s).currentNumber ∧
      (callNextNumber^[91] s).participants = (callNextNumber^[90] s).participants := by
  refine ⟨newGame_start g pos roster, resetGame_start g pos s₀, ?_⟩
  intro s hperm hcalled
  have hlen : s.remainingNumbers.length = 90 := by rw [hperm.length_eq, length_fullPool]
  have h90 := iterate_callNextNumber_history 90 s
  have hrem : (callNextNumber^[90] s).remainingNumbers = [] :=
    List.length_eq_zero.1 (by rw [h90.2, hlen])
  have hcal : (callNextNumber^[90] s).calledNumbers = s.remainingNumbers.reverse := by
    have := h90.1
    rwa [hrem, hcalled, List.reverse_nil, List.append_nil, List.nil_append] at this
  have hp : (callNextNumber^[90] s).calledNumbers.Perm fullPool := by
    rw [hcal]
    exact (List.reverse_perm _).trans hperm
  have h91 : callNextNumber^[91] s = stopAutoCall (callNextNumber^[90] s) := by
    rw [Function.iterate_succ_apply']
    exact callNextNumber_of_empty _ hrem
  have hstop := stopAutoCall_fields (callNextNumber^[90] s)
  rw [← h91] at hstop
  refine ⟨?_, hp, by rw [hp.length_eq, length_fullPool], ?_, hrem, hstop.1,
    hstop.2.1.trans hrem, hstop.2.2.1, hstop.2.2.2.1⟩
  · intro k hk
    have hk' := iterate_callNextNumber_history k s
    rw [Function.iterate_succ_apply']
    obtain ⟨-, h2⟩ := callNextNumber_pool (callNextNumber^[k] s)
    rw [h2]
    rcases List.eq_nil_or_concat (callNextNumber^[k] s).remainingNumbers with h0 | ⟨l, a, h0⟩
    · have := hk'.2
      rw [h0, hlen] at this
      simp at this
      omega
    · rw [List.concat_eq_append] at h0
      exact ⟨a, by rw [h0]; simp⟩
  · intro n h1 hn
    rw [hp.count_eq]
    exact List.count_eq_one_of_mem nodup_fullPool ((mem_fullPool n).2 ⟨h1, hn⟩)

/-- C4 witness: the statement at a fresh game without participants. -/
theorem ninety_calls_draw_every_number_witness :
    (newGame (fun k => k) 0 []).remainingNumbers.Perm fullPool ∧
      (newGame (fun k => k) 0 []).calledNumbers = [] ∧
      (callNextNumber^[90] (newGame (fun k => k) 0 [])).remainingNumbers = [] :=
  have h := ninety_calls_draw_every_number (fun k => k) 0 [] (newGame (fun k => k) 0 [])
  ⟨h.1.1, h.1.2, (h.2.2 _ h.1.1 h.1.2).2.2.2.2.1⟩

/-- C5: in every state reached from a fresh game by `callNextNumber`, `manualCallNumber(n)`
with `1 ≤ n ≤ 90` and `resetGame`, no number is both remaining and called, the numbers
remaining or called are exactly 1..90, and `calledNumbers` has no duplicate. -/
theorem pool_partition (s : Game) (h : Reachable s) :
    (∀ n, n ∈ s.remainingNumbers → n ∉ s.calledNumbers) ∧
      (∀ n : Int, (n ∈ s.remainingNumbers ∨ n ∈ s.calledNumbers) ↔ (1 ≤ n ∧ n ≤ 90)) ∧
      s.calledNumbers.Nodup ∧ s.remainingNumbers.Nodup := by
  have hp : (s.calledNumbers ++ s.remainingNumbers).Perm fullPool := reachable_poolInv s h
  have hnd : (s.calledNumbers ++ s.remainingNumbers).Nodup := hp.nodup_iff.2 nodup_fullPool
  obtain ⟨h1, h2, h3⟩ := List.nodup_append.1 hnd
  refine ⟨fun n hr hc => h3 hc hr, ?_, h1, h2⟩
  intro n
  rw [← mem_fullPool, ← hp.mem_iff, List.mem_append]
  exact Or.comm

/-- C5 witness: the state after a fresh start, a chosen draw of 5 and an automatic draw. -/
theorem pool_partition_witness :
    Reachable (callNextNumber (manualCallNumber (newGame (fun k => k) 0 []) 5)) ∧
      (callNextNumber (manualCallNumber (newGame (fun k => k) 0 []) 5)).calledNumbers.Nodup :=
  have hr : Reachable (callNextNumber (manualCallNumber (newGame (fun k => k) 0 []) 5)) :=
    Reachable.callNext _ (Reachable.manual _ 5 (Reachable.fresh _ 0 []) (by decide) (by decide))
  ⟨hr, (pool_partition _ hr).2.2.1⟩

/-- C7: with `remainingNumbers` empty, `callNextNumber` leaves `calledNumbers`,
`remainingNumbers`, `currentNumber`, the participants (marks and flags), the winners ledger,
`pendingWinners` and the displayed events as they were. -/
theorem callNextNumber_on_empty_pool (s : Game) (h : s.remainingNumbers = []) :
    (callNextNumber s).calledNumbers = s.calledNumbers ∧
      (callNextNumber s).remainingNumbers = s.remainingNumbers ∧
      (callNextNumber s).currentNumber = s.currentNumber ∧
      (callNextNumber s).participants = s.participants ∧
      (callNextNumber s).winners = s.winners ∧
      (callNextNumber s).pendingWinners = s.pendingWinners ∧
      (callNextNumber s).displayed = s.displayed := by
  rw [callNextNumber_of_empty s h]
  exact stopAutoCall_fields s

/-- C7 witness: a game whose pool is used up. -/
theorem callNextNumber_on_empty_pool_witness :
    ({ newGame (fun k => k) 0 [] with remainingNumbers := [] } : Game).remainingNumbers = [] ∧
      (callNextNumber { newGame (fun k => k) 0 [] with remainingNumbers := [] }).calledNumbers
        = ({ newGame (fun k => k) 0 [] with remainingNumbers := [] } : Game).calledNumbers :=
  ⟨rfl, (callNextNumber_on_empty_pool _ rfl).1⟩

/-- C8: `manualCallNumber(n)` on a number already in `calledNumbers` returns the state
unchanged, and a second `manualCallNumber(n)` right after a first changes nothing. -/
theorem manualCallNumber_already_called (s : Game) (n : Int) :
    (n ∈ s.calledNumbers → manualCallNumber s n = s) ∧
      manualCallNumber (manualCallNumber s n) n = manualCallNumber s n := by
  have h1 : ∀ s' : Game, n ∈ s'.calledNumbers → manualCallNumber s' n = s' := by
    intro s' h
    unfold manualCallNumber
    rw [if_pos (by simpa using h)]
  refine ⟨h1 s, h1 _ ?_⟩
  unfold manualCallNumber
  split
  · rename_i h
    simpa using h
  · rw [checkWinners_called]
    simp

/-- C8 witness: 7 is called twice in a row. -/
theorem manualCallNumber_already_called_witness :
    (7 : Int) ∈ (manualCallNumber (newGame (fun k => k) 0 []) 7).calledNumbers ∧
      manualCallNumber (manualCallNumber (newGame (fun k => k) 0 []) 7) 7 =
        manualCallNumber (newGame (fun k => k) 0 []) 7 :=
  ⟨by rw [manualCallNumber, if_neg (by decide), checkWinners_called]; simp,
    (manualCallNumber_already_called (newGame (fun k => k) 0 []) 7).2⟩

/-! ## Claims on winner detection -/

/-- C6: in every state reached from a fresh game by draws and resets, the ledger of every
category has at most `winnerLimits` entries (1 for earlyFive, 2 for the three lines and for
corners, 3 for fullHouse) and no id occurs twice in it. -/
theorem ledger_within_limits (s : Game) (h : Reachable s) (c : Category) :
    (s.winners.get c).length ≤ winnerLimits c ∧
      ((s.winners.get c).map (fun e => e.id)).Nodup ∧
      (winnerLimits .earlyFive = 1 ∧ winnerLimits .topLine = 2 ∧ winnerLimits .middleLine = 2 ∧
        winnerLimits .bottomLine = 2 ∧ winnerLimits .corners = 2 ∧
        winnerLimits .fullHouse = 3) :=
  ⟨(reachable_ledgerOk s h c).1, (reachable_ledgerOk s h c).2, rfl, rfl, rfl, rfl, rfl, rfl⟩

/-- C6 witness: the state after a draw of 1 on the roster with a repeated id. -/
theorem ledger_within_limits_witness :
    Reachable (manualCallNumber (newGame (fun k => k) 0 twinRoster) 1) ∧
      ((manualCallNumber (newGame (fun k => k) 0 twinRoster) 1).winners.get .topLine).length
        ≤ winnerLimits .topLine :=
  have hr : Reachable (manualCallNumber (newGame (fun k => k) 0 twinRoster) 1) :=
    Reachable.manual _ 1 (Reachable.fresh _ 0 twinRoster) (by decide) (by decide)
  ⟨hr, (ledger_within_limits _ hr .topLine).1⟩

/-- C9: in every state reached from a fresh game (roster loaded at the start) by draws of
numbers in 1..90 and resets, the marks of every participant have no duplicate and are
exactly the numbers on the participant's ticket that have been called; and a draw of `n`
(by `callNextNumber` popping `n`, or by `manualCallNumber(n)` with `n` not yet called) keeps
every participant's id, name and ticket, appends `n` to the marks of the participants whose
ticket holds `n`, and leaves the marks of the others unchanged. -/
theorem marks_follow_draws (s : Game) (h : Reachable s) :
    (∀ p ∈ s.participants, p.markedNumbers.Nodup ∧
      ∀ m, m ∈ p.markedNumbers ↔ (OnTicket p.ticket m ∧ m ∈ s.calledNumbers)) ∧
    (∀ n, s.remainingNumbers.getLast? = some n →
      List.Forall₂ (DrawMarks n) s.participants (callNextNumber s).participants) ∧
    (∀ n, n ∉ s.calledNumbers →
      List.Forall₂ (DrawMarks n) s.participants (manualCallNumber s n).participants) := by
  refine ⟨reachable_markInv s h, ?_, ?_⟩
  · intro n hn
    unfold callNextNumber
    rw [hn]
    exact drawMarks_checkAll n s.participants _
  · intro n hn
    unfold manualCallNumber
    rw [if_neg (by simpa using hn)]
    exact drawMarks_checkAll n s.participants _

/-- C9 witness: the game in which 3 and 15 have been called. -/
theorem marks_follow_draws_witness :
    Reachable lineGame ∧
      ∀ p ∈ lineGame.participants, p.markedNumbers.Nodup ∧
        ∀ m, m ∈ p.markedNumbers ↔ (OnTicket p.ticket m ∧ m ∈ lineGame.calledNumbers) :=
  have hr : Reachable lineGame :=
    Reachable.manual _ 15 (Reachable.manual _ 3 (Reachable.fresh _ 0 lineRoster)
      (by decide) (by decide)) (by decide) (by decide)
  ⟨hr, (marks_follow_draws lineGame hr).1⟩

/-- C10, as stated, fails on a roster with a repeated id: after 1, 20, 42, 52 the first row
of neither twin is complete; the draw of 70 completes it for both and the topLine ledger
then holds one entry, yet only the first twin is appended. -/
theorem line_win_refused_on_repeated_id :
    (twinGame.participants.map (fun p =>
        (p.name, (rowNumbers p.ticket 0).all (fun v => p.markedNumbers.contains v)))
      = [("A", false), ("B", false)]) ∧
    ((manualCallNumber twinGame 70).participants.map (fun p =>
        (p.name, (rowNumbers p.ticket 0).all (fun v => p.markedNumbers.contains v)))
      = [("A", true), ("B", true)]) ∧
    twinGame.winners.topLine = [] ∧
    (manualCallNumber twinGame 70).winners.topLine = [{ id := 1, name := "A" }] := by
  decide

/-- C10, amended: in a state reached from a fresh game, at the turn of participant `p`
within a draw of `n` (`turn` is the engine state after the participants before `p`), the
ledger of row `r` is either unchanged or extended by `p`; it is extended only if `n` is on
the ticket and, after marking, every non-null cell of row `r` is marked; it is extended
when the draw marks the last unmarked number of row `r` and the ledger then holds fewer
than 2 entries and none with the id of `p`; and when the roster's ids are distinct, the
ledger holds no entry with the id of `p` as long as row `r` is not fully marked. -/
theorem line_win_rule (s : Game) (hs : Reachable s) (before after : List Participant)
    (p : Participant) (hsplit : s.participants = before ++ p :: after) (s₁ : Game) (n : Int)
    (r : Nat) (hr : r < 3) :
    let turn := (checkAll n s₁ before).1
    let ledger := turn.winners.get (lineCategory r)
    let ledger' := (checkParticipant n turn p).1.winners.get (lineCategory r)
    (ledger' = ledger ∨ ledger' = ledger ++ [{ id := p.id, name := p.name }]) ∧
    (ledger' ≠ ledger → OnTicket p.ticket n ∧
      RowComplete p.ticket r (checkParticipant n turn p).2.markedNumbers) ∧
    (OnTicket p.ticket n → ¬ RowComplete p.ticket r p.markedNumbers →
      RowComplete p.ticket r (p.markedNumbers ++ [n]) → ledger.length < 2 →
      (∀ e ∈ ledger, e.id ≠ p.id) →
      ledger' = ledger ++ [{ id := p.id, name := p.name }]) ∧
    ((s.participants.map (fun q => q.id)).Nodup → s₁.winners = s.winners →
      ¬ RowComplete p.ticket r p.markedNumbers → ∀ e ∈ ledger, e.id ≠ p.id) := by
  intro turn ledger ledger'
  have hpmem : p ∈ s.participants := by rw [hsplit]; simp
  have hline : ledger' = if onTicket p.ticket n &&
      lineWinsNow ledger { p with markedNumbers := p.markedNumbers ++ [n] } r then
        ledger ++ [{ id := p.id, name := p.name }] else ledger :=
    checkParticipant_line n turn p r hr
  have hsound := reachable_rowFlagsSound s hs p hpmem
  refine ⟨?_, ?_, ?_, ?_⟩
  · rw [hline]
    split
    · exact Or.inr rfl
    · exact Or.inl rfl
  · intro hne
    rw [hline] at hne
    split at hne
    · rename_i hwin
      rw [Bool.and_eq_true] at hwin
      obtain ⟨hon, hw⟩ := hwin
      unfold lineWinsNow at hw
      simp only [Bool.and_eq_true] at hw
      refine ⟨(onTicket_iff _ _).1 hon, ?_⟩
      have hm := (drawMarks_checkParticipant n turn p).2.2.2.1 ((onTicket_iff _ _).1 hon)
      rw [hm]
      exact (allMarked_iff _ _ _).1 hw.1.1.2
    · exact absurd rfl hne
  · intro hon hbefore hafter hlen hid
    rw [hline, if_pos]
    rw [Bool.and_eq_true]
    refine ⟨(onTicket_iff _ _).2 hon, ?_⟩
    unfold lineWinsNow
    simp only [Bool.and_eq_true, Bool.not_eq_true', decide_eq_true_eq]
    refine ⟨⟨⟨?_, (allMarked_iff _ _ _).2 hafter⟩, hlen⟩, ?_⟩
    · cases hflag : p.rowsCompleted.getD r false with
      | false => rfl
      | true => exact absurd (hsound r hr hflag) hbefore
    · rw [← Bool.not_eq_true, List.any_eq_true]
      rintro ⟨e, he, heq⟩
      exact hid e he (by simpa using heq)
  · intro hnodup hwin hbefore e he heq
    have hinv : LineLedgerInv s₁.winners ([] ++ (before ++ p :: after)) := by
      rw [hwin, List.nil_append, ← hsplit]
      exact reachable_lineLedgerInv s hs
    have hlen3 : ∀ q ∈ before, q.rowsCompleted.length = 3 := fun q hq =>
      reachable_flagsLength s hs q (by rw [hsplit]; exact List.mem_append_left _ hq)
    have hturn := lineLedgerInv_checkAll n before s₁ [] (p :: after) hlen3 hinv
    obtain ⟨q, hq, hqid, hqflag⟩ := hturn r hr e he
    rw [hsplit, List.map_append, List.map_cons] at hnodup
    have hmid := List.nodup_middle.1 hnodup
    rw [List.nodup_cons, List.mem_append] at hmid
    rw [List.nil_append] at hq
    rcases List.mem_append.1 hq with h1 | h2
    · apply hmid.1
      left
      rw [← ids_checkAll n before s₁]
      exact List.mem_map.2 ⟨q, h1, by rw [hqid, heq]⟩
    · rcases List.mem_cons.1 h2 with rfl | h3
      · exact hbefore (hsound r hr hqflag)
      · apply hmid.1
        right
        exact List.mem_map.2 ⟨q, h3, by rw [hqid, heq]⟩

/-- C10 witness: on `lineTicket`, with 3 and 15 marked, the draw of 82 completes row 0; the
topLine ledger is empty before the draw and holds the participant after it. -/
theorem line_win_rule_witness :
    Reachable lineGame ∧ lineGame.participants = [] ++ linePlayer :: [] ∧ 0 < 3 ∧
      lineGame.winners.topLine = [] ∧
      (manualCallNumber lineGame 82).winners.topLine = [{ id := 1, name := "P" }] ∧
      ((checkParticipant 82 (checkAll 82 lineGame []).1 linePlayer).1.winners.get
          (lineCategory 0) = (checkAll 82 lineGame []).1.winners.get (lineCategory 0) ∨
        (checkParticipant 82 (checkAll 82 lineGame []).1 linePlayer).1.winners.get
          (lineCategory 0) = (checkAll 82 lineGame []).1.winners.get (lineCategory 0) ++
            [{ id := 1, name := "P" }]) :=
  have hr : Reachable lineGame :=
    Reachable.manual _ 15 (Reachable.manual _ 3 (Reachable.fresh _ 0 lineRoster)
      (by decide) (by decide)) (by decide) (by decide)
  ⟨hr, by decide, by decide, by decide, by decide,
    (line_win_rule lineGame hr [] [] linePlayer (by decide) lineGame 82 0 (by decide)).1⟩

/-! ## Claims on prizes, the queue and reset -/

/-- C13: at the turn of a participant within a draw of `n` (`s` is the engine state then),
the earlyFive ledger is either unchanged or extended by the participant, and it is
extended if and only if `n` is on the participant's ticket, the marks number at least 5
after marking, the ledger is empty, and no entry of it carries the participant's id. -/
theorem early_five_rule (n : Int) (s : Game) (p : Participant) :
    ((checkParticipant n s p).1.winners.get .earlyFive = s.winners.get .earlyFive ∨
      (checkParticipant n s p).1.winners.get .earlyFive =
        s.winners.get .earlyFive ++ [{ id := p.id, name := p.name }]) ∧
    ((checkParticipant n s p).1.winners.get .earlyFive =
        s.winners.get .earlyFive ++ [{ id := p.id, name := p.name }] ↔
      (OnTicket p.ticket n ∧ 5 ≤ (p.markedNumbers ++ [n]).length ∧
        s.winners.get .earlyFive = [] ∧ ∀ e ∈ s.winners.get .earlyFive, e.id ≠ p.id)) := by
  rw [checkParticipant_earlyFive]
  constructor
  · split
    · exact Or.inr rfl
    · exact Or.inl rfl
  · have hiff : (onTicket p.ticket n && earlyFiveWinsNow (s.winners.get .earlyFive)
        { p with markedNumbers := p.markedNumbers ++ [n] }) = true ↔
        (OnTicket p.ticket n ∧ 5 ≤ (p.markedNumbers ++ [n]).length ∧
          s.winners.get .earlyFive = [] ∧ ∀ e ∈ s.winners.get .earlyFive, e.id ≠ p.id) := by
      rw [Bool.and_eq_true, onTicket_iff]
      unfold earlyFiveWinsNow
      simp only [Bool.and_eq_true, decide_eq_true_eq, Bool.not_eq_true', Nat.lt_one_iff,
        List.length_eq_zero, ge_iff_le]
      constructor
      · rintro ⟨h1, ⟨h2, h3⟩, h4⟩
        refine ⟨h1, h3, h2, ?_⟩
        intro e he
        rw [h2] at he
        exact absurd he (List.not_mem_nil _)
      · rintro ⟨h1, h3, h2, -⟩
        refine ⟨h1, ⟨h2, h3⟩, ?_⟩
        rw [h2]
        rfl
    split
    · rename_i hc
      exact ⟨fun _ => hiff.1 hc, fun _ => rfl⟩
    · rename_i hc
      constructor
      · intro h
        have := congrArg List.length h
        simp at this
      · intro h
        exact absurd (hiff.2 h) hc

/-- C15: on a non-empty queue `showNextPendingWinner` sends the oldest pending event and
keeps the others in their order; on an empty queue it changes nothing; `k` successive calls
send the first `k` pending events in their order; switching the mode to auto sends every
pending event, oldest first, and leaves the queue empty. -/
theorem pending_queue_fifo (s : Game) :
    (∀ w rest, s.pendingWinners = w :: rest →
      showNextPendingWinner s =
        { s with pendingWinners := rest, displayed := s.displayed ++ [w] }) ∧
    (s.pendingWinners = [] → showNextPendingWinner s = s) ∧
    (∀ k, (showNextPendingWinner^[k] s).displayed = s.displayed ++ s.pendingWinners.take k ∧
      (showNextPendingWinner^[k] s).pendingWinners = s.pendingWinners.drop k) ∧
    ((setAnnouncementMode s true).displayed = s.displayed ++ s.pendingWinners ∧
      (setAnnouncementMode s true).pendingWinners = [] ∧
      (setAnnouncementMode s true).autoAnnounce = true) := by
  refine ⟨fun w rest h => showNextPendingWinner_cons s w rest h,
    fun h => showNextPendingWinner_nil s h, ?_, ?_⟩
  · intro k
    rw [iterate_showNextPendingWinner]
    exact ⟨rfl, rfl⟩
  · rw [setAnnouncementMode_auto]
    exact ⟨rfl, rfl, rfl⟩

/-- C16: `resetGame` empties `calledNumbers`, sets `currentNumber` to null, refills
`remainingNumbers` with a rearrangement of 1..90, empties every ledger and the pending
queue, clears the marks and flags of every participant, and keeps the roster: the same
participants in the same order with the same id, name and ticket. -/
theorem resetGame_fresh_state (g : Rng) (pos : Nat) (s : Game) :
    (resetGame g pos s).calledNumbers = [] ∧
      (resetGame g pos s).currentNumber = none ∧
      ((resetGame g pos s).remainingNumbers.Perm fullPool ∧
        (resetGame g pos s).remainingNumbers.Nodup ∧
        ∀ n : Int, n ∈ (resetGame g pos s).remainingNumbers ↔ (1 ≤ n ∧ n ≤ 90)) ∧
      (∀ c, (resetGame g pos s).winners.get c = []) ∧
      (resetGame g pos s).pendingWinners = [] ∧
      (∀ p ∈ (resetGame g pos s).participants,
        p.markedNumbers = [] ∧ p.rowsCompleted = [false, false, false] ∧
          p.cornersWon = false) ∧
      (resetGame g pos s).participants.map (fun p => (p.id, p.name, p.ticket)) =
        s.participants.map (fun p => (p.id, p.name, p.ticket)) := by
  have hperm := (resetGame_start g pos s).1
  refine ⟨rfl, rfl, ⟨hperm, hperm.nodup_iff.2 nodup_fullPool, fun n => ?_⟩, ?_, rfl, ?_, ?_⟩
  · rw [hperm.mem_iff, mem_fullPool]
  · intro c
    cases c <;> rfl
  · intro p hp
    unfold resetGame at hp
    simp only [List.mem_map] at hp
    obtain ⟨q, -, rfl⟩ := hp
    exact ⟨rfl, rfl, rfl⟩
  · unfold resetGame
    simp only [List.map_map]
    rfl

/-- C17: in a state whose pool is a partition of 1..90 (every reachable state), for `n` in
`remainingNumbers`: `manualCallNumber(n)` runs `checkWinners(n)` on the state with `n`
appended to `calledNumbers`, `currentNumber` set to `n` and `n` taken out of
`remainingNumbers`, the other remaining numbers keeping their order; `callNextNumber` gives
that same state when `n` is the number it pops, be it after moving `n` to the end of
`remainingNumbers` or because `n` is already the last element. -/
theorem manualCallNumber_like_callNextNumber (s : Game) (n : Int) (hinv : PoolInv s)
    (hn : n ∈ s.remainingNumbers) :
    manualCallNumber s n =
        checkWinners { s with remainingNumbers := s.remainingNumbers.erase n
                              currentNumber := some n
                              calledNumbers := s.calledNumbers ++ [n] } n ∧
      ((manualCallNumber s n).calledNumbers = s.calledNumbers ++ [n] ∧
        (manualCallNumber s n).currentNumber = some n ∧
        ∃ l₁ l₂, s.remainingNumbers = l₁ ++ n :: l₂ ∧
          (manualCallNumber s n).remainingNumbers = l₁ ++ l₂) ∧
      callNextNumber { s with remainingNumbers := s.remainingNumbers.erase n ++ [n] } =
        manualCallNumber s n ∧
      (s.remainingNumbers.getLast? = some n → callNextNumber s = manualCallNumber s n) := by
  have hnd : (s.calledNumbers ++ s.remainingNumbers).Nodup := by
    unfold PoolInv at hinv
    exact hinv.nodup_iff.2 nodup_fullPool
  obtain ⟨-, hrnd, hdisj⟩ := List.nodup_append.1 hnd
  have hnot : ¬ s.calledNumbers.contains n = true := by
    intro hc
    exact hdisj (by simpa using hc) hn
  have hman : manualCallNumber s n =
      checkWinners { s with remainingNumbers := s.remainingNumbers.erase n
                            currentNumber := some n
                            calledNumbers := s.calledNumbers ++ [n] } n := by
    unfold manualCallNumber
    rw [if_neg hnot]
  refine ⟨hman, ⟨?_, ?_, ?_⟩, ?_, ?_⟩
  · rw [hman, checkWinners_called]
  · rw [hman, checkWinners_current]
  · obtain ⟨l₁, l₂, -, h1, h2⟩ := List.exists_erase_eq hn
    exact ⟨l₁, l₂, h1, by rw [hman, checkWinners_remaining]; exact h2⟩
  · rw [hman]
    unfold callNextNumber
    simp only [List.getLast?_concat, List.dropLast_concat]
  · intro hlast
    rw [hman]
    obtain ⟨l, hl⟩ : ∃ l, s.remainingNumbers = l ++ [n] := by
      rcases List.eq_nil_or_concat s.remainingNumbers with h0 | ⟨l, a, h0⟩
      · rw [h0] at hn
        exact absurd hn (List.not_mem_nil _)
      · rw [List.concat_eq_append] at h0
        rw [h0, List.getLast?_concat] at hlast
        exact ⟨l, by rw [h0]; injection hlast with h; rw [h]⟩
    have hnl : n ∉ l := by
      intro hmem
      rw [hl] at hrnd
      exact (List.nodup_append.1 hrnd).2.2 hmem (List.mem_singleton_self n)
    have herase : s.remainingNumbers.erase n = l := by
      rw [hl, List.erase_append_right _ hnl]
      simp
    unfold callNextNumber
    rw [hlast, herase]
    simp only [hl, List.dropLast_concat]

/-- C19: in every state reached from a fresh game by draws, `showNextPendingWinner`,
switches of the announcement mode and resets, auto mode implies an empty queue; a
`checkWinners` run in auto mode sends its events to the display and leaves the queue as it
was; switching to auto leaves the queue empty. -/
theorem auto_mode_queue_empty (s : Game) (h : ReachableFull s) :
    (s.autoAnnounce = true → s.pendingWinners = []) ∧
      (∀ (s₁ : Game) (n : Int), s₁.autoAnnounce = true →
        (checkWinners s₁ n).pendingWinners = s₁.pendingWinners ∧
          ∃ evs, (checkWinners s₁ n).displayed = s₁.displayed ++ evs) ∧
      (∀ s₁ : Game, (setAnnouncementMode s₁ true).pendingWinners = []) := by
  have hdraw : ∀ (s₁ : Game) (n : Int), s₁.autoAnnounce = true →
      (checkWinners s₁ n).pendingWinners = s₁.pendingWinners ∧
        ∃ evs, (checkWinners s₁ n).displayed = s₁.displayed ++ evs := by
    intro s₁ n hauto
    obtain ⟨evss, -, hev⟩ := events_checkWinners s₁ n
    unfold EventsAppended at hev
    rw [if_pos hauto] at hev
    exact ⟨hev.2.2, _, hev.2.1⟩
  have hkeep : ∀ (s₁ : Game) (n : Int),
      (checkWinners s₁ n).autoAnnounce = s₁.autoAnnounce := by
    intro s₁ n
    obtain ⟨evss, -, hev⟩ := events_checkWinners s₁ n
    exact hev.1
  refine ⟨?_, hdraw, fun s₁ => by rw [setAnnouncementMode_auto]⟩
  induction h with
  | fresh g pos roster => exact fun _ => rfl
  | callNext s _ ih =>
    unfold callNextNumber
    split
    · exact ih
    · intro hauto
      rw [hkeep] at hauto
      rw [(hdraw _ _ hauto).1]
      exact ih hauto
  | manual s n _ _ _ ih =>
    unfold manualCallNumber
    split
    · exact ih
    · intro hauto
      rw [hkeep] at hauto
      rw [(hdraw _ _ hauto).1]
      exact ih hauto
  | reset g pos s _ _ => exact fun _ => rfl
  | showNext s _ ih =>
    intro hauto
    cases hq : s.pendingWinners with
    | nil =>
      rw [showNextPendingWinner_nil s hq]
      exact hq
    | cons w rest =>
      rw [showNextPendingWinner_cons s w rest hq] at hauto
      rw [ih hauto] at hq
      exact absurd hq (by simp)
  | setMode s checked _ ih =>
    cases checked with
    | true =>
      intro _
      rw [setAnnouncementMode_auto]
    | false =>
      intro hauto
      rw [setAnnouncementMode_manual] at hauto
      exact absurd hauto (by simp)

/-- C20: when the fullHouse ledger holds fewer than 3 entries before a draw and 3 (or
more) after it, `autoCallInterval` is null after the draw, for `checkWinners` and for both
draw methods, whatever it was before. -/
theorem full_house_stops_auto_call (s : Game) (n : Int)
    (hbefore : (s.winners.get .fullHouse).length < 3) :
    (3 ≤ ((checkWinners s n).winners.get .fullHouse).length →
      (checkWinners s n).autoCallInterval = none) ∧
    (3 ≤ ((callNextNumber s).winners.get .fullHouse).length →
      (callNextNumber s).autoCallInterval = none) ∧
    (3 ≤ ((manualCallNumber s n).winners.get .fullHouse).length →
      (manualCallNumber s n).autoCallInterval = none) := by
  have key : ∀ (s₁ : Game) (m : Int), (s₁.winners.get .fullHouse).length < 3 →
      3 ≤ ((checkWinners s₁ m).winners.get .fullHouse).length →
      (checkWinners s₁ m).autoCallInterval = none := by
    intro s₁ m hlt
    exact timerOff_checkAll m s₁.participants s₁ (fun h3 => absurd h3 (by omega))
  refine ⟨key s n hbefore, ?_, ?_⟩
  · unfold callNextNumber
    split
    · exact fun _ => rfl
    · exact key _ _ hbefore
  · unfold manualCallNumber
    split
    · intro h3
      exact absurd h3 (by omega)
    · exact key _ _ hbefore


/-- C11: `getFirstNumberInRow` and `getLastNumberInRow` return the leftmost and the
rightmost non-null cell of a row, so the four corner values are those of rows 0 and 2; in
a state reached from a fresh game, at the turn of participant `p` within a draw of `n`
(`turn` is the engine state after the participants before `p`), the corners ledger is
either unchanged or extended by `p`, and it is extended if and only if `n` is on the ticket,
each of the four corner values is a number that is marked after marking, the ledger holds
fewer than 2 entries, and none of them carries the id of `p`. -/
theorem corner_win_rule (s : Game) (hs : Reachable s) (before after : List Participant)
    (p : Participant) (hsplit : s.participants = before ++ p :: after) (s₁ : Game)
    (hw : s₁.winners = s.winners) (n : Int) :
    let turn := (checkAll n s₁ before).1
    let ledger := turn.winners.get .corners
    let ledger' := (checkParticipant n turn p).1.winners.get .corners
    (∀ row v,
      (getFirstNumberInRow p.ticket row = some v ↔
        ∃ c, c < 9 ∧ cell p.ticket row c = some v ∧ ∀ c', c' < c → cell p.ticket row c' = none) ∧
      (getLastNumberInRow p.ticket row = some v ↔
        ∃ c, c < 9 ∧ cell p.ticket row c = some v ∧
          ∀ c', c < c' → c' < 9 → cell p.ticket row c' = none)) ∧
    (ledger' = ledger ∨ ledger' = ledger ++ [{ id := p.id, name := p.name }]) ∧
    (ledger' = ledger ++ [{ id := p.id, name := p.name }] ↔
      (OnTicket p.ticket n ∧
        (∀ corner ∈ [getFirstNumberInRow p.ticket 0, getLastNumberInRow p.ticket 0,
            getFirstNumberInRow p.ticket 2, getLastNumberInRow p.ticket 2],
          ∃ v, corner = some v ∧ v ∈ p.markedNumbers ++ [n]) ∧
        ledger.length < 2 ∧ ∀ e ∈ ledger, e.id ≠ p.id)) := by
  intro turn ledger ledger'
  have hline : ledger' = if onTicket p.ticket n &&
      cornersWinNow ledger { p with markedNumbers := p.markedNumbers ++ [n] } then
        ledger ++ [{ id := p.id, name := p.name }] else ledger :=
    checkParticipant_corners n turn p
  have hflag : p.cornersWon = true → ∃ e ∈ ledger, e.id = p.id := by
    have hinv : CornerFlagInv s₁.winners ([] ++ (before ++ p :: after)) := by
      rw [hw, List.nil_append, ← hsplit]
      exact reachable_cornerFlagInv s hs
    have hturn := cornerFlagInv_checkAll n before s₁ [] (p :: after) hinv
    exact hturn p (by simp)
  have hiff : (onTicket p.ticket n &&
      cornersWinNow ledger { p with markedNumbers := p.markedNumbers ++ [n] }) = true ↔
      (OnTicket p.ticket n ∧
        (∀ corner ∈ [getFirstNumberInRow p.ticket 0, getLastNumberInRow p.ticket 0,
            getFirstNumberInRow p.ticket 2, getLastNumberInRow p.ticket 2],
          ∃ v, corner = some v ∧ v ∈ p.markedNumbers ++ [n]) ∧
        ledger.length < 2 ∧ ∀ e ∈ ledger, e.id ≠ p.id) := by
    have hall := allCorners_iff p.ticket (p.markedNumbers ++ [n])
    have hany := any_id_eq_false_iff ledger p.id
    rw [Bool.and_eq_true, onTicket_iff]
    constructor
    · rintro ⟨h1, h2⟩
      unfold cornersWinNow at h2
      rw [Bool.and_eq_true, Bool.and_eq_true, Bool.and_eq_true] at h2
      obtain ⟨⟨⟨-, h3⟩, h4⟩, h5⟩ := h2
      exact ⟨h1, hall.1 h3, of_decide_eq_true h4, hany.1 h5⟩
    · rintro ⟨h1, h3, h4, h5⟩
      refine ⟨h1, ?_⟩
      unfold cornersWinNow
      rw [Bool.and_eq_true, Bool.and_eq_true, Bool.and_eq_true]
      refine ⟨⟨⟨?_, hall.2 h3⟩, decide_eq_true h4⟩, hany.2 h5⟩
      by_cases hc : p.cornersWon = true
      · obtain ⟨e, he, hid⟩ := hflag hc
        exact absurd hid (h5 e he)
      · have hf : p.cornersWon = false := by simpa using hc
        show (!p.cornersWon) = true
        rw [hf]
        rfl
  refine ⟨fun row v => ⟨getFirstNumberInRow_eq_some _ _ _, getLastNumberInRow_eq_some _ _ _⟩,
    ?_, ?_⟩
  · rw [hline]
    split
    · exact Or.inr rfl
    · exact Or.inl rfl
  · rw [hline]
    split
    · rename_i hc
      exact ⟨fun _ => hiff.1 hc, fun _ => rfl⟩
    · rename_i hc
      constructor
      · intro h
        have := congrArg List.length h
        simp at this
      · intro h
        exact absurd (hiff.2 h) hc

/-- C11 witness: on `sampleTicket` the right corner of row 0 is 70 in column 7 and the left
corner of row 2 is 19 in column 1, while columns 8 and 0 are empty there; and the rule at
the turn of the participant of `lineGame`. -/
theorem corner_win_rule_witness :
    Reachable lineGame ∧ lineGame.participants = [] ++ linePlayer :: [] ∧
      (getLastNumberInRow sampleTicket 0 = some 70 ∧ cell sampleTicket 0 8 = none ∧
        getFirstNumberInRow sampleTicket 2 = some 19 ∧ cell sampleTicket 2 0 = none) ∧
      ((checkParticipant 82 (checkAll 82 lineGame []).1 linePlayer).1.winners.get .corners =
          (checkAll 82 lineGame []).1.winners.get .corners ∨
        (checkParticipant 82 (checkAll 82 lineGame []).1 linePlayer).1.winners.get .corners =
          (checkAll 82 lineGame []).1.winners.get .corners ++ [{ id := 1, name := "P" }]) :=
  have hr : Reachable lineGame :=
    Reachable.manual _ 15 (Reachable.manual _ 3 (Reachable.fresh _ 0 lineRoster)
      (by decide) (by decide)) (by decide) (by decide)
  ⟨hr, by decide, by decide,
    (corner_win_rule lineGame hr [] [] linePlayer (by decide) lineGame rfl 82).2.1⟩

/-- C12, as stated, fails on a roster with a repeated id: after 14 of the 15 numbers of
their common ticket both twins have 14 marks; the draw of 90 brings both to 15 and the
fullHouse ledger then holds one entry, yet only the first twin is appended. -/
theorem full_house_refused_on_repeated_id :
    (twinGameLate.participants.map (fun p => (p.name, p.markedNumbers.length))
      = [("A", 14), ("B", 14)]) ∧
    ((manualCallNumber twinGameLate 90).participants.map
        (fun p => (p.name, p.markedNumbers.length)) = [("A", 15), ("B", 15)]) ∧
    twinGameLate.winners.fullHouse = [] ∧
    (manualCallNumber twinGameLate 90).winners.fullHouse = [{ id := 1, name := "A" }] := by
  decide

/-- C12, amended: in a state reached from a fresh game, for a participant `p` whose ticket
holds 15 distinct numbers, at the turn of `p` within a draw of a number `n` not called
before: the fullHouse ledger is either unchanged or extended by `p`; it is extended if and
only if `n` is on the ticket, every number of the ticket is marked after marking, the
ledger holds fewer than 3 entries and none with the id of `p`; when `n` is on the ticket,
every number is marked exactly when the marks number 15; and when the roster's ids are
distinct, the ledger holds no entry with the id of `p` as long as `p` has an unmarked
number. -/
theorem full_house_rule (s : Game) (hs : Reachable s) (before after : List Participant)
    (p : Participant) (hsplit : s.participants = before ++ p :: after) (s₁ : Game)
    (hw : s₁.winners = s.winners) (n : Int) (hn : n ∉ s.calledNumbers)
    (hticket : (ticketNumbers p.ticket).Nodup ∧ (ticketNumbers p.ticket).length = 15) :
    let turn := (checkAll n s₁ before).1
    let ledger := turn.winners.get .fullHouse
    let ledger' := (checkParticipant n turn p).1.winners.get .fullHouse
    (ledger' = ledger ∨ ledger' = ledger ++ [{ id := p.id, name := p.name }]) ∧
    (ledger' = ledger ++ [{ id := p.id, name := p.name }] ↔
      (OnTicket p.ticket n ∧ (∀ m, OnTicket p.ticket m → m ∈ p.markedNumbers ++ [n]) ∧
        ledger.length < 3 ∧ ∀ e ∈ ledger, e.id ≠ p.id)) ∧
    (OnTicket p.ticket n →
      ((∀ m, OnTicket p.ticket m → m ∈ p.markedNumbers ++ [n]) ↔
        (p.markedNumbers ++ [n]).length = 15)) ∧
    ((s.participants.map (fun q => q.id)).Nodup →
      (∃ m, OnTicket p.ticket m ∧ m ∉ p.markedNumbers) → ∀ e ∈ ledger, e.id ≠ p.id) := by
  intro turn ledger ledger'
  have hpmem : p ∈ s.participants := by rw [hsplit]; simp
  obtain ⟨hnd, hmem⟩ := reachable_markInv s hs p hpmem
  have hline : ledger' = if onTicket p.ticket n &&
      fullHouseWinsNow ledger { p with markedNumbers := p.markedNumbers ++ [n] } then
        ledger ++ [{ id := p.id, name := p.name }] else ledger :=
    checkParticipant_fullHouse n turn p
  have hnot : n ∉ p.markedNumbers := fun hm => hn ((hmem n).1 hm).2
  have hfull : OnTicket p.ticket n →
      ((15 ≤ (p.markedNumbers ++ [n]).length ↔
          ∀ m, OnTicket p.ticket m → m ∈ p.markedNumbers ++ [n]) ∧
        (15 ≤ (p.markedNumbers ++ [n]).length → (p.markedNumbers ++ [n]).length = 15)) := by
    intro hon
    apply marks_full_iff p.ticket _ hticket
    · refine List.Nodup.append hnd (List.nodup_singleton _) ?_
      intro x hx hx'
      rw [List.mem_singleton] at hx'
      exact hnot (hx' ▸ hx)
    · intro m hm
      rcases List.mem_append.1 hm with h1 | h1
      · exact ((hmem m).1 h1).1
      · rw [List.mem_singleton] at h1
        rw [h1]
        exact hon
  have hiff : (onTicket p.ticket n &&
      fullHouseWinsNow ledger { p with markedNumbers := p.markedNumbers ++ [n] }) = true ↔
      (OnTicket p.ticket n ∧ (∀ m, OnTicket p.ticket m → m ∈ p.markedNumbers ++ [n]) ∧
        ledger.length < 3 ∧ ∀ e ∈ ledger, e.id ≠ p.id) := by
    rw [Bool.and_eq_true, onTicket_iff]
    unfold fullHouseWinsNow
    rw [Bool.and_eq_true, Bool.and_eq_true, any_id_eq_false_iff, decide_eq_true_eq,
      decide_eq_true_eq]
    constructor
    · rintro ⟨h1, ⟨h2, h3⟩, h4⟩
      exact ⟨h1, (hfull h1).1.1 h3, h2, h4⟩
    · rintro ⟨h1, h3, h2, h4⟩
      exact ⟨h1, ⟨h2, (hfull h1).1.2 h3⟩, h4⟩
  refine ⟨?_, ?_, ?_, ?_⟩
  · rw [hline]
    split
    · exact Or.inr rfl
    · exact Or.inl rfl
  · rw [hline]
    split
    · rename_i hc
      exact ⟨fun _ => hiff.1 hc, fun _ => rfl⟩
    · rename_i hc
      constructor
      · intro h
        have := congrArg List.length h
        simp at this
      · intro h
        exact absurd (hiff.2 h) hc
  · intro hon
    constructor
    · intro hall
      exact (hfull hon).2 ((hfull hon).1.2 hall)
    · intro h15
      exact (hfull hon).1.1 (by omega)
  · rintro hnodup ⟨m, hm, hmn⟩ e he heq
    have hinv : FullHouseInv s₁.winners ([] ++ (before ++ p :: after)) := by
      rw [hw, List.nil_append, ← hsplit]
      exact reachable_fullHouseInv s hs
    have hturn := fullHouseInv_checkAll n before s₁ [] (p :: after) hinv
    obtain ⟨q, hq, hqid, hq15⟩ := hturn e he
    rw [List.nil_append] at hq
    rw [hsplit] at hnodup
    have hqp := same_id_is_self n s₁ before after p q hnodup hq (hqid.trans heq)
    rw [hqp] at hq15
    have := (marks_full_iff p.ticket p.markedNumbers hticket hnd
      (fun x hx => ((hmem x).1 hx).1)).1.1 hq15 m hm
    exact hmn this

/-- C12 witness: `sampleTicket` holds 15 distinct numbers; the rule at the turn of the
first twin when 90 is drawn after the 14 other numbers. -/
theorem full_house_rule_witness :
    Reachable twinGameLate ∧
      ((ticketNumbers sampleTicket).Nodup ∧ (ticketNumbers sampleTicket).length = 15) ∧
      (90 : Int) ∉ twinGameLate.calledNumbers ∧
      ∃ a b, twinGameLate.participants = [] ++ a :: [b] ∧ a.ticket = sampleTicket ∧
        ((checkParticipant 90 (checkAll 90 twinGameLate []).1 a).1.winners.get .fullHouse =
            (checkAll 90 twinGameLate []).1.winners.get .fullHouse ∨
          (checkParticipant 90 (checkAll 90 twinGameLate []).1 a).1.winners.get .fullHouse =
            (checkAll 90 twinGameLate []).1.winners.get .fullHouse ++
              [{ id := a.id, name := a.name }]) := by
  have hreach : ∀ (l : List Int) (s : Game), Reachable s → (∀ x ∈ l, 1 ≤ x ∧ x ≤ 90) →
      Reachable (l.foldl manualCallNumber s) := by
    intro l
    induction l with
    | nil => exact fun s hs _ => hs
    | cons x l ih =>
      intro s hs hl
      exact ih _ (Reachable.manual s x hs (hl x (List.mem_cons_self _ _)).1
        (hl x (List.mem_cons_self _ _)).2) (fun y hy => hl y (List.mem_cons_of_mem _ hy))
  have hr : Reachable twinGameLate :=
    hreach _ _ (Reachable.fresh _ 0 twinRoster) (by decide)
  have hnd : (ticketNumbers sampleTicket).Nodup ∧ (ticketNumbers sampleTicket).length = 15 :=
    by decide
  have hps : ∃ a b, twinGameLate.participants = [] ++ a :: [b] ∧ a.ticket = sampleTicket := by
    refine ⟨twinGameLate.participants.getD 0 linePlayer,
      twinGameLate.participants.getD 1 linePlayer, by decide, by decide⟩
  obtain ⟨a, b, hsplit, hta⟩ := hps
  refine ⟨hr, hnd, by decide, a, b, hsplit, hta, ?_⟩
  exact (full_house_rule twinGameLate hr [] [b] a hsplit twinGameLate rfl 90 (by decide)
    (by rw [hta]; exact hnd)).1

/-- C14, as stated, fails: in manual mode, on a roster of two valid tickets, the draw of 90
queues the corners event of the first participant before the earlyFive and topLine events
of the second. -/
theorem draw_events_not_in_category_order :
    _isValidTicket sampleTicket = true ∧ _isValidTicket otherTicket = true ∧
      orderGame.autoAnnounce = false ∧ orderGame.pendingWinners = [] ∧
      (manualCallNumber orderGame 90).pendingWinners.map (fun e => (e.category, e.name)) =
        [(Category.corners, "A"), (Category.earlyFive, "B"), (Category.topLine, "B")] := by
  decide

/-- C14, amended: in manual mode, the events that a draw (the `checkWinners` run of either
draw method) appends to `pendingWinners` are those of the participants in roster order,
the events of one participant being in the category order earlyFive, topLine, middleLine,
bottomLine, corners, fullHouse; nothing is sent to the display; and successive
`showNextPendingWinner` calls then send the queue in that order. -/
theorem draw_events_by_participant (s : Game) (n : Int) (hmanual : s.autoAnnounce = false) :
    ∃ evss : List (List WinnerEvent),
      List.Forall₂ OwnEventsInOrder s.participants evss ∧
      (checkWinners s n).pendingWinners = s.pendingWinners ++ evss.flatten ∧
      (checkWinners s n).displayed = s.displayed ∧
      ∀ k, (showNextPendingWinner^[k] (checkWinners s n)).displayed =
        s.displayed ++ (s.pendingWinners ++ evss.flatten).take k := by
  obtain ⟨evss, h1, h2⟩ := events_checkWinners s n
  unfold EventsAppended at h2
  rw [if_neg (by rw [hmanual]; decide)] at h2
  refine ⟨evss, h1, h2.2.1, h2.2.2, ?_⟩
  intro k
  rw [iterate_showNextPendingWinner]
  show (checkWinners s n).displayed ++ (checkWinners s n).pendingWinners.take k = _
  rw [h2.2.1, h2.2.2]

/-- C14 witness: the draw of 90 in `orderGame`. -/
theorem draw_events_by_participant_witness :
    orderGame.autoAnnounce = false ∧
      ∃ evss : List (List WinnerEvent),
        List.Forall₂ OwnEventsInOrder orderGame.participants evss ∧
        (checkWinners orderGame 90).pendingWinners =
          orderGame.pendingWinners ++ evss.flatten :=
  ⟨by decide,
    (draw_events_by_participant orderGame 90 (by decide)).elim
      (fun evss h => ⟨evss, h.1, h.2.1⟩)⟩

/-- C17 witness: 5 is called by hand in a fresh game. -/
theorem manualCallNumber_like_callNextNumber_witness :
    PoolInv (newGame (fun k => k) 0 lineRoster) ∧
      (5 : Int) ∈ (newGame (fun k => k) 0 lineRoster).remainingNumbers ∧
      (manualCallNumber (newGame (fun k => k) 0 lineRoster) 5).calledNumbers =
        (newGame (fun k => k) 0 lineRoster).calledNumbers ++ [5] :=
  have hinv := poolInv_newGame (fun k => k) 0 lineRoster
  have hmem : (5 : Int) ∈ (newGame (fun k => k) 0 lineRoster).remainingNumbers :=
    (newGame_start (fun k => k) 0 lineRoster).1.mem_iff.2 ((mem_fullPool 5).2 (by decide))
  ⟨hinv, hmem, (manualCallNumber_like_callNextNumber _ 5 hinv hmem).2.1.1⟩

/-- C18 fails on the code: on a random source that repeats after 106 values,
`generateTickets(2)` returns the same grid twice. -/
theorem generateTickets_can_repeat :
    (generateTickets repeatingSource 60 2 0).map (fun r => r.1) = some
      [[[none, some 12, none, none, some 41, some 52, none, some 74, some 80],
        [none, some 15, some 23, some 31, some 44, none, some 61, none, none],
        [some 5, none, some 24, some 32, none, none, some 62, none, some 84]],
       [[none, some 12, none, none, some 41, some 52, none, some 74, some 80],
        [none, some 15, some 23, some 31, some 44, none, some 61, none, none],
        [some 5, none, some 24, some 32, none, none, some 62, none, some 84]]] := by
  decide

/-- C19 witness: the state after switching to manual mode, a draw, and back to auto. -/
theorem auto_mode_queue_empty_witness :
    ReachableFull (setAnnouncementMode (manualCallNumber
        (setAnnouncementMode (newGame (fun k => k) 0 lineRoster) false) 3) true) ∧
      (setAnnouncementMode (manualCallNumber
        (setAnnouncementMode (newGame (fun k => k) 0 lineRoster) false) 3) true).pendingWinners
        = [] :=
  have hr : ReachableFull (setAnnouncementMode (manualCallNumber
      (setAnnouncementMode (newGame (fun k => k) 0 lineRoster) false) 3) true) :=
    ReachableFull.setMode _ true (ReachableFull.manual _ 3
      (ReachableFull.setMode _ false (ReachableFull.fresh _ 0 lineRoster))
      (by decide) (by decide))
  ⟨hr, (auto_mode_queue_empty _ hr).1 (by rw [setAnnouncementMode_auto])⟩

set_option maxRecDepth 4000 in
/-- C20 witness: with the timer running, the draw of 90 in `tripleGameLate` completes the
tickets of all three participants; the fullHouse ledger goes from empty to 3 entries and
the timer is off afterwards. -/
theorem full_house_stops_auto_call_witness :
    (tripleGameLate.winners.get .fullHouse).length < 3 ∧
      tripleGameLate.autoCallInterval = some 1 ∧
      ((checkWinners tripleGameLate 90).winners.get .fullHouse).length = 3 ∧
      (checkWinners tripleGameLate 90).autoCallInterval = none :=
  ⟨by decide, by decide, by decide,
    (full_house_stops_auto_call tripleGameLate 90 (by decide)).1 (by decide)⟩

/-! ## Claims on row balancing, column counts, the order of a draw and the highlight -/

/-- C21, as stated, fails: there is no ticket that the column-assignment step can produce
and no outcome of the random choices on which `_balanceRows` returns false and leaves a
row with a number of cells different from 5. -/
theorem balanceRows_never_fails :
    ¬ ∃ (t : Ticket) (g : Rng) (pos : Nat), ColumnStepTicket t ∧
      (_balanceRows g t pos).1 = false ∧
      ∃ r, r < 3 ∧ nonNullInRow (_balanceRows g t pos).2.1 r ≠ 5 := by
  rintro ⟨t, g, pos, ⟨hshape, h15, -⟩, hfalse, -⟩
  have htrue := (balanceLoop_balanced g 50 t pos hshape h15
    (by have := overflow_le t h15; omega)).1
  unfold _balanceRows at hfalse
  rw [htrue] at hfalse
  cases hfalse

/-- C21, amended: on every 3x9 grid that holds 15 numbers, as every ticket that the
column-assignment step produces does, and for every outcome of the random choices,
`_balanceRows` returns true and leaves 5 numbers in every row; 6 of its 50 passes are
always enough. -/
theorem balanceRows_always_balances (g : Rng) (t : Ticket) (pos : Nat) (hshape : Shape t)
    (h15 : totalNonNull t = 15) :
    (_balanceRows g t pos).1 = true ∧
      (∀ r, r < 3 → nonNullInRow (_balanceRows g t pos).2.1 r = 5) ∧
      ∀ k, 6 ≤ k → (balanceLoop g k t pos).1 = true := by
  have hle := overflow_le t h15
  obtain ⟨h1, h2⟩ := balanceLoop_balanced g 50 t pos hshape h15 (by omega)
  refine ⟨h1, ?_, fun k hk => (balanceLoop_balanced g k t pos hshape h15 (by omega)).1⟩
  have hs := shape_balanceLoop g 50 t pos hshape
  rw [rowCountsOf_eq _ hs] at h2
  simp only [List.all_cons, List.all_nil, Bool.and_true, Bool.and_eq_true, beq_iff_eq] at h2
  intro r hr
  unfold _balanceRows
  interval_cases r
  · exact h2.1
  · exact h2.2.1
  · exact h2.2.2

/-- C21 witness: `lopsidedTicket`, with rows of 9, 6 and 0 numbers, is a ticket that the
column-assignment step can hand over; it is balanced whatever the random source. -/
theorem balanceRows_always_balances_witness :
    ColumnStepTicket lopsidedTicket ∧
      (_balanceRows (fun k => k * 7 + 3) lopsidedTicket 0).1 = true ∧
      (_balanceRows (fun k => k * 7 + 3) lopsidedTicket 0).2.1 =
        [[none, none, none, none, some 40, some 50, some 60, some 70, some 80],
         [some 2, some 11, some 21, some 31, none, some 51, none, none, none],
         [some 6, some 14, some 23, some 32, some 49, none, none, none, none]] :=
  ⟨⟨by decide, by decide, by unfold ColumnGood; decide⟩,
    (balanceRows_always_balances (fun k => k * 7 + 3) lopsidedTicket 0 (by decide)
      (by decide)).1, by decide⟩

/-- C22: when `_distributeColumnCounts` returns, it returns 9 counts, each between 1 and
3, of sum 15; the loop starts in a state where the counts are 9, each between 1 and 3, and
add up to 15 with `remaining`, and every iteration hands such a state to the next. -/
theorem distributeColumnCounts_invariant (g : Rng) (fuel pos : Nat) (res : List Nat × Nat)
    (hres : _distributeColumnCounts g fuel pos = some res) :
    (res.1.length = 9 ∧ (∀ c ∈ res.1, 1 ≤ c ∧ c ≤ 3) ∧ res.1.sum = 15) ∧
    CountsInv [1, 1, 1, 1, 1, 1, 1, 1, 1] (15 - 9) ∧
    ∀ (counts : List Nat) (remaining p : Nat), CountsInv counts (remaining + 1) →
      ∃ counts2 remaining2, CountsInv counts2 remaining2 ∧
        ∀ fuel2, distributeLoop g (fuel2 + 1) p counts (remaining + 1) =
          distributeLoop g fuel2 (p + 1) counts2 remaining2 := by
  refine ⟨?_, countsInv_init, ?_⟩
  · have hinv := distributeLoop_inv g fuel pos _ _ countsInv_init res hres
    obtain ⟨a, b, c, d, e, f, x, y, z, hl, ha, hb, hc, hd, he, hf, hx, hy, hz, hs⟩ :=
      countsInv_cases hinv
    rw [hl]
    refine ⟨rfl, ?_, ?_⟩
    · intro v hv
      simp only [List.mem_cons, List.mem_singleton, List.not_mem_nil, or_false] at hv
      rcases hv with h | h | h | h | h | h | h | h | h <;> rw [h] <;> assumption
    · simp only [List.sum_cons, List.sum_nil]
      omega
  · intro counts remaining p hinv
    by_cases hlt : counts.getD (randomBelow g p 9) 0 < 3
    · refine ⟨_, remaining, countsInv_set hinv _ (Nat.mod_lt _ (by decide)) hlt, ?_⟩
      intro fuel2
      rw [distributeLoop]
      exact if_pos hlt
    · refine ⟨counts, remaining + 1, hinv, ?_⟩
      intro fuel2
      rw [distributeLoop]
      exact if_neg hlt

/-- C22 witness: on the random source 0, 1, 2, ... the loop ends after 6 picks. -/
theorem distributeColumnCounts_invariant_witness :
    _distributeColumnCounts (fun k => k) 6 0 = some ([2, 2, 2, 2, 2, 2, 1, 1, 1], 6) ∧
      ([2, 2, 2, 2, 2, 2, 1, 1, 1].length = 9 ∧
        (∀ c ∈ [2, 2, 2, 2, 2, 2, 1, 1, 1], 1 ≤ c ∧ c ≤ 3) ∧
        [2, 2, 2, 2, 2, 2, 1, 1, 1].sum = 15) :=
  ⟨by decide,
    (distributeColumnCounts_invariant (fun k => k) 6 0 ([2, 2, 2, 2, 2, 2, 1, 1, 1], 6)
      (by decide)).1⟩

/-- C23: a draw runs the participants in roster order (the roster keeps its ids in their
order, and the state after a participant's turn is the state before the next one's).  At
the turn of participant `p`, for every category the ledger is extended by `p` exactly when
the number is on the ticket and the test of that category holds, and is left as it was
otherwise.  Each participant gets a list of events under the participant's name, empty
when the drawn number is not on the ticket, whose categories are exactly those whose
ledger the turn extends, that is those whose test holds, listed in the order earlyFive,
topLine, middleLine, bottomLine, corners, fullHouse.  The draw appends these lists, in
roster order, to the display in auto mode and to `pendingWinners` in manual mode. -/
theorem draw_events_in_roster_then_category_order (s : Game) (n : Int) :
    (checkWinners s n).participants.map (fun p => p.id) = s.participants.map (fun p => p.id) ∧
    (checkWinners s n).winners = (checkAll n s s.participants).1.winners ∧
    ∃ evss : List (List WinnerEvent),
      List.Forall₂ (fun p evs =>
        (¬ OnTicket p.ticket n → evs = []) ∧ (∀ e ∈ evs, e.name = p.name) ∧
        (evs.map (fun e => e.category.rank)).Sorted (fun a b => a < b)) s.participants evss ∧
      (s.autoAnnounce = true →
        (checkWinners s n).displayed = s.displayed ++ evss.flatten ∧
        (checkWinners s n).pendingWinners = s.pendingWinners) ∧
      (s.autoAnnounce = false →
        (checkWinners s n).pendingWinners = s.pendingWinners ++ evss.flatten ∧
        (checkWinners s n).displayed = s.displayed) ∧
      ∀ (before after : List Participant) (p : Participant),
        s.participants = before ++ p :: after →
        let turn := (checkAll n s before).1
        let next := (checkParticipant n turn p).1
        let wins := fun c => onTicket p.ticket n &&
          winsNow c (turn.winners.get c) { p with markedNumbers := p.markedNumbers ++ [n] }
        (checkAll n s (before ++ [p])).1 = next ∧
        (∀ c, next.winners.get c =
          if wins c then turn.winners.get c ++ [{ id := p.id, name := p.name }]
          else turn.winners.get c) ∧
        (evss.getD before.length []).map (fun e => e.category) =
          allCategories.filter (fun c =>
            decide (next.winners.get c =
              turn.winners.get c ++ [{ id := p.id, name := p.name }])) ∧
        (evss.getD before.length []).map (fun e => e.category) =
          allCategories.filter wins := by
  refine ⟨ids_checkAll n s.participants s, rfl, ?_⟩
  obtain ⟨evss, h1, h2, h3⟩ := turnLog_checkAll n s.participants s
  refine ⟨evss, ?_, ?_, ?_, ?_⟩
  · refine List.Forall₂.imp ?_ h1
    rintro p evs ⟨⟨hname, hsorted⟩, hoff⟩
    refine ⟨fun hnot => hoff ?_, hname, hsorted⟩
    cases hb : onTicket p.ticket n with
    | false => rfl
    | true => exact absurd ((onTicket_iff p.ticket n).1 hb) hnot
  · intro hauto
    have h2' : EventsAppended s (checkWinners s n) evss.flatten := h2
    unfold EventsAppended at h2'
    rw [if_pos hauto] at h2'
    exact h2'.2
  · intro hmanual
    have h2' : EventsAppended s (checkWinners s n) evss.flatten := h2
    unfold EventsAppended at h2'
    rw [if_neg (by rw [hmanual]; decide)] at h2'
    exact h2'.2
  · intro before after p hsplit turn next wins
    have hledger : ∀ c, next.winners.get c =
        if wins c then turn.winners.get c ++ [{ id := p.id, name := p.name }]
        else turn.winners.get c := fun c => checkParticipant_ledger n turn p c
    have hlog := h3 before after p hsplit
    refine ⟨?_, hledger, hlog, ?_⟩
    · rw [(checkAll_append n before [p] s).1]
      rfl
    · rw [hlog]
      apply List.filter_congr
      intro c _
      show decide (next.winners.get c = _) = wins c
      rw [hledger c]
      cases wins c <;> simp

/-- C23 witness: in manual mode, the draw of 90 in `orderGame` queues the corners event of
the first participant, then the earlyFive and topLine events of the second. -/
theorem draw_events_in_roster_then_category_order_witness :
    ∃ evss : List (List WinnerEvent),
      (checkWinners orderGame 90).pendingWinners = orderGame.pendingWinners ++ evss.flatten ∧
      evss.flatten.map (fun e => (e.category, e.name)) =
        [(Category.corners, "A"), (Category.earlyFive, "B"), (Category.topLine, "B")] := by
  obtain ⟨-, -, evss, -, -, hmanual, -⟩ :=
    draw_events_in_roster_then_category_order orderGame 90
  have h := (hmanual (by decide)).1
  refine ⟨evss, h, ?_⟩
  have hq : orderGame.pendingWinners = [] := by decide
  rw [hq, List.nil_append] at h
  rw [← h]
  decide

/-- C24 fails on the code: `isWinner` is false for every state and participant, because
`w.id` is read on the array of a category and not on its entries; after the draws 1, 70,
19, 2, 13, 24, 35 and 90 on `orderRoster`, participant 1 is in the corners ledger and
participant 2 in the earlyFive and topLine ledgers, and `isWinner` is false for both. -/
theorem isWinner_false_for_winners :
    (∀ (s : Game) (p : Participant), isWinner s p = false) ∧
      (manualCallNumber orderGame 90).winners.corners = [{ id := 1, name := "A" }] ∧
      (manualCallNumber orderGame 90).winners.earlyFive = [{ id := 2, name := "B" }] ∧
      (manualCallNumber orderGame 90).winners.topLine = [{ id := 2, name := "B" }] ∧
      (manualCallNumber orderGame 90).participants.map
        (fun p => (p.id, isWinner (manualCallNumber orderGame 90) p)) =
          [(1, false), (2, false)] :=
  ⟨fun _ _ => rfl, by decide, by decide, by decide, by decide⟩

end Tambola
